/-
  Verification of the go-lrutree hierarchical LRU cache (src/cache.go).

  The Go implementation is shallowly embedded as follows.  Go heap pointers
  to `treeNode` objects are modelled by natural-number node ids allocated
  from a counter (`nextId`); the heap is an association list from ids to
  node records.  A node object is never deallocated (as in a garbage
  collected runtime, dead objects stay reachable through surviving
  pointers), so id lookups into the heap model pointer dereferences
  faithfully, including dereferences of nodes that were already deleted
  from the cache's key table.  `container/list` is modelled by the list of
  member ids ordered front-to-back; `MoveToFront` on an element that was
  removed from the list is a no-op in Go (the element's `list` field is
  nil), which corresponds to `mtf` being the identity on absent ids, and
  `(*List).Remove` of an already-removed element is likewise a no-op,
  matching `List.erase` of an absent id.  Go maps (`keysMap` and each
  node's `children`) are association lists with insert-or-replace update;
  map iteration order, which Go randomizes, is fixed to the list order
  (a deterministic refinement, noted where it matters).  The configured
  `StatsCollector` is modelled by four counters updated exactly at the
  collector call sites occurring in the source; the `onEvict` callback is
  modelled by returning the `CacheNode` value that the callback would
  receive (`none` when no eviction happened).  Upward walks over `parent`
  pointers and the recursions of `TraverseSubtree` / `Remove` are given
  explicit fuel; the fuel bounds are large enough that, in every state
  whose invariants the Go code maintains, the walk ends by reaching a nil
  parent / leaf before the fuel does (proved below), so the fuelled
  functions agree with the Go loops wherever the Go loops terminate.
-/
import Mathlib

set_option maxHeartbeats 1000000

namespace LruTree

/-! ### Association lists (Go map model) -/

variable {α : Type} {β : Type} [DecidableEq α]

/-- Lookup in an association list (Go `m[k]` read). -/
def alook : List (α × β) → α → Option β
  | [], _ => none
  | (k, v) :: t, a => if k = a then some v else alook t a

/-- Insert-or-replace (Go `m[k] = v`). -/
def aset : List (α × β) → α → β → List (α × β)
  | [], a, b => [(a, b)]
  | (k, v) :: t, a, b => if k = a then (a, b) :: t else (k, v) :: aset t a b

/-- Delete by key (Go `delete(m, k)`). -/
def adel : List (α × β) → α → List (α × β)
  | [], _ => []
  | (k, v) :: t, a => if k = a then t else (k, v) :: adel t a

/-! ### The data model of src/cache.go -/

/-- Errors returned by the cache (cache.go lines 9-14). -/
inductive Err : Type where
  | rootAlreadyExists
  | parentNotExist
  | alreadyExists
  | cycleDetected
deriving DecidableEq, Repr

/-- `CacheNode` (cache.go lines 58-62): node information returned to callers.
For the root, `parentKey` is the zero value of `K` (`Inhabited.default`). -/
structure CacheNode (K V : Type) where
  key : K
  value : V
  parentKey : K
deriving DecidableEq, Repr

/-- `treeNode` (cache.go lines 64-70).  The `parent` pointer is a node id;
`children` is the Go map from child key to child node pointer.  The
`lruElem` field is represented by the id's membership in `lruList`. -/
structure Node (K V : Type) where
  key : K
  val : V
  parent : Option Nat
  children : List (K × Nat)
deriving DecidableEq, Repr

/-- The counters of an attached `StatsCollector` (cache.go lines 17-29),
updated at exactly the collector call sites present in the source. -/
structure Stats where
  amount : Nat
  hits : Nat
  misses : Nat
  evictions : Nat
deriving DecidableEq, Repr

/-- `Cache` (cache.go lines 46-54). -/
structure Cache (K V : Type) where
  maxEntries : Int
  heap : List (Nat × Node K V)
  nextId : Nat
  keysMap : List (K × Nat)
  lruList : List Nat
  root : Option Nat
  stats : Stats
deriving DecidableEq, Repr

variable {K V : Type} [DecidableEq K] [Inhabited K] [Inhabited V]

/-- `NewCache` (cache.go line 113). -/
def newCache (maxEntries : Int) : Cache K V :=
  { maxEntries := maxEntries, heap := [], nextId := 0, keysMap := [],
    lruList := [], root := none, stats := ⟨0, 0, 0, 0⟩ }

/-- Heap lookup: dereference a node pointer. -/
def hlook (h : List (Nat × Node K V)) (i : Nat) : Option (Node K V) :=
  alook h i

/-- Heap update: mutate the node object behind pointer `i`. -/
def hupd : List (Nat × Node K V) → Nat → (Node K V → Node K V) →
    List (Nat × Node K V)
  | [], _, _ => []
  | (j, n) :: t, i, f =>
    if j = i then (j, f n) :: hupd t i f else (j, n) :: hupd t i f

/-- `(*treeNode).parentKey` (cache.go lines 89-95): the parent node's key,
or the zero value of `K` for a parentless node. -/
def parentKeyOf (h : List (Nat × Node K V)) (n : Node K V) : K :=
  match n.parent with
  | none => default
  | some p =>
    match hlook h p with
    | some np => np.key
    | none => default

/-- `MoveToFront` of the element holding `x` (no-op when `x` is not a list
member, exactly as Go's `list.MoveToFront` on a removed element). -/
def mtf (l : List Nat) (x : Nat) : List Nat :=
  if x ∈ l then x :: l.erase x else l

/-- The ids visited by a Go loop `for n := start; n != nil; n = n.parent`,
with explicit fuel.  The call sites below pass fuel exceeding the length
of any parent chain arising in states the Go code can produce. -/
def chainIds (h : List (Nat × Node K V)) : Option Nat → Nat → List Nat
  | _, 0 => []
  | none, _ => []
  | some i, fuel + 1 => i :: chainIds h ((hlook h i).bind (·.parent)) fuel

/-- Fuel that strictly dominates the length of every parent chain in a
cache state satisfying the invariants proved below. -/
def chainFuel (c : Cache K V) : Nat := c.lruList.length + 2

/-- The `CacheNode` record built from a node (key, value, parent's key). -/
def toCacheNode (h : List (Nat × Node K V)) (n : Node K V) : CacheNode K V :=
  ⟨n.key, n.val, parentKeyOf h n⟩

/-! ### Operations -/

/-- `AddRoot` (cache.go lines 180-193). -/
def addRoot (c : Cache K V) (k : K) (v : V) : Cache K V × Option Err :=
  match c.root with
  | some _ => (c, some .rootAlreadyExists)
  | none =>
    let i := c.nextId
    let n : Node K V := ⟨k, v, none, []⟩
    let keysMap1 := aset c.keysMap k i
    ({ c with heap := (i, n) :: c.heap, nextId := i + 1, root := some i,
              lruList := i :: c.lruList, keysMap := keysMap1,
              stats := { c.stats with amount := keysMap1.length } }, none)

/-- The insertion phase of `Add` (cache.go lines 216-232): validation,
node creation, linking under the parent, and the ancestor promotions —
everything before the capacity check. -/
def addCore (c : Cache K V) (k : K) (v : V) (pk : K) : Except Err (Cache K V) :=
  match alook c.keysMap pk with
  | none => .error .parentNotExist
  | some ip =>
    match alook c.keysMap k with
    | some _ => .error .alreadyExists
    | none =>
      let i := c.nextId
      let n : Node K V := ⟨k, v, some ip, []⟩
      let heap1 := (i, n) :: c.heap
      let heap2 := hupd heap1 ip fun m => { m with children := aset m.children k i }
      let lru1 := i :: c.lruList
      let lru2 := (chainIds heap2 (some ip) (chainFuel c)).foldl mtf lru1
      .ok { c with heap := heap2, nextId := i + 1,
                   keysMap := aset c.keysMap k i, lruList := lru2 }

/-- `evict` (cache.go lines 514-527). -/
def evict (c : Cache K V) : Cache K V × Option (CacheNode K V) :=
  match c.lruList.getLast? with
  | none => (c, none)
  | some tid =>
    let lru1 := c.lruList.dropLast
    match hlook c.heap tid with
    | none => (c, none)  -- unreachable: every list member id is a heap id
    | some n =>
      let pk := parentKeyOf c.heap n
      let keysMap1 := adel c.keysMap n.key
      let heap1 :=
        match n.parent with
        | none => c.heap
        | some p =>
          hupd (hupd c.heap p fun m => { m with children := adel m.children n.key })
            tid fun m => { m with parent := none }
      ({ c with lruList := lru1, keysMap := keysMap1, heap := heap1 },
        some ⟨n.key, n.val, pk⟩)

/-- The shared tail of `Add`/`AddOrUpdate` (cache.go lines 234-240 and
295-301): evict when over a positive capacity, then report the size. -/
def finishInsert (c : Cache K V) (c1 : Cache K V) :
    Cache K V × Option Err × Option (CacheNode K V) :=
  match (if 0 < c.maxEntries ∧ c.maxEntries < (c1.lruList.length : Int)
         then evict c1 else (c1, none)) with
  | (c2, ev) =>
    ({ c2 with stats := { c2.stats with amount := c2.keysMap.length } }, none, ev)

/-- `Add` (cache.go lines 204-241).  The third component is the argument
passed to the `onEvict` callback, `none` when the callback does not run. -/
def add (c : Cache K V) (k : K) (v : V) (pk : K) :
    Cache K V × Option Err × Option (CacheNode K V) :=
  match addCore c k v pk with
  | .error e => (c, some e, none)
  | .ok c1 => finishInsert c c1

/-- The insertion/update phase of `AddOrUpdate` (cache.go lines 262-293):
everything before the capacity check. -/
def addOrUpdateCore (c : Cache K V) (k : K) (v : V) (pk : K) :
    Except Err (Cache K V) :=
  match alook c.keysMap pk with
  | none => .error .parentNotExist
  | some ip =>
    match alook c.keysMap k with
    | none =>
      -- the new-node branch (cache.go lines 283-289) performs exactly the
      -- insertion of Add (cache.go lines 225-232)
      addCore c k v pk
    | some i =>
      match hlook c.heap i with
      | none => .error .parentNotExist  -- unreachable: key table ids are heap ids
      | some n =>
        if n.parent = some ip then
          let heap1 := hupd c.heap i fun m => { m with val := v }
          let lru1 := mtf c.lruList i
          let lru2 := (chainIds heap1 ((hlook heap1 i).bind (·.parent))
            (chainFuel c)).foldl mtf lru1
          .ok { c with heap := heap1, lruList := lru2 }
        else
          -- cycle check (cache.go lines 271-275): walk the new parent's
          -- chain looking for the node itself
          if i ∈ chainIds c.heap (some ip) (chainFuel c) then
            .error .cycleDetected
          else
            let heap1 :=
              match n.parent with
              | none => c.heap
              | some op => hupd c.heap op fun m =>
                  { m with children := adel m.children n.key }
            let heap2 := hupd heap1 i fun m =>
              { m with parent := some ip, val := v }
            let heap3 := hupd heap2 ip fun m =>
              { m with children := aset m.children k i }
            let lru1 := mtf c.lruList i
            let lru2 := (chainIds heap3 (some ip) (chainFuel c)).foldl mtf lru1
            .ok { c with heap := heap3, lruList := lru2 }

/-- `AddOrUpdate` (cache.go lines 250-302). -/
def addOrUpdate (c : Cache K V) (k : K) (v : V) (pk : K) :
    Cache K V × Option Err × Option (CacheNode K V) :=
  match addOrUpdateCore c k v pk with
  | .error e => (c, some e, none)
  | .ok c1 => finishInsert c c1

/-- `Peek` (cache.go lines 130-142). -/
def peek (c : Cache K V) (k : K) : Cache K V × Option (CacheNode K V) :=
  match alook c.keysMap k with
  | none => ({ c with stats := { c.stats with misses := c.stats.misses + 1 } }, none)
  | some i =>
    match hlook c.heap i with
    | none => (c, none)  -- unreachable
    | some n =>
      ({ c with stats := { c.stats with hits := c.stats.hits + 1 } },
        some ⟨k, n.val, parentKeyOf c.heap n⟩)

/-- `Get` (cache.go lines 148-165). -/
def get (c : Cache K V) (k : K) : Cache K V × Option (CacheNode K V) :=
  match alook c.keysMap k with
  | none => ({ c with stats := { c.stats with misses := c.stats.misses + 1 } }, none)
  | some i =>
    match hlook c.heap i with
    | none => (c, none)  -- unreachable
    | some n =>
      let lru1 := (chainIds c.heap (some i) (chainFuel c)).foldl mtf c.lruList
      ({ c with lruList := lru1,
                stats := { c.stats with hits := c.stats.hits + 1 } },
        some ⟨k, n.val, parentKeyOf c.heap n⟩)

/-- `Len` (cache.go lines 168-173). -/
def lenOf (c : Cache K V) : Nat := c.keysMap.length

/-- The branch slice built by `PeekBranch`/`GetBranch` (cache.go lines
320-329 and 351-361): the walk fills the slice from the target back to
the chain top, i.e. the reversed parent chain. -/
def branchOf (c : Cache K V) (i : Nat) : List (CacheNode K V) :=
  ((chainIds c.heap (some i) (chainFuel c)).reverse).filterMap fun j =>
    (hlook c.heap j).map (toCacheNode c.heap)

/-- `PeekBranch` (cache.go lines 310-334). -/
def peekBranch (c : Cache K V) (k : K) : Cache K V × List (CacheNode K V) :=
  match alook c.keysMap k with
  | none => ({ c with stats := { c.stats with misses := c.stats.misses + 1 } }, [])
  | some i =>
    ({ c with stats := { c.stats with hits := c.stats.hits + 1 } }, branchOf c i)

/-- `GetBranch` (cache.go lines 341-366): the same slice, with every
visited node moved to the front during the same target-to-top walk. -/
def getBranch (c : Cache K V) (k : K) : Cache K V × List (CacheNode K V) :=
  match alook c.keysMap k with
  | none => ({ c with stats := { c.stats with misses := c.stats.misses + 1 } }, [])
  | some i =>
    let lru1 := (chainIds c.heap (some i) (chainFuel c)).foldl mtf c.lruList
    ({ c with lruList := lru1,
              stats := { c.stats with hits := c.stats.hits + 1 } }, branchOf c i)

/-- `TraverseToRoot` (cache.go lines 377-403).  The second component is
the sequence of arguments passed to the visit callback, in call order;
the deferred promotion loop then walks the same chain. -/
def traverseToRoot (c : Cache K V) (k : K) :
    Cache K V × List (CacheNode K V) :=
  match alook c.keysMap k with
  | none => ({ c with stats := { c.stats with misses := c.stats.misses + 1 } }, [])
  | some i =>
    let ch := chainIds c.heap (some i) (chainFuel c)
    let visits := ch.filterMap fun j => (hlook c.heap j).map (toCacheNode c.heap)
    let lru1 := ch.foldl mtf c.lruList
    ({ c with lruList := lru1,
              stats := { c.stats with hits := c.stats.hits + 1 } }, visits)

/-- The recursive `traverse` closure of `TraverseSubtree` (cache.go lines
458-475), threading the recency list.  The `defer c.lruList.MoveToFront`
registered on entry runs when the call returns, i.e. after the children
have been traversed.  Children are iterated in the order of the modelled
`children` map (Go randomizes this order; the model fixes one). -/
def travGo (h : List (Nat × Node K V)) (maxDepth : Int) :
    Nat → Nat → Nat → List Nat → List (CacheNode K V) × List Nat
  | 0, _, _, lru => ([], lru)  -- out of fuel: unreachable, see chain bounds
  | fuel + 1, i, depth, lru =>
    match hlook h i with
    | none => ([], lru)  -- unreachable: children entries hold valid pointers
    | some n =>
      let vis0 := [toCacheNode h n]
      if 0 ≤ maxDepth ∧ maxDepth ≤ (depth : Int) then
        (vis0, mtf lru i)
      else
        let r := n.children.foldl
          (fun (acc : List (CacheNode K V) × List Nat) ck =>
            let r2 := travGo h maxDepth fuel ck.2 (depth + 1) acc.2
            (acc.1 ++ r2.1, r2.2))
          (vis0, lru)
        (r.1, mtf r.2 i)

/-- `TraverseSubtree` (cache.go lines 434-479), with the `WithMaxDepth`
option value (`-1` when not supplied).  After the recursion, the deferred
outer loop promotes the start node's ancestors. -/
def traverseSubtree (c : Cache K V) (k : K) (maxDepth : Int) :
    Cache K V × List (CacheNode K V) :=
  match alook c.keysMap k with
  | none => ({ c with stats := { c.stats with misses := c.stats.misses + 1 } }, [])
  | some i =>
    let r := travGo c.heap maxDepth (chainFuel c) i 0 c.lruList
    let lru2 := (chainIds c.heap ((hlook c.heap i).bind (·.parent))
      (chainFuel c)).foldl mtf r.2
    ({ c with lruList := lru2,
              stats := { c.stats with hits := c.stats.hits + 1 } }, r.1)

/-- The state threaded through `removeRecursively` (cache.go lines 494-504). -/
structure RSt (K V : Type) where
  heap : List (Nat × Node K V)
  keysMap : List (K × Nat)
  lru : List Nat
  count : Nat

/-- `removeRecursively` (cache.go lines 494-504): delete the key-table
entry for the node's key, nil the parent pointer, count, unlink from the
recency list, recurse into the children read on entry, then nil the
children map. -/
def removeRec (fuel : Nat) (i : Nat) (s : RSt K V) : RSt K V :=
  match fuel with
  | 0 => s  -- out of fuel: unreachable, see chain bounds
  | fuel + 1 =>
    match hlook s.heap i with
    | none => s  -- unreachable: children entries hold valid pointers
    | some n =>
      let s1 : RSt K V :=
        { heap := hupd s.heap i fun m => { m with parent := none },
          keysMap := adel s.keysMap n.key,
          lru := s.lru.erase i,
          count := s.count + 1 }
      let s2 := n.children.foldl (fun st ck => removeRec fuel ck.2 st) s1
      { s2 with heap := hupd s2.heap i fun m => { m with children := [] } }

/-- `removeFromParent` (cache.go lines 81-87), applied to the node behind
pointer `i`: a no-op when the parent pointer is nil. -/
def removeFromParentH (h : List (Nat × Node K V)) (i : Nat) :
    List (Nat × Node K V) :=
  match hlook h i with
  | none => h
  | some n =>
    match n.parent with
    | none => h
    | some p =>
      hupd (hupd h p fun m => { m with children := adel m.children n.key })
        i fun m => { m with parent := none }

/-- `Remove` (cache.go lines 485-512).  After the recursion the source
calls `node.removeFromParent()`, which is a no-op because the recursion
already nilled the node's parent pointer — the stale entry left in the
parent's children map is modelled faithfully. -/
def remove (c : Cache K V) (k : K) : Cache K V × Nat :=
  match alook c.keysMap k with
  | none => (c, 0)
  | some i =>
    let s := removeRec (chainFuel c) i ⟨c.heap, c.keysMap, c.lruList, 0⟩
    let heap1 := removeFromParentH s.heap i
    ({ c with heap := heap1, keysMap := s.keysMap, lruList := s.lru,
              stats := { c.stats with amount := s.keysMap.length } }, s.count)

/-! ### Association-list lemmas -/

theorem alook_aset_self (m : List (α × β)) (k : α) (v : β) :
    alook (aset m k v) k = some v := by
  induction m with
  | nil => simp [aset, alook]
  | cons p t ih =>
    by_cases h : p.1 = k <;> simp [aset, alook, h, ih]

theorem alook_aset_ne (m : List (α × β)) {k k' : α} (v : β) (h : k' ≠ k) :
    alook (aset m k v) k' = alook m k' := by
  have hk : ¬(k = k') := fun h2 => h h2.symm
  induction m with
  | nil => simp [aset, alook, hk]
  | cons p t ih =>
    by_cases h1 : p.1 = k
    · subst h1
      simp [aset, alook, hk]
    · simp only [aset, if_neg h1, alook]
      by_cases h2 : p.1 = k' <;> simp [h2, ih]

theorem alook_adel_ne (m : List (α × β)) {k k' : α} (h : k' ≠ k) :
    alook (adel m k) k' = alook m k' := by
  have hk : ¬(k = k') := fun h2 => h h2.symm
  induction m with
  | nil => simp [adel]
  | cons p t ih =>
    by_cases h1 : p.1 = k
    · subst h1
      simp [adel, alook, hk]
    · simp only [adel, if_neg h1, alook]
      by_cases h2 : p.1 = k' <;> simp [h2, ih]

theorem adel_sublist (m : List (α × β)) (k : α) : (adel m k).Sublist m := by
  induction m with
  | nil => simp [adel]
  | cons p t ih =>
    by_cases h : p.1 = k
    · simp only [adel, if_pos h]
      exact List.sublist_cons_self p t
    · simp only [adel, if_neg h]
      exact ih.cons₂ p

theorem adel_keys_sublist (m : List (α × β)) (k : α) :
    ((adel m k).map Prod.fst).Sublist (m.map Prod.fst) :=
  (adel_sublist m k).map Prod.fst

theorem alook_mem {m : List (α × β)} {k : α} {v : β}
    (h : alook m k = some v) : (k, v) ∈ m := by
  induction m with
  | nil => simp [alook] at h
  | cons p t ih =>
    by_cases h1 : p.1 = k
    · rw [alook, if_pos h1] at h
      obtain ⟨k0, v0⟩ := p
      simp only at h1
      subst h1
      simp only [Option.some.injEq] at h
      subst h
      exact List.mem_cons_self _ _
    · rw [alook, if_neg h1] at h
      exact List.mem_cons_of_mem _ (ih h)

theorem alook_mem_keys {m : List (α × β)} {k : α} {v : β}
    (h : alook m k = some v) : k ∈ m.map Prod.fst :=
  List.mem_map.mpr ⟨(k, v), alook_mem h, rfl⟩

theorem alook_none_of_not_mem_keys {m : List (α × β)} {k : α}
    (h : k ∉ m.map Prod.fst) : alook m k = none := by
  induction m with
  | nil => rfl
  | cons p t ih =>
    simp only [List.map_cons, List.mem_cons] at h
    push_neg at h
    rw [alook, if_neg (fun he => h.1 he.symm)]
    exact ih h.2

theorem alook_adel_self (m : List (α × β)) (k : α)
    (hnd : (m.map Prod.fst).Nodup) : alook (adel m k) k = none := by
  induction m with
  | nil => simp [adel, alook]
  | cons p t ih =>
    simp only [List.map_cons, List.nodup_cons] at hnd
    by_cases h : p.1 = k
    · simp only [adel, if_pos h]
      exact alook_none_of_not_mem_keys (h ▸ hnd.1)
    · simp only [adel, if_neg h, alook, if_neg h]
      exact ih hnd.2

theorem alook_of_mem {m : List (α × β)} {k : α} {v : β}
    (hnd : (m.map Prod.fst).Nodup) (h : (k, v) ∈ m) : alook m k = some v := by
  induction m with
  | nil => simp at h
  | cons p t ih =>
    simp only [List.map_cons, List.nodup_cons] at hnd
    rcases List.mem_cons.mp h with h1 | h1
    · subst h1
      simp [alook]
    · have hk : p.1 ≠ k := by
        intro he
        exact hnd.1 (he ▸ List.mem_map.mpr ⟨(k, v), h1, rfl⟩)
      rw [alook, if_neg hk]
      exact ih hnd.2 h1

theorem aset_mem_keys {m : List (α × β)} {a k : α} {v : β}
    (h : a ∈ (aset m k v).map Prod.fst) : a ∈ m.map Prod.fst ∨ a = k := by
  induction m with
  | nil => simpa [aset] using h
  | cons p t ih =>
    by_cases h1 : p.1 = k
    · simp only [aset, if_pos h1, List.map_cons, List.mem_cons] at h
      rcases h with h2 | h2
      · exact Or.inr h2
      · exact Or.inl (List.mem_cons_of_mem _ h2)
    · simp only [aset, if_neg h1, List.map_cons, List.mem_cons] at h ⊢
      rcases h with h2 | h2
      · exact Or.inl (Or.inl h2)
      · rcases ih h2 with h3 | h3
        · exact Or.inl (Or.inr h3)
        · exact Or.inr h3

theorem aset_keys_nodup (m : List (α × β)) (k : α) (v : β)
    (hnd : (m.map Prod.fst).Nodup) : ((aset m k v).map Prod.fst).Nodup := by
  induction m with
  | nil => simp [aset]
  | cons p t ih =>
    simp only [List.map_cons, List.nodup_cons] at hnd
    by_cases h : p.1 = k
    · subst h
      simpa [aset] using hnd
    · simp only [aset, if_neg h, List.map_cons, List.nodup_cons]
      refine ⟨?_, ih hnd.2⟩
      intro hmem
      rcases aset_mem_keys hmem with h2 | h2
      · exact hnd.1 h2
      · exact h h2

/-! ### Heap-update lemmas -/

theorem hupd_keys (h : List (Nat × Node K V)) (i : Nat) (f : Node K V → Node K V) :
    (hupd h i f).map Prod.fst = h.map Prod.fst := by
  induction h with
  | nil => rfl
  | cons p t ih =>
    obtain ⟨a, na⟩ := p
    by_cases h1 : a = i <;> simp [hupd, h1, ih]

theorem hlook_hupd_self (h : List (Nat × Node K V)) (i : Nat)
    (f : Node K V → Node K V) : hlook (hupd h i f) i = (hlook h i).map f := by
  induction h with
  | nil => rfl
  | cons p t ih =>
    obtain ⟨a, na⟩ := p
    by_cases h1 : a = i
    · subst h1
      show alook _ a = Option.map f (alook _ a)
      rw [hupd, if_pos rfl, alook, if_pos rfl, alook, if_pos rfl]
      rfl
    · show alook _ i = Option.map f (alook _ i)
      rw [hupd, if_neg h1, alook, if_neg h1, alook, if_neg h1]
      exact ih

theorem hlook_hupd_ne (h : List (Nat × Node K V)) {i j : Nat}
    (f : Node K V → Node K V) (hne : j ≠ i) :
    hlook (hupd h i f) j = hlook h j := by
  induction h with
  | nil => rfl
  | cons p t ih =>
    obtain ⟨a, na⟩ := p
    by_cases h1 : a = i
    · subst h1
      have hpj : a ≠ j := fun hh => hne hh.symm
      show alook _ j = alook _ j
      rw [hupd, if_pos rfl, alook, if_neg hpj, alook, if_neg hpj]
      exact ih
    · show alook _ j = alook _ j
      rw [hupd, if_neg h1]
      by_cases h2 : a = j
      · rw [alook, if_pos h2, alook, if_pos h2]
      · rw [alook, if_neg h2, alook, if_neg h2]
        exact ih

/-! ### Relative order in a list: `before l a b` means `a` occurs (strictly)
earlier than `b`. -/

def before (l : List Nat) (a b : Nat) : Prop := [a, b].Sublist l

instance (l : List Nat) (a b : Nat) : Decidable (before l a b) := by
  unfold before
  infer_instance

theorem before.mem_left {l : List Nat} {a b : Nat} (h : before l a b) : a ∈ l :=
  h.subset (by simp)

theorem before.mem_right {l : List Nat} {a b : Nat} (h : before l a b) : b ∈ l :=
  h.subset (by simp)

theorem before_append_left {xs ys : List Nat} {a b : Nat} (h : before xs a b) :
    before (xs ++ ys) a b :=
  h.trans (List.sublist_append_left xs ys)

theorem before_append_right {xs ys : List Nat} {a b : Nat} (h : before ys a b) :
    before (xs ++ ys) a b :=
  h.trans (List.sublist_append_right xs ys)

theorem before_append_cross {xs ys : List Nat} {a b : Nat}
    (ha : a ∈ xs) (hb : b ∈ ys) : before (xs ++ ys) a b := by
  have h1 : [a].Sublist xs := List.singleton_sublist.mpr ha
  have h2 : [b].Sublist ys := List.singleton_sublist.mpr hb
  exact h1.append h2

theorem before_cons {l : List Nat} {a b : Nat} (h : b ∈ l) :
    before (a :: l) a b :=
  (List.singleton_sublist.mpr h).cons₂ a

theorem before_sublist {l l' : List Nat} {a b : Nat} (h : l'.Sublist l)
    (hb : before l' a b) : before l a b :=
  hb.trans h

/-- Restriction: relative order established in `l` persists in any sublist
of `l` that still contains both elements (for duplicate-free `l`). -/
theorem mem_of_getLast?_eq {l : List Nat} {a : Nat}
    (h : l.getLast? = some a) : a ∈ l := by
  induction l with
  | nil => simp at h
  | cons x t ih =>
    cases t with
    | nil =>
      simp only [List.getLast?_singleton, Option.some.injEq] at h
      simp [h]
    | cons y u =>
      rw [List.getLast?_cons_cons] at h
      exact List.mem_cons_of_mem _ (ih h)

theorem before_restrict {a b : Nat} : ∀ {l l' : List Nat}, l.Nodup →
    l'.Sublist l → before l a b → a ∈ l' → b ∈ l' → before l' a b := by
  intro l l' hnd hsub
  induction hsub with
  | slnil => intro _ ha _; simp at ha
  | @cons l' t x hs ih =>
    intro h ha hb
    have hnd2 := (List.nodup_cons.mp hnd).2
    have hx := (List.nodup_cons.mp hnd).1
    cases h with
    | cons _ h => exact ih hnd2 h ha hb
    | cons₂ _ h =>
      -- a = x, yet a ∈ l' ⊆ t contradicts x ∉ t
      exact absurd (hs.subset ha) hx
  | @cons₂ l'' t x hs ih =>
    intro h ha hb
    have hnd2 := (List.nodup_cons.mp hnd).2
    have hx := (List.nodup_cons.mp hnd).1
    cases h with
    | cons₂ _ h =>
      -- a is the common head; h : [b] <+ t
      have hbt : b ∈ t := h.subset (by simp)
      have hbx : b ≠ a := fun he => hx (he ▸ hbt)
      have hb2 : b ∈ l'' := by
        rcases List.mem_cons.mp hb with h1 | h1
        · exact absurd h1 hbx
        · exact h1
      exact (List.singleton_sublist.mpr hb2).cons₂ _
    | cons _ h =>
      have hat : a ∈ t := h.subset (by simp)
      have hbt : b ∈ t := h.subset (by simp)
      have hax : a ≠ x := fun he => hx (he ▸ hat)
      have hbx : b ≠ x := fun he => hx (he ▸ hbt)
      have ha2 : a ∈ l'' := by
        rcases List.mem_cons.mp ha with h1 | h1
        · exact absurd h1 hax
        · exact h1
      have hb2 : b ∈ l'' := by
        rcases List.mem_cons.mp hb with h1 | h1
        · exact absurd h1 hbx
        · exact h1
      exact (ih hnd2 h ha2 hb2).cons _

theorem before_asymm {a b : Nat} : ∀ {l : List Nat}, l.Nodup →
    before l a b → before l b a → False := by
  intro l
  induction l with
  | nil => intro _ h1 _; simp [before] at h1
  | cons x t ih =>
    intro hnd h1 h2
    have hx := (List.nodup_cons.mp hnd).1
    have hnd2 := (List.nodup_cons.mp hnd).2
    cases h1 with
    | cons _ h1 =>
      cases h2 with
      | cons _ h2 => exact ih hnd2 h1 h2
      | cons₂ _ h2 =>
        -- b = x, yet b occurs in t via h1
        exact hx (h1.subset (by simp))
    | cons₂ _ h1 =>
      cases h2 with
      | cons _ h2 => exact hx (h2.subset (by simp))
      | cons₂ _ h2 => exact hx (h2.subset (by simp))

/-- An element with something after it is not the last element. -/
theorem before_ne_getLast {a b : Nat} : ∀ {l : List Nat}, l.Nodup →
    before l a b → l.getLast? ≠ some a := by
  intro l
  induction l with
  | nil => intro _ h; simp [before] at h
  | cons x t ih =>
    intro hnd h
    have hx := (List.nodup_cons.mp hnd).1
    have hnd2 := (List.nodup_cons.mp hnd).2
    cases h with
    | cons _ h =>
      cases t with
      | nil => simp [before] at h
      | cons y u =>
        rw [List.getLast?_cons_cons]
        exact ih hnd2 h
    | cons₂ _ h =>
      cases t with
      | nil => simp at h
      | cons y u =>
        rw [List.getLast?_cons_cons]
        intro hlast
        exact hx (mem_of_getLast?_eq hlast)

theorem before_indexOf {a b : Nat} : ∀ {l : List Nat}, l.Nodup →
    before l a b → l.indexOf a < l.indexOf b := by
  intro l
  induction l with
  | nil => intro _ h; simp [before] at h
  | cons x t ih =>
    intro hnd h
    have hx := (List.nodup_cons.mp hnd).1
    have hnd2 := (List.nodup_cons.mp hnd).2
    cases h with
    | cons _ h =>
      have hat : a ∈ t := h.subset (by simp)
      have hbt : b ∈ t := h.subset (by simp)
      have hax : x ≠ a := fun he => hx (he ▸ hat)
      have hbx : x ≠ b := fun he => hx (he ▸ hbt)
      rw [List.indexOf_cons_ne _ hax, List.indexOf_cons_ne _ hbx]
      exact Nat.succ_lt_succ (ih hnd2 h)
    | cons₂ _ h =>
      have hbt : b ∈ t := h.subset (by simp)
      have hbx : a ≠ b := fun he => hx (he ▸ hbt)
      rw [List.indexOf_cons_self, List.indexOf_cons_ne _ hbx]
      exact Nat.succ_pos _

/-! ### Move-to-front lemmas -/

theorem mtf_perm (l : List Nat) (x : Nat) : (mtf l x).Perm l := by
  unfold mtf
  by_cases h : x ∈ l
  · rw [if_pos h]
    exact (List.perm_cons_erase h).symm
  · rw [if_neg h]

theorem mem_mtf {l : List Nat} {x y : Nat} : y ∈ mtf l x ↔ y ∈ l :=
  (mtf_perm l x).mem_iff

theorem nodup_mtf {l : List Nat} (x : Nat) (h : l.Nodup) : (mtf l x).Nodup :=
  ((mtf_perm l x).nodup_iff).mpr h

theorem mtf_of_not_mem {l : List Nat} {x : Nat} (h : x ∉ l) : mtf l x = l := by
  unfold mtf
  rw [if_neg h]

theorem foldl_mtf_perm (ps : List Nat) (l : List Nat) :
    (ps.foldl mtf l).Perm l := by
  induction ps generalizing l with
  | nil => exact List.Perm.refl l
  | cons x t ih =>
    rw [List.foldl_cons]
    exact (ih (mtf l x)).trans (mtf_perm l x)

theorem mem_foldl_mtf {ps l : List Nat} {y : Nat} :
    y ∈ ps.foldl mtf l ↔ y ∈ l :=
  (foldl_mtf_perm ps l).mem_iff

theorem nodup_foldl_mtf {ps l : List Nat} (h : l.Nodup) :
    (ps.foldl mtf l).Nodup :=
  ((foldl_mtf_perm ps l).nodup_iff).mpr h

theorem diff_cons_of_not_mem {l t : List Nat} {a : Nat} (h : a ∉ t) :
    (a :: l).diff t = a :: l.diff t := by
  induction t generalizing l with
  | nil => simp
  | cons b u ih =>
    have hab : a ≠ b := fun he => h (he ▸ List.mem_cons_self b u)
    have hau : a ∉ u := fun he => h (List.mem_cons_of_mem _ he)
    rw [List.diff_cons, List.erase_cons_tail, List.diff_cons, ih hau]
    simpa using hab

/-- The net effect of a sequence of move-to-front operations on distinct
present elements: they end up at the front in reverse promotion order,
followed by the remaining elements in their original relative order. -/
theorem foldl_mtf_eq {ps : List Nat} : ∀ {l : List Nat}, ps.Nodup →
    (∀ x ∈ ps, x ∈ l) → ps.foldl mtf l = ps.reverse ++ l.diff ps := by
  induction ps with
  | nil => intro l _ _; simp
  | cons x t ih =>
    intro l hnd hsub
    have hx : x ∈ l := hsub x (List.mem_cons_self x t)
    have hxt : x ∉ t := (List.nodup_cons.mp hnd).1
    have hndt : t.Nodup := (List.nodup_cons.mp hnd).2
    rw [List.foldl_cons]
    have hmtf : mtf l x = x :: l.erase x := by unfold mtf; rw [if_pos hx]
    have hsub2 : ∀ y ∈ t, y ∈ mtf l x := by
      intro y hy
      rw [hmtf]
      have hyx : y ≠ x := fun he => hxt (he ▸ hy)
      exact List.mem_cons_of_mem _ ((List.mem_erase_of_ne hyx).mpr (hsub y (List.mem_cons_of_mem _ hy)))
    rw [ih hndt hsub2, hmtf, diff_cons_of_not_mem hxt]
    simp [List.diff_cons]

/-- Promoting elements that are not in the list is a no-op, so a promotion
sequence can be replaced by its present-element subsequence. -/
theorem foldl_mtf_filter (ps : List Nat) : ∀ (l : List Nat),
    ps.foldl mtf l = (ps.filter (· ∈ l)).foldl mtf l := by
  induction ps with
  | nil => intro l; rfl
  | cons x t ih =>
    intro l
    by_cases hx : x ∈ l
    · have : List.filter (fun y => decide (y ∈ l)) (x :: t) =
          x :: List.filter (fun y => decide (y ∈ l)) t := by
        rw [List.filter_cons_of_pos (by simpa using hx)]
      rw [List.foldl_cons]
      show _ = (List.filter (fun y => decide (y ∈ l)) (x :: t)).foldl mtf l
      rw [this, List.foldl_cons, ih (mtf l x)]
      congr 1
      apply List.filter_congr
      intro y _
      simp [mem_mtf]
    · have : List.filter (fun y => decide (y ∈ l)) (x :: t) =
          List.filter (fun y => decide (y ∈ l)) t := by
        rw [List.filter_cons_of_neg (by simpa using hx)]
      rw [List.foldl_cons, mtf_of_not_mem hx]
      show _ = (List.filter (fun y => decide (y ∈ l)) (x :: t)).foldl mtf l
      rw [this]
      exact ih l

/-! ### Parent-chain lemmas -/

/-- If a fuel level reproduces itself with one more unit, the walk has
already reached its natural end, and any larger fuel gives the same ids. -/
theorem chainIds_fix (h : List (Nat × Node K V)) :
    ∀ {f : Nat} {o : Option Nat}, chainIds h o f = chainIds h o (f + 1) →
    ∀ g, f ≤ g → chainIds h o g = chainIds h o f := by
  intro f
  induction f with
  | zero =>
    intro o hstab g _
    have ho : o = none := by
      cases o with
      | none => rfl
      | some i => simp [chainIds] at hstab
    subst ho
    cases g <;> simp [chainIds]
  | succ f ih =>
    intro o hstab g hg
    cases o with
    | none => cases g <;> simp [chainIds]
    | some i =>
      obtain ⟨g', rfl⟩ : ∃ g', g = g' + 1 :=
        ⟨g - 1, by omega⟩
      simp only [chainIds, List.cons.injEq, true_and] at hstab ⊢
      exact ih hstab g' (by omega)

theorem chainIds_none (h : List (Nat × Node K V)) (f : Nat) :
    chainIds h none f = [] := by
  cases f <;> rfl

theorem chainIds_dead_stop {h : List (Nat × Node K V)} {p : Nat}
    (hp : (hlook h p).bind (·.parent) = none) (f : Nat) :
    chainIds h (some p) (f + 1) = [p] := by
  simp [chainIds, hp, chainIds_none]

/-- Under the recency-ordering assumptions, the parent walk from a list
member reaches its natural end within fuel `indexOf + 2`. -/
theorem chainIds_complete {h : List (Nat × Node K V)} {lru : List Nat}
    (hnd : lru.Nodup)
    (hord : ∀ i n p, i ∈ lru → hlook h i = some n → n.parent = some p →
      p ∈ lru → before lru p i)
    (hdead : ∀ i n, hlook h i = some n → i ∉ lru → n.parent = none) :
    ∀ m, ∀ i, i ∈ lru → lru.indexOf i ≤ m →
      chainIds h (some i) (lru.indexOf i + 2) =
        chainIds h (some i) (lru.indexOf i + 3) := by
  intro m
  induction m with
  | zero =>
    intro i hi hidx
    -- indexOf i = 0: a live parent would need a smaller index
    simp only [chainIds, List.cons.injEq, true_and]
    cases hpi : (hlook h i).bind (·.parent) with
    | none => simp [chainIds]
    | some p =>
      obtain ⟨n, hn, hpar⟩ : ∃ n, hlook h i = some n ∧ n.parent = some p := by
        cases hni : hlook h i with
        | none => rw [hni] at hpi; simp at hpi
        | some n => rw [hni] at hpi; exact ⟨n, rfl, by simpa using hpi⟩
      by_cases hp : p ∈ lru
      · exfalso
        have := before_indexOf hnd (hord i n p hi hn hpar hp)
        omega
      · cases hnp : hlook h p with
        | none =>
          rw [chainIds_dead_stop (by simp [hnp]) _, chainIds_dead_stop (by simp [hnp]) _]
        | some np =>
          have := hdead p np hnp hp
          rw [chainIds_dead_stop (by simp [hnp, this]) _,
            chainIds_dead_stop (by simp [hnp, this]) _]
  | succ m ih =>
    intro i hi hidx
    simp only [chainIds, List.cons.injEq, true_and]
    cases hpi : (hlook h i).bind (·.parent) with
    | none => simp [chainIds]
    | some p =>
      obtain ⟨n, hn, hpar⟩ : ∃ n, hlook h i = some n ∧ n.parent = some p := by
        cases hni : hlook h i with
        | none => rw [hni] at hpi; simp at hpi
        | some n => rw [hni] at hpi; exact ⟨n, rfl, by simpa using hpi⟩
      by_cases hp : p ∈ lru
      · have hlt := before_indexOf hnd (hord i n p hi hn hpar hp)
        have hcom := ih p hp (by omega)
        have hfix := chainIds_fix h (f := lru.indexOf p + 2) hcom
        rw [hfix (lru.indexOf i + 1) (by omega),
          hfix (lru.indexOf i + 2) (by omega)]
      · cases hnp : hlook h p with
        | none =>
          rw [chainIds_dead_stop (by simp [hnp]) _, chainIds_dead_stop (by simp [hnp]) _]
        | some np =>
          have := hdead p np hnp hp
          rw [chainIds_dead_stop (by simp [hnp, this]) _,
            chainIds_dead_stop (by simp [hnp, this]) _]

theorem before_of_indexOf {a b : Nat} : ∀ {l : List Nat}, l.Nodup →
    a ∈ l → b ∈ l → l.indexOf a < l.indexOf b → before l a b := by
  intro l
  induction l with
  | nil => intro _ ha; simp at ha
  | cons x t ih =>
    intro hnd ha hb hlt
    have hx := (List.nodup_cons.mp hnd).1
    have hnd2 := (List.nodup_cons.mp hnd).2
    by_cases hax : a = x
    · subst hax
      have hba : b ≠ a := by
        intro he
        subst he
        omega
      have hbt : b ∈ t := by
        rcases List.mem_cons.mp hb with h1 | h1
        · exact absurd h1 hba
        · exact h1
      exact before_cons hbt
    · have hat : a ∈ t := by
        rcases List.mem_cons.mp ha with h1 | h1
        · exact absurd h1 hax
        · exact h1
      have hbx : b ≠ x := by
        intro he
        subst he
        rw [List.indexOf_cons_self] at hlt
        omega
      have hbt : b ∈ t := by
        rcases List.mem_cons.mp hb with h1 | h1
        · exact absurd h1 hbx
        · exact h1
      have hxa : x ≠ a := fun he => hax he.symm
      have hxb : x ≠ b := fun he => hbx he.symm
      rw [List.indexOf_cons_ne _ hxa, List.indexOf_cons_ne _ hxb] at hlt
      exact (ih hnd2 hat hbt (by omega)).cons x

theorem before_trans {l : List Nat} {a b c : Nat} (hnd : l.Nodup)
    (h1 : before l a b) (h2 : before l b c) : before l a c :=
  before_of_indexOf hnd h1.mem_left h2.mem_right
    (lt_trans (before_indexOf hnd h1) (before_indexOf hnd h2))

/-- Consecutive chain elements are linked by the parent pointer. -/
theorem chainIds_adj {h : List (Nat × Node K V)} :
    ∀ {f : Nat} {o : Option Nat} {l1 : List Nat} {x y : Nat} {l2 : List Nat},
    chainIds h o f = l1 ++ x :: y :: l2 →
    (hlook h x).bind (·.parent) = some y := by
  intro f
  induction f with
  | zero =>
    intro o l1 x y l2 he
    simp only [chainIds] at he
    exact absurd he.symm (by simp)
  | succ f ih =>
    intro o l1 x y l2 he
    cases o with
    | none =>
      rw [chainIds_none] at he
      exact absurd he.symm (by simp)
    | some i =>
      simp only [chainIds] at he
      cases l1 with
      | nil =>
        simp only [List.nil_append, List.cons.injEq] at he
        obtain ⟨he1, he2⟩ := he
        subst he1
        -- the tail y :: l2 is a chain from the parent step of the head
        cases hp : (hlook h i).bind (·.parent) with
        | none =>
          rw [hp, chainIds_none] at he2
          exact absurd he2.symm (by simp)
        | some p =>
          rw [hp] at he2
          cases f with
          | zero => simp [chainIds] at he2
          | succ f2 =>
            simp only [chainIds, List.cons.injEq] at he2
            exact congrArg some he2.1
      | cons a l1' =>
        simp only [List.cons_append, List.cons.injEq] at he
        exact ih he.2

/-- In a stabilized chain, the final element's parent step is `none`. -/
theorem chainIds_last_stop {h : List (Nat × Node K V)} :
    ∀ {f : Nat} {o : Option Nat} {l1 : List Nat} {x : Nat},
    chainIds h o f = chainIds h o (f + 1) →
    chainIds h o f = l1 ++ [x] →
    (hlook h x).bind (·.parent) = none := by
  intro f
  induction f with
  | zero =>
    intro o l1 x _ he
    simp only [chainIds] at he
    exact absurd he.symm (by simp)
  | succ f ih =>
    intro o l1 x hstab he
    cases o with
    | none =>
      rw [chainIds_none] at he
      exact absurd he.symm (by simp)
    | some i =>
      simp only [chainIds, List.cons.injEq, true_and] at hstab
      simp only [chainIds] at he
      cases l1 with
      | nil =>
        simp only [List.nil_append, List.cons.injEq] at he
        obtain ⟨he1, he2⟩ := he
        subst he1
        cases hp : (hlook h i).bind (·.parent) with
        | none => rfl
        | some p =>
          rw [hp] at he2 hstab
          -- tail is empty but the stabilized chain from p is nonempty
          cases f with
          | zero =>
            simp only [chainIds] at hstab
            simp at hstab
          | succ f2 =>
            simp [chainIds] at he2
      | cons a l1' =>
        simp only [List.cons_append, List.cons.injEq] at he
        exact ih hstab he.2

/-- Every chain element is the start or some node's parent. -/
theorem chainIds_mem_src {h : List (Nat × Node K V)} :
    ∀ {f : Nat} {o : Option Nat} {j : Nat}, j ∈ chainIds h o f →
    o = some j ∨ ∃ q m, hlook h q = some m ∧ m.parent = some j := by
  intro f
  induction f with
  | zero =>
    intro o j hj
    simp [chainIds] at hj
  | succ f ih =>
    intro o j hj
    cases o with
    | none => rw [chainIds_none] at hj; simp at hj
    | some i =>
      simp only [chainIds, List.mem_cons] at hj
      rcases hj with rfl | hj
      · exact Or.inl rfl
      · rcases ih hj with he | he
        · cases hq : hlook h i with
          | none => rw [hlook] at hq; simp [hlook, hq] at he
          | some m =>
            refine Or.inr ⟨i, m, hq, ?_⟩
            rw [hq] at he
            simpa using he
        · exact Or.inr he

/-- Chains agree across two heaps whose parent steps agree away from a
distinguished id `i` that the first chain avoids. -/
theorem chainIds_congr {h1 h2 : List (Nat × Node K V)} {i : Nat}
    (hagree : ∀ j, j ≠ i →
      (hlook h2 j).bind (·.parent) = (hlook h1 j).bind (·.parent)) :
    ∀ {f : Nat} {o : Option Nat}, i ∉ chainIds h1 o f →
    chainIds h2 o f = chainIds h1 o f := by
  intro f
  induction f with
  | zero => intro o _; simp [chainIds]
  | succ f ih =>
    intro o hni
    cases o with
    | none => rw [chainIds_none, chainIds_none]
    | some j =>
      simp only [chainIds, List.mem_cons] at hni ⊢
      push_neg at hni
      have hji : j ≠ i := fun he => hni.1 he.symm
      rw [hagree j hji, ih hni.2]

/-! ### The recency-order contract

The emergent property that justifies leaf-only eviction: whenever both a
node and its parent are on the recency list, the parent occurs strictly
earlier (more recently used), and every heap node off the list has a nil
parent pointer (`removeRecursively` and `evict` nil it). -/

structure LOrd (h : List (Nat × Node K V)) (lru : List Nat) : Prop where
  nodup : lru.Nodup
  ord : ∀ i n p, i ∈ lru → hlook h i = some n → n.parent = some p →
    p ∈ lru → before lru p i
  dead : ∀ i n, hlook h i = some n → i ∉ lru → n.parent = none

theorem LOrd.complete {h : List (Nat × Node K V)} {lru : List Nat}
    (L : LOrd h lru) {i : Nat} (hi : i ∈ lru) {F : Nat}
    (hF : lru.indexOf i + 2 ≤ F) :
    chainIds h (some i) F = chainIds h (some i) (lru.indexOf i + 2) ∧
      chainIds h (some i) F = chainIds h (some i) (F + 1) := by
  have hcom := chainIds_complete L.nodup L.ord L.dead (lru.indexOf i) i hi le_rfl
  have hfix := chainIds_fix h (f := lru.indexOf i + 2) hcom
  exact ⟨hfix F hF, by rw [hfix F hF, hfix (F + 1) (by omega)]⟩

theorem indexOf_lt_length_of_mem {l : List Nat} {i : Nat} (h : i ∈ l) :
    l.indexOf i < l.length :=
  List.indexOf_lt_length.mpr h

/-- Structure of the canonical parent chain of a list member: no id
repeats, every element other than the start is either an earlier
(more recent) list member or off the list, and an off-list element ends
the chain. -/
theorem chain_props {h : List (Nat × Node K V)} {lru : List Nat}
    (L : LOrd h lru) : ∀ m i, i ∈ lru → lru.indexOf i ≤ m →
    (chainIds h (some i) (lru.indexOf i + 2)).Nodup ∧
    (∀ j ∈ chainIds h (some i) (lru.indexOf i + 2),
      j = i ∨ (j ∈ lru ∧ before lru j i) ∨ j ∉ lru) ∧
    (∀ l1 x l2, chainIds h (some i) (lru.indexOf i + 2) = l1 ++ x :: l2 →
      x ∉ lru → l2 = []) := by
  intro m
  induction m with
  | zero =>
    intro i hi hidx
    -- indexOf i = 0: the parent step leaves the list or stops
    have hstep : ∀ p, (hlook h i).bind (·.parent) = some p → p ∉ lru := by
      intro p hp hmem
      obtain ⟨n, hn, hpar⟩ : ∃ n, hlook h i = some n ∧ n.parent = some p := by
        cases hni : hlook h i with
        | none => rw [hni] at hp; simp at hp
        | some n => rw [hni] at hp; exact ⟨n, rfl, by simpa using hp⟩
      have := before_indexOf L.nodup (L.ord i n p hi hn hpar hmem)
      omega
    simp only [chainIds]
    cases hp : (hlook h i).bind (·.parent) with
    | none =>
      rw [chainIds_none]
      refine ⟨by simp, ?_, ?_⟩
      · intro j hj
        simp at hj
        exact Or.inl hj
      · intro l1 x l2 he hx
        cases l1 with
        | nil =>
          simp only [List.nil_append, List.cons.injEq] at he
          exact absurd (he.1 ▸ hi) hx
        | cons a u =>
          simp only [List.cons_append, List.cons.injEq] at he
          cases u <;> simp at he
    | some p =>
      have hpd := hstep p hp
      have hstop : (hlook h p).bind (·.parent) = none := by
        cases hnp : hlook h p with
        | none => simp [hnp]
        | some np => simp [hnp, L.dead p np hnp hpd]
      rw [show lru.indexOf i + 1 = lru.indexOf i + 0 + 1 by omega,
        chainIds_dead_stop hstop]
      refine ⟨?_, ?_, ?_⟩
      · have hip : ¬ i = p := fun he => hpd (he ▸ hi)
        simp [hip]
      · intro j hj
        rcases List.mem_cons.mp hj with rfl | hj
        · exact Or.inl rfl
        · simp only [List.mem_singleton] at hj
          subst hj
          exact Or.inr (Or.inr hpd)
      · intro l1 x l2 he hx
        cases l1 with
        | nil =>
          simp only [List.nil_append, List.cons.injEq] at he
          exact absurd (he.1 ▸ hi) hx
        | cons a u =>
          simp only [List.cons_append, List.cons.injEq] at he
          cases u with
          | nil =>
            simp only [List.nil_append, List.cons.injEq] at he
            exact he.2.2.symm
          | cons b w => simp at he
  | succ m ih =>
    intro i hi hidx
    simp only [chainIds]
    cases hp : (hlook h i).bind (·.parent) with
    | none =>
      rw [chainIds_none]
      refine ⟨by simp, ?_, ?_⟩
      · intro j hj
        simp at hj
        exact Or.inl hj
      · intro l1 x l2 he hx
        cases l1 with
        | nil =>
          simp only [List.nil_append, List.cons.injEq] at he
          exact absurd (he.1 ▸ hi) hx
        | cons a u =>
          simp only [List.cons_append, List.cons.injEq] at he
          cases u <;> simp at he
    | some p =>
      obtain ⟨n, hn, hpar⟩ : ∃ n, hlook h i = some n ∧ n.parent = some p := by
        cases hni : hlook h i with
        | none => rw [hni] at hp; simp at hp
        | some n => rw [hni] at hp; exact ⟨n, rfl, by simpa using hp⟩
      by_cases hpl : p ∈ lru
      · have hbpi := L.ord i n p hi hn hpar hpl
        have hlt := before_indexOf L.nodup hbpi
        have hcomp := chainIds_complete L.nodup L.ord L.dead
          (lru.indexOf p) p hpl le_rfl
        have hfix := chainIds_fix h (f := lru.indexOf p + 2) hcomp
        rw [hfix (lru.indexOf i + 1) (by omega)]
        obtain ⟨ihnd, ihcls, ihdl⟩ := ih p hpl (by omega)
        have hine : i ∉ chainIds h (some p) (lru.indexOf p + 2) := by
          intro hmem
          rcases ihcls i hmem with rfl | ⟨_, hb⟩ | hdead
          · exact before_asymm L.nodup hbpi hbpi
          · exact before_asymm L.nodup hbpi hb
          · exact hdead hi
        refine ⟨List.nodup_cons.mpr ⟨hine, ihnd⟩, ?_, ?_⟩
        · intro j hj
          rcases List.mem_cons.mp hj with rfl | hj
          · exact Or.inl rfl
          · rcases ihcls j hj with rfl | ⟨hjl, hb⟩ | hdead
            · exact Or.inr (Or.inl ⟨hpl, hbpi⟩)
            · exact Or.inr (Or.inl ⟨hjl, before_trans L.nodup hb hbpi⟩)
            · exact Or.inr (Or.inr hdead)
        · intro l1 x l2 he hx
          cases l1 with
          | nil =>
            simp only [List.nil_append, List.cons.injEq] at he
            exact absurd (he.1 ▸ hi) hx
          | cons a u =>
            simp only [List.cons_append, List.cons.injEq] at he
            exact ihdl u x l2 he.2 hx
      · have hstop : (hlook h p).bind (·.parent) = none := by
          cases hnp : hlook h p with
          | none => simp [hnp]
          | some np => simp [hnp, L.dead p np hnp hpl]
        rw [show lru.indexOf i + 1 = lru.indexOf i + 0 + 1 by omega,
          chainIds_dead_stop hstop]
        refine ⟨?_, ?_, ?_⟩
        · have hip : ¬ i = p := fun he => hpl (he ▸ hi)
          simp [hip]
        · intro j hj
          rcases List.mem_cons.mp hj with rfl | hj
          · exact Or.inl rfl
          · simp only [List.mem_singleton] at hj
            subst hj
            exact Or.inr (Or.inr hpl)
        · intro l1 x l2 he hx
          cases l1 with
          | nil =>
            simp only [List.nil_append, List.cons.injEq] at he
            exact absurd (he.1 ▸ hi) hx
          | cons a u =>
            simp only [List.cons_append, List.cons.injEq] at he
            cases u with
            | nil =>
              simp only [List.nil_append, List.cons.injEq] at he
              exact he.2.2.symm
            | cons b w => simp at he

/-- The promoted recency list in closed form: the present chain members
move to the front in reverse walk order (the chain's top end first),
everything else keeps its relative order behind them. -/
theorem promote_eq {h : List (Nat × Node K V)} {lru : List Nat}
    (L : LOrd h lru) {s F : Nat} (hs : s ∈ lru)
    (hF : lru.indexOf s + 2 ≤ F) :
    (chainIds h (some s) F).foldl mtf lru =
      ((chainIds h (some s) F).filter (· ∈ lru)).reverse ++
        lru.diff ((chainIds h (some s) F).filter (· ∈ lru)) := by
  have hcan := (L.complete hs hF).1
  obtain ⟨hnd_ch, _, _⟩ := chain_props L (lru.indexOf s) s hs le_rfl
  rw [foldl_mtf_filter]
  apply foldl_mtf_eq
  · exact (hcan ▸ hnd_ch).filter _
  · intro x hx
    simpa using (List.mem_filter.mp hx).2

/-- Promoting the full parent chain of a member restores the recency-order
contract: each promoted ancestor ends up in front of its child, and pairs
off the chain keep their old relative order. -/
theorem promote_LOrd {h : List (Nat × Node K V)} {lru : List Nat}
    (L : LOrd h lru) {s F : Nat} (hs : s ∈ lru)
    (hF : lru.indexOf s + 2 ≤ F) :
    LOrd h ((chainIds h (some s) F).foldl mtf lru) := by
  have hperm := foldl_mtf_perm (chainIds h (some s) F) lru
  have hstab := (L.complete hs hF).2
  have heq := promote_eq L hs hF
  refine ⟨(hperm.nodup_iff).mpr L.nodup, ?_, ?_⟩
  · intro i n p hi hn hpar hp
    have hi2 : i ∈ lru := hperm.mem_iff.mp hi
    have hp2 : p ∈ lru := hperm.mem_iff.mp hp
    rw [heq]
    by_cases hich : i ∈ (chainIds h (some s) F).filter (· ∈ lru)
    · have hichF : i ∈ chainIds h (some s) F := (List.mem_filter.mp hich).1
      obtain ⟨l1, l3, hdec⟩ := List.append_of_mem hichF
      cases l3 with
      | nil =>
        exfalso
        have hlast := chainIds_last_stop hstab hdec
        rw [hn] at hlast
        simp [hpar] at hlast
      | cons a l3q =>
        have hadj := chainIds_adj (h := h) (f := F) (o := some s) hdec
        rw [hn] at hadj
        simp only [Option.some_bind] at hadj
        rw [hpar] at hadj
        obtain rfl : p = a := Option.some.inj hadj
        have hpF : p ∈ chainIds h (some s) F := by
          rw [hdec]; simp
        have hdec2 : (chainIds h (some s) F).filter (· ∈ lru) =
            l1.filter (· ∈ lru) ++ i :: p :: l3q.filter (· ∈ lru) := by
          rw [hdec, List.filter_append]
          congr 1
          rw [List.filter_cons_of_pos (by simpa using hi2),
            List.filter_cons_of_pos (by simpa using hp2)]
        apply before_append_left
        rw [hdec2, List.reverse_append]
        apply before_append_left
        have hrev : (i :: p :: l3q.filter (· ∈ lru)).reverse =
            (l3q.filter (· ∈ lru)).reverse ++ [p, i] := by simp
        rw [hrev]
        exact List.sublist_append_right _ _
    · have hidiff : i ∈ lru.diff ((chainIds h (some s) F).filter (· ∈ lru)) :=
        List.mem_diff_of_mem hi2 hich
      by_cases hpch : p ∈ (chainIds h (some s) F).filter (· ∈ lru)
      · exact before_append_cross (List.mem_reverse.mpr hpch) hidiff
      · have hpdiff : p ∈ lru.diff ((chainIds h (some s) F).filter (· ∈ lru)) :=
          List.mem_diff_of_mem hp2 hpch
        exact before_append_right (before_restrict L.nodup
          (List.diff_sublist _ _) (L.ord i n p hi2 hn hpar hp2) hpdiff hidiff)
  · intro i n hn hni
    exact L.dead i n hn fun hmem => hni (mem_foldl_mtf.mpr hmem)

theorem hlook_cons (i : Nat) (n : Node K V) (h : List (Nat × Node K V))
    (j : Nat) : hlook ((i, n) :: h) j = if i = j then some n else hlook h j :=
  rfl

/-! ### The global invariant -/

/-- State invariant maintained by every public operation (proved below by
induction over operation sequences).  Note what it does *not* say: the
key table may lack entries for recency-list members (`Remove` can delete
a re-added key's table entry while walking a stale child reference), and
a list member's parent pointer may refer to a node that is off the list.
Both situations are reachable, as the concrete executions below show. -/
structure Inv (c : Cache K V) : Prop where
  km_nodup : (c.keysMap.map Prod.fst).Nodup
  heap_nodup : (c.heap.map Prod.fst).Nodup
  heap_fresh : ∀ q ∈ c.heap, q.1 < c.nextId
  km_heap : ∀ k i, alook c.keysMap k = some i →
    ∃ n, hlook c.heap i = some n ∧ n.key = k
  km_lru : ∀ k i, alook c.keysMap k = some i → i ∈ c.lruList
  lru_heap : ∀ i ∈ c.lruList, ∃ n, hlook c.heap i = some n
  lord : LOrd c.heap c.lruList
  parent_heap : ∀ i n p, hlook c.heap i = some n → n.parent = some p →
    ∃ m, hlook c.heap p = some m
  child_heap : ∀ i n k j, hlook c.heap i = some n → (k, j) ∈ n.children →
    ∃ m, hlook c.heap j = some m
  children_nodup : ∀ i n, i ∈ c.lruList → hlook c.heap i = some n →
    (n.children.map Prod.fst).Nodup
  children_ok : ∀ i n k j, i ∈ c.lruList → hlook c.heap i = some n →
    (k, j) ∈ n.children →
    (j ∈ c.lruList → ∃ m, hlook c.heap j = some m ∧ m.key = k ∧
      m.parent = some i) ∧
    (j ∉ c.lruList → ∃ m, hlook c.heap j = some m ∧ m.children = [])
  own_unique : ∀ i1 n1 i2 n2 k1 k2 j, i1 ∈ c.lruList → i2 ∈ c.lruList →
    hlook c.heap i1 = some n1 → hlook c.heap i2 = some n2 →
    (k1, j) ∈ n1.children → (k2, j) ∈ n2.children → i1 = i2 ∧ k1 = k2
  root_top : ∀ i n, i ∈ c.lruList → hlook c.heap i = some n →
    n.parent = none → c.root = some i
  root_empty : c.root = none → c.heap = []

theorem Inv_newCache (m : Int) : Inv (newCache (K := K) (V := V) m) := by
  refine ⟨?_, ?_, ?_, ?_, ?_, ?_, ⟨?_, ?_, ?_⟩, ?_, ?_, ?_, ?_, ?_, ?_, ?_⟩ <;>
    simp [newCache, alook, hlook]

/-- Replacing the recency list by a permutation that still satisfies the
order contract, and changing the statistics, preserves the invariant. -/
theorem Inv_relist {c : Cache K V} (I : Inv c) {lru2 : List Nat}
    (hperm : lru2.Perm c.lruList) (hL : LOrd c.heap lru2) (s2 : Stats) :
    Inv { c with lruList := lru2, stats := s2 } := by
  refine ⟨I.km_nodup, I.heap_nodup, I.heap_fresh, I.km_heap, ?_, ?_, hL,
    I.parent_heap, I.child_heap, ?_, ?_, ?_, ?_, I.root_empty⟩
  · intro k i hk
    exact hperm.mem_iff.mpr (I.km_lru k i hk)
  · intro i hi
    exact I.lru_heap i (hperm.mem_iff.mp hi)
  · intro i n hi hn
    exact I.children_nodup i n (hperm.mem_iff.mp hi) hn
  · intro i n k j hi hn hcj
    have h2 := I.children_ok i n k j (hperm.mem_iff.mp hi) hn hcj
    constructor
    · intro hj
      exact h2.1 (hperm.mem_iff.mp hj)
    · intro hj
      exact h2.2 fun hj2 => hj (hperm.mem_iff.mpr hj2)
  · intro i1 n1 i2 n2 k1 k2 j h1 h2 hn1 hn2 hc1 hc2
    exact I.own_unique i1 n1 i2 n2 k1 k2 j (hperm.mem_iff.mp h1)
      (hperm.mem_iff.mp h2) hn1 hn2 hc1 hc2
  · intro i n hi hn hp
    exact I.root_top i n (hperm.mem_iff.mp hi) hn hp

/-- A statistics-only change preserves the invariant. -/
theorem Inv_stats {c : Cache K V} (I : Inv c) (s2 : Stats) :
    Inv { c with stats := s2 } :=
  Inv_relist I (List.Perm.refl _) I.lord s2

theorem Inv_peek {c : Cache K V} (I : Inv c) (k : K) : Inv (peek c k).1 := by
  unfold peek
  cases hk : alook c.keysMap k with
  | none => exact Inv_stats I _
  | some i =>
    dsimp only
    cases hn : hlook c.heap i with
    | none => exact I
    | some n => exact Inv_stats I _

theorem Inv_peekBranch {c : Cache K V} (I : Inv c) (k : K) :
    Inv (peekBranch c k).1 := by
  unfold peekBranch
  cases hk : alook c.keysMap k with
  | none => exact Inv_stats I _
  | some i => exact Inv_stats I _

theorem idx_lt_chainFuel {c : Cache K V} {i : Nat} (hi : i ∈ c.lruList) :
    c.lruList.indexOf i + 2 ≤ chainFuel c := by
  have := indexOf_lt_length_of_mem hi
  unfold chainFuel
  omega

theorem Inv_get {c : Cache K V} (I : Inv c) (k : K) : Inv (get c k).1 := by
  unfold get
  cases hk : alook c.keysMap k with
  | none => exact Inv_stats I _
  | some i =>
    dsimp only
    cases hn : hlook c.heap i with
    | none => exact I
    | some n =>
      have hi := I.km_lru k i hk
      exact Inv_relist I (foldl_mtf_perm _ _)
        (promote_LOrd I.lord hi (idx_lt_chainFuel hi)) _

theorem Inv_getBranch {c : Cache K V} (I : Inv c) (k : K) :
    Inv (getBranch c k).1 := by
  unfold getBranch
  cases hk : alook c.keysMap k with
  | none => exact Inv_stats I _
  | some i =>
    have hi := I.km_lru k i hk
    exact Inv_relist I (foldl_mtf_perm _ _)
      (promote_LOrd I.lord hi (idx_lt_chainFuel hi)) _

theorem Inv_traverseToRoot {c : Cache K V} (I : Inv c) (k : K) :
    Inv (traverseToRoot c k).1 := by
  unfold traverseToRoot
  cases hk : alook c.keysMap k with
  | none => exact Inv_stats I _
  | some i =>
    have hi := I.km_lru k i hk
    exact Inv_relist I (foldl_mtf_perm _ _)
      (promote_LOrd I.lord hi (idx_lt_chainFuel hi)) _

theorem before_irrefl {l : List Nat} {a : Nat} (hnd : l.Nodup)
    (hb : before l a a) : False := by
  have := hnd.sublist hb
  simp at this

theorem no_self_parent {c : Cache K V} (I : Inv c) {i : Nat} {n : Node K V}
    (hi : i ∈ c.lruList) (hn : hlook c.heap i = some n) :
    n.parent ≠ some i := by
  intro hp
  exact before_irrefl I.lord.nodup (I.lord.ord i n i hi hn hp hi)

theorem exists_concat_of_getLast? {l : List Nat} {a : Nat}
    (h : l.getLast? = some a) : ∃ l2, l = l2 ++ [a] := by
  induction l with
  | nil => simp at h
  | cons x t ih =>
    cases t with
    | nil =>
      simp only [List.getLast?_singleton, Option.some.injEq] at h
      exact ⟨[], by simp [h]⟩
    | cons y u =>
      rw [List.getLast?_cons_cons] at h
      obtain ⟨l2, hl2⟩ := ih h
      exact ⟨x :: l2, by simp [hl2]⟩

theorem hupd_some {h : List (Nat × Node K V)} {q : Nat}
    (i : Nat) (f : Node K V → Node K V)
    (hq : ∃ m, hlook h q = some m) :
    ∃ m2, hlook (hupd h i f) q = some m2 := by
  by_cases hqi : q = i
  · subst hqi
    obtain ⟨m, hm⟩ := hq
    exact ⟨f m, by rw [hlook_hupd_self, hm]; rfl⟩
  · obtain ⟨m, hm⟩ := hq
    exact ⟨m, by rw [hlook_hupd_ne _ _ hqi]; exact hm⟩

theorem mem_hupd_src {h : List (Nat × Node K V)} {i : Nat}
    {f : Node K V → Node K V} : ∀ {q : Nat × Node K V}, q ∈ hupd h i f →
    ∃ n0, (q.1, n0) ∈ h := by
  induction h with
  | nil => intro q hq; simp [hupd] at hq
  | cons p t ih =>
    intro q hq
    obtain ⟨a, na⟩ := p
    by_cases h1 : a = i
    · rw [hupd, if_pos h1] at hq
      rcases List.mem_cons.mp hq with rfl | hq
      · exact ⟨na, List.mem_cons_self _ _⟩
      · obtain ⟨n0, hn0⟩ := ih hq
        exact ⟨n0, List.mem_cons_of_mem _ hn0⟩
    · rw [hupd, if_neg h1] at hq
      rcases List.mem_cons.mp hq with rfl | hq
      · exact ⟨na, List.mem_cons_self _ _⟩
      · obtain ⟨n0, hn0⟩ := ih hq
        exact ⟨n0, List.mem_cons_of_mem _ hn0⟩

theorem Inv_addRoot {c : Cache K V} (I : Inv c) (k : K) (v : V) :
    Inv (addRoot c k v).1 := by
  unfold addRoot
  cases hr : c.root with
  | some r => exact I
  | none =>
    dsimp only
    have hheap : c.heap = [] := I.root_empty hr
    have hlru : c.lruList = [] := by
      cases hl : c.lruList with
      | nil => rfl
      | cons x t =>
        obtain ⟨n, hn⟩ := I.lru_heap x (by rw [hl]; simp)
        rw [hheap] at hn
        simp [hlook, alook] at hn
    have hkm : c.keysMap = [] := by
      cases hk : c.keysMap with
      | nil => rfl
      | cons q t =>
        obtain ⟨n, hn, _⟩ := I.km_heap q.1 q.2
          (alook_of_mem I.km_nodup (by rw [hk]; exact List.mem_cons_self q t))
        rw [hheap] at hn
        simp [hlook, alook] at hn
    rw [hheap, hlru, hkm]
    refine ⟨?_, ?_, ?_, ?_, ?_, ?_, ⟨?_, ?_, ?_⟩, ?_, ?_, ?_, ?_, ?_, ?_, ?_⟩
    · simp [aset]
    · simp
    · simp
    · intro k2 i2 hk2
      simp only [aset] at hk2
      rw [alook] at hk2
      by_cases hkk : k = k2
      · rw [if_pos hkk] at hk2
        simp only [Option.some.injEq] at hk2
        subst hk2
        exact ⟨⟨k, v, none, []⟩, by simp [hlook, alook], hkk.symm ▸ rfl⟩
      · rw [if_neg hkk, alook] at hk2
        simp at hk2
    · intro k2 i2 hk2
      simp only [aset] at hk2
      rw [alook] at hk2
      by_cases hkk : k = k2
      · rw [if_pos hkk] at hk2
        simp only [Option.some.injEq] at hk2
        simp [hk2]
      · rw [if_neg hkk, alook] at hk2
        simp at hk2
    · intro i hi
      simp only [List.mem_singleton] at hi
      subst hi
      exact ⟨⟨k, v, none, []⟩, by simp [hlook, alook]⟩
    · simp
    · intro i n p hi hn hp _
      simp only [List.mem_singleton] at hi
      subst hi
      simp only [hlook, alook, if_pos rfl] at hn
      rw [if_pos trivial] at hn
      simp only [Option.some.injEq] at hn
      rw [← hn] at hp
      simp at hp
    · intro i n hn hni
      simp only [hlook, alook] at hn
      by_cases hic : c.nextId = i
      · rw [if_pos hic] at hn
        exact absurd (by simp [hic]) hni
      · rw [if_neg hic] at hn
        simp at hn
    · intro i n p hn hp
      simp only [hlook, alook] at hn
      by_cases hic : c.nextId = i
      · rw [if_pos hic] at hn
        simp only [Option.some.injEq] at hn
        rw [← hn] at hp
        simp at hp
      · rw [if_neg hic] at hn
        simp at hn
    · intro i n k2 j hn hcj
      simp only [hlook, alook] at hn
      by_cases hic : c.nextId = i
      · rw [if_pos hic] at hn
        simp only [Option.some.injEq] at hn
        rw [← hn] at hcj
        simp at hcj
      · rw [if_neg hic] at hn
        simp at hn
    · intro i n hi hn
      simp only [List.mem_singleton] at hi
      subst hi
      simp only [hlook, alook, if_pos rfl] at hn
      rw [if_pos trivial] at hn
      simp only [Option.some.injEq] at hn
      rw [← hn]
      simp
    · intro i n k2 j hi hn hcj
      simp only [List.mem_singleton] at hi
      subst hi
      simp only [hlook, alook, if_pos rfl] at hn
      rw [if_pos trivial] at hn
      simp only [Option.some.injEq] at hn
      rw [← hn] at hcj
      simp at hcj
    · intro i1 n1 i2 n2 k1 k2 j h1 h2 hn1 hn2 hc1 hc2
      simp only [List.mem_singleton] at h1 h2
      subst h1
      subst h2
      simp only [hlook, alook, if_pos rfl] at hn1
      rw [if_pos trivial] at hn1
      simp only [Option.some.injEq] at hn1
      rw [← hn1] at hc1
      simp at hc1
    · intro i n hi hn _
      simp only [List.mem_singleton] at hi
      simp [hi]
    · simp

theorem adel_mem {m : List (α × β)} {k : α} {q : α × β}
    (h : q ∈ adel m k) : q ∈ m :=
  (adel_sublist m k).subset h

theorem not_mem_adel_self {m : List (α × β)} {k0 : α}
    (hnd : (m.map Prod.fst).Nodup) (b : β) : (k0, b) ∉ adel m k0 := by
  induction m with
  | nil => simp [adel]
  | cons q t ih =>
    obtain ⟨a, vb⟩ := q
    simp only [List.map_cons, List.nodup_cons] at hnd
    by_cases h1 : a = k0
    · rw [adel, if_pos h1]
      intro hmem
      exact hnd.1 (h1 ▸ List.mem_map.mpr ⟨(k0, b), hmem, rfl⟩)
    · rw [adel, if_neg h1]
      intro hmem
      rcases List.mem_cons.mp hmem with he | hmem2
      · exact h1 (congrArg Prod.fst he).symm
      · exact ih hnd.2 hmem2

theorem Inv_evict {c : Cache K V} (I : Inv c) : Inv (evict c).1 := by
  unfold evict
  cases hlast : c.lruList.getLast? with
  | none => exact I
  | some tid =>
    dsimp only
    cases hn : hlook c.heap tid with
    | none => exact I
    | some n =>
      dsimp only
      obtain ⟨l2, hdec⟩ := exists_concat_of_getLast? hlast
      have htid : tid ∈ c.lruList := by rw [hdec]; simp
      have hndl : c.lruList.Nodup := I.lord.nodup
      have htidl2 : tid ∉ l2 := by
        rw [hdec] at hndl
        exact fun hmem => (List.nodup_append.mp hndl).2.2 hmem (by simp)
      have hdrop : c.lruList.dropLast = l2 := by
        rw [hdec]
        exact List.dropLast_concat
      have hsubl : l2.Sublist c.lruList := by
        rw [hdec]
        exact List.sublist_append_left l2 [tid]
      have hmem2 : ∀ j, j ∈ l2 ↔ j ∈ c.lruList ∧ j ≠ tid := by
        intro j
        constructor
        · intro hj
          exact ⟨hsubl.subset hj, fun he => htidl2 (he ▸ hj)⟩
        · intro ⟨hj, hne⟩
          rw [hdec] at hj
          rcases List.mem_append.mp hj with hj | hj
          · exact hj
          · simp only [List.mem_singleton] at hj
            exact absurd hj hne
      have hkmne : ∀ k2 i2, alook (adel c.keysMap n.key) k2 = some i2 →
          k2 ≠ n.key ∧ alook c.keysMap k2 = some i2 := by
        intro k2 i2 hk2
        by_cases hke : k2 = n.key
        · rw [hke, alook_adel_self _ _ I.km_nodup] at hk2
          exact absurd hk2 (by simp)
        · exact ⟨hke, by rwa [alook_adel_ne _ hke] at hk2⟩
      have hkmtid : ∀ k2 i2, alook (adel c.keysMap n.key) k2 = some i2 →
          i2 ≠ tid := by
        intro k2 i2 hk2 he
        obtain ⟨hke, hk3⟩ := hkmne k2 i2 hk2
        obtain ⟨n2, hn2, hkey⟩ := I.km_heap k2 i2 hk3
        rw [he] at hn2
        rw [hn] at hn2
        simp only [Option.some.injEq] at hn2
        exact hke (hkey ▸ hn2 ▸ rfl)
      rw [hdrop]
      cases hpar : n.parent with
      | none =>
        refine ⟨?_, I.heap_nodup, I.heap_fresh, ?_, ?_, ?_, ⟨?_, ?_, ?_⟩,
          I.parent_heap, I.child_heap, ?_, ?_, ?_, ?_, I.root_empty⟩
        · exact (adel_keys_sublist _ _).nodup I.km_nodup
        · intro k2 i2 hk2
          exact I.km_heap k2 i2 (hkmne k2 i2 hk2).2
        · intro k2 i2 hk2
          exact (hmem2 i2).mpr ⟨I.km_lru k2 i2 (hkmne k2 i2 hk2).2,
            hkmtid k2 i2 hk2⟩
        · intro j hj
          exact I.lru_heap j (hsubl.subset hj)
        · exact hndl.sublist hsubl
        · intro i2 n2 p hi2 hn2 hp2 hp2l
          exact before_restrict I.lord.nodup hsubl
            (I.lord.ord i2 n2 p (hsubl.subset hi2) hn2 hp2 (hsubl.subset hp2l))
            hp2l hi2
        · intro j n2 hn2 hj
          by_cases hjt : j = tid
          · subst hjt
            rw [hn] at hn2
            simp only [Option.some.injEq] at hn2
            rw [← hn2]
            exact hpar
          · exact I.lord.dead j n2 hn2 fun hmem =>
              hj ((hmem2 j).mpr ⟨hmem, hjt⟩)
        · intro i2 n2 hi2 hn2
          exact I.children_nodup i2 n2 (hsubl.subset hi2) hn2
        · intro i2 n2 k2 j hi2 hn2 hcj
          have hi2l := hsubl.subset hi2
          have hpre := I.children_ok i2 n2 k2 j hi2l hn2 hcj
          have hjnt : j ≠ tid := by
            intro he
            subst he
            obtain ⟨m, hm, _, hmp⟩ := hpre.1 htid
            rw [hn] at hm
            simp only [Option.some.injEq] at hm
            rw [← hm] at hmp
            rw [hpar] at hmp
            simp at hmp
          constructor
          · intro hj
            exact hpre.1 ((hmem2 j).mp hj).1
          · intro hj
            exact hpre.2 fun hmem => hj ((hmem2 j).mpr ⟨hmem, hjnt⟩)
        · intro i1 n1 i2 n2 k1 k2 j h1 h2 hn1 hn2 hc1 hc2
          exact I.own_unique i1 n1 i2 n2 k1 k2 j (hsubl.subset h1)
            (hsubl.subset h2) hn1 hn2 hc1 hc2
        · intro i2 n2 hi2 hn2 hp2
          exact I.root_top i2 n2 (hsubl.subset hi2) hn2 hp2
      | some p =>
        dsimp only
        have hptid : p ≠ tid := by
          intro he
          exact no_self_parent I htid hn (he ▸ hpar)
        obtain ⟨mp, hmp⟩ := I.parent_heap tid n p hn hpar
        have hlookP : hlook
            (hupd (hupd c.heap p fun m => { m with children := adel m.children n.key })
              tid fun m => { m with parent := none }) p =
            some { mp with children := adel mp.children n.key } := by
          rw [hlook_hupd_ne _ _ hptid, hlook_hupd_self, hmp]
          rfl
        have hlookT : hlook
            (hupd (hupd c.heap p fun m => { m with children := adel m.children n.key })
              tid fun m => { m with parent := none }) tid =
            some { n with parent := none } := by
          rw [hlook_hupd_self, hlook_hupd_ne _ _ (fun he => hptid he.symm), hn]
          rfl
        have hlookO : ∀ j, j ≠ p → j ≠ tid → hlook
            (hupd (hupd c.heap p fun m => { m with children := adel m.children n.key })
              tid fun m => { m with parent := none }) j = hlook c.heap j := by
          intro j hjp hjt
          rw [hlook_hupd_ne _ _ hjt, hlook_hupd_ne _ _ hjp]
        -- characterization used in most cases: the updated heap preserves
        -- existence, keys, and (except at tid) parent pointers
        have hsame : ∀ j n2, hlook
            (hupd (hupd c.heap p fun m => { m with children := adel m.children n.key })
              tid fun m => { m with parent := none }) j = some n2 →
            ∃ n0, hlook c.heap j = some n0 ∧ n2.key = n0.key ∧
              (j ≠ tid → n2.parent = n0.parent) ∧
              (n2.children = n0.children ∨
                (j = p ∧ n2.children = adel n0.children n.key)) := by
          intro j n2 hn2
          by_cases hjt : j = tid
          · subst hjt
            rw [hlookT] at hn2
            simp only [Option.some.injEq] at hn2
            exact ⟨n, hn, by rw [← hn2], fun hc => absurd rfl hc,
              Or.inl (by rw [← hn2])⟩
          · by_cases hjp : j = p
            · subst hjp
              rw [hlookP] at hn2
              simp only [Option.some.injEq] at hn2
              exact ⟨mp, hmp, by rw [← hn2], fun _ => by rw [← hn2],
                Or.inr ⟨rfl, by rw [← hn2]⟩⟩
            · rw [hlookO j hjp hjt] at hn2
              exact ⟨n2, hn2, rfl, fun _ => rfl, Or.inl rfl⟩
        refine ⟨?_, ?_, ?_, ?_, ?_, ?_, ⟨?_, ?_, ?_⟩, ?_, ?_, ?_, ?_, ?_, ?_, ?_⟩
        · exact (adel_keys_sublist _ _).nodup I.km_nodup
        · rw [hupd_keys, hupd_keys]
          exact I.heap_nodup
        · intro q hq
          obtain ⟨n0, hn0⟩ := mem_hupd_src hq
          obtain ⟨n1, hn1⟩ := mem_hupd_src hn0
          exact I.heap_fresh (q.1, n1) hn1
        · intro k2 i2 hk2
          obtain ⟨hke, hk3⟩ := hkmne k2 i2 hk2
          have hi2t := hkmtid k2 i2 hk2
          obtain ⟨n2, hn2, hkey⟩ := I.km_heap k2 i2 hk3
          by_cases hi2p : i2 = p
          · subst hi2p
            rw [hmp] at hn2
            simp only [Option.some.injEq] at hn2
            exact ⟨{ mp with children := adel mp.children n.key }, hlookP,
              by rw [hn2]; exact hkey⟩
          · rw [← hlookO i2 hi2p hi2t] at hn2
            exact ⟨n2, hn2, hkey⟩
        · intro k2 i2 hk2
          exact (hmem2 i2).mpr ⟨I.km_lru k2 i2 (hkmne k2 i2 hk2).2,
            hkmtid k2 i2 hk2⟩
        · intro j hj
          have hjl := hsubl.subset hj
          by_cases hjp : j = p
          · rw [hjp]; exact ⟨_, hlookP⟩
          · by_cases hjt : j = tid
            · rw [hjt]; exact ⟨_, hlookT⟩
            · rw [hlookO j hjp hjt]
              exact I.lru_heap j hjl
        · exact hndl.sublist hsubl
        · intro i2 n2 q hi2 hn2 hq2 hq2l
          obtain ⟨n0, hn0, _, hparq, _⟩ := hsame i2 n2 hn2
          have hi2t : i2 ≠ tid := fun he => htidl2 (he ▸ hi2)
          rw [hparq hi2t] at hq2
          exact before_restrict I.lord.nodup hsubl
            (I.lord.ord i2 n0 q (hsubl.subset hi2) hn0 hq2 (hsubl.subset hq2l))
            hq2l hi2
        · intro j n2 hn2 hj
          by_cases hjt : j = tid
          · subst hjt
            rw [hlookT] at hn2
            simp only [Option.some.injEq] at hn2
            rw [← hn2]
          · obtain ⟨n0, hn0, _, hparq, _⟩ := hsame j n2 hn2
            rw [hparq hjt]
            exact I.lord.dead j n0 hn0 fun hmem =>
              hj ((hmem2 j).mpr ⟨hmem, hjt⟩)
        · intro i2 n2 q hn2 hq2
          obtain ⟨n0, hn0, _, hparq, _⟩ := hsame i2 n2 hn2
          by_cases hi2t : i2 = tid
          · subst hi2t
            rw [hlookT] at hn2
            simp only [Option.some.injEq] at hn2
            rw [← hn2] at hq2
            simp at hq2
          · rw [hparq hi2t] at hq2
            obtain ⟨m2, hm2⟩ := I.parent_heap i2 n0 q hn0 hq2
            by_cases hqp : q = p
            · rw [hqp]; exact ⟨_, hlookP⟩
            · by_cases hqt : q = tid
              · rw [hqt]; exact ⟨_, hlookT⟩
              · rw [hlookO q hqp hqt]
                exact ⟨m2, hm2⟩
        · intro i2 n2 k2 j hn2 hcj
          obtain ⟨n0, hn0, _, _, hch⟩ := hsame i2 n2 hn2
          have hcj0 : (k2, j) ∈ n0.children := by
            rcases hch with he | ⟨_, he⟩
            · exact he ▸ hcj
            · exact adel_mem (he ▸ hcj)
          obtain ⟨m2, hm2⟩ := I.child_heap i2 n0 k2 j hn0 hcj0
          by_cases hjp : j = p
          · rw [hjp]; exact ⟨_, hlookP⟩
          · by_cases hjt : j = tid
            · rw [hjt]; exact ⟨_, hlookT⟩
            · rw [hlookO j hjp hjt]
              exact ⟨m2, hm2⟩
        · intro i2 n2 hi2 hn2
          obtain ⟨n0, hn0, _, _, hch⟩ := hsame i2 n2 hn2
          have := I.children_nodup i2 n0 (hsubl.subset hi2) hn0
          rcases hch with he | ⟨_, he⟩
          · rw [he]
            exact this
          · rw [he]
            exact (adel_keys_sublist _ _).nodup this
        · intro i2 n2 k2 j hi2 hn2 hcj
          obtain ⟨n0, hn0, _, _, hch⟩ := hsame i2 n2 hn2
          have hi2l := hsubl.subset hi2
          have hi2t : i2 ≠ tid := fun he => htidl2 (he ▸ hi2)
          have hcj0 : (k2, j) ∈ n0.children := by
            rcases hch with he | ⟨_, he⟩
            · exact he ▸ hcj
            · exact adel_mem (he ▸ hcj)
          have hpre := I.children_ok i2 n0 k2 j hi2l hn0 hcj0
          have hjnt : j ≠ tid := by
            intro he
            subst he
            obtain ⟨m, hm, hmk, hmq⟩ := hpre.1 htid
            rw [hn] at hm
            simp only [Option.some.injEq] at hm
            subst hm
            rw [hpar] at hmq
            simp only [Option.some.injEq] at hmq
            subst hmq
            -- the source must be p and the edge key n.key; the adel in the
            -- updated heap removed exactly that entry from p's children
            rw [hlookP] at hn2
            simp only [Option.some.injEq] at hn2
            rw [← hn2] at hcj
            rw [← hmk] at hcj
            dsimp only at hcj
            have hnd0 : (mp.children.map Prod.fst).Nodup :=
              I.children_nodup _ mp hi2l hmp
            exact not_mem_adel_self hnd0 _ hcj
          constructor
          · intro hj
            obtain ⟨m, hm, hmk, hmq⟩ := hpre.1 ((hmem2 j).mp hj).1
            by_cases hjp : j = p
            · subst hjp
              rw [hmp] at hm
              simp only [Option.some.injEq] at hm
              subst hm
              exact ⟨{ mp with children := adel mp.children n.key }, hlookP,
                hmk, hmq⟩
            · rw [← hlookO j hjp hjnt] at hm
              exact ⟨m, hm, hmk, hmq⟩
          · intro hj
            have hjl : j ∉ c.lruList := fun hmem =>
              hj ((hmem2 j).mpr ⟨hmem, hjnt⟩)
            obtain ⟨m, hm, hmc⟩ := hpre.2 hjl
            by_cases hjp : j = p
            · subst hjp
              rw [hmp] at hm
              simp only [Option.some.injEq] at hm
              subst hm
              exact ⟨{ mp with children := adel mp.children n.key }, hlookP,
                by rw [hmc]; rfl⟩
            · rw [← hlookO j hjp hjnt] at hm
              exact ⟨m, hm, hmc⟩
        · intro i1 n1 i2 n2 k1 k2 j h1 h2 hn1 hn2 hc1 hc2
          obtain ⟨n01, hn01, _, _, hch1⟩ := hsame i1 n1 hn1
          obtain ⟨n02, hn02, _, _, hch2⟩ := hsame i2 n2 hn2
          have hc10 : (k1, j) ∈ n01.children := by
            rcases hch1 with he | ⟨_, he⟩
            · exact he ▸ hc1
            · exact adel_mem (he ▸ hc1)
          have hc20 : (k2, j) ∈ n02.children := by
            rcases hch2 with he | ⟨_, he⟩
            · exact he ▸ hc2
            · exact adel_mem (he ▸ hc2)
          exact I.own_unique i1 n01 i2 n02 k1 k2 j (hsubl.subset h1)
            (hsubl.subset h2) hn01 hn02 hc10 hc20
        · intro i2 n2 hi2 hn2 hp2
          obtain ⟨n0, hn0, _, hparq, _⟩ := hsame i2 n2 hn2
          have hi2t : i2 ≠ tid := fun he => htidl2 (he ▸ hi2)
          rw [hparq hi2t] at hp2
          exact I.root_top i2 n0 (hsubl.subset hi2) hn0 hp2
        · intro hro
          have := I.root_empty hro
          rw [this] at hn
          simp [hlook, alook] at hn

theorem mem_aset {m : List (α × β)} {k : α} {v : β} {q : α × β}
    (h : q ∈ aset m k v) : q = (k, v) ∨ q ∈ m := by
  induction m with
  | nil => simpa [aset] using h
  | cons p t ih =>
    obtain ⟨a, b⟩ := p
    by_cases h1 : a = k
    · rw [aset, if_pos h1] at h
      rcases List.mem_cons.mp h with he | he
      · exact Or.inl he
      · exact Or.inr (List.mem_cons_of_mem _ he)
    · rw [aset, if_neg h1] at h
      rcases List.mem_cons.mp h with he | he
      · exact Or.inr (by rw [he]; exact List.mem_cons_self _ _)
      · rcases ih he with h2 | h2
        · exact Or.inl h2
        · exact Or.inr (List.mem_cons_of_mem _ h2)

/-- Promoting the new parent chain after pointing node `i` at parent
`ip` restores the order contract.  The base list is `i` in front of
`lrb`, which is the recency list without `i`: the list itself when `i`
was freshly pushed (`Add`), or the list with `i` erased when `i` was an
existing member moved to the front (`AddOrUpdate`). -/
theorem front_promote_LOrd {h h2 : List (Nat × Node K V)} {lru lrb : List Nat}
    (L : LOrd h lru) {i ip F : Nat} {ni : Node K V}
    (hsubl : lrb.Sublist lru) (hilrb : i ∉ lrb)
    (hcomp : ∀ x ∈ lru, x ≠ i → x ∈ lrb)
    (hni : hlook h2 i = some ni) (hpar : ni.parent = some ip)
    (hagree : ∀ j, j ≠ i →
      (hlook h2 j).bind (·.parent) = (hlook h j).bind (·.parent))
    (hip : ip ∈ lru)
    (hichain : i ∉ chainIds h (some ip) F)
    (hF : lru.indexOf ip + 2 ≤ F) :
    LOrd h2 ((chainIds h2 (some ip) F).foldl mtf (i :: lrb)) := by
  have hcongr : chainIds h2 (some ip) F = chainIds h (some ip) F :=
    chainIds_congr hagree hichain
  have hcan := (L.complete hip hF).1
  have hstab := (L.complete hip hF).2
  obtain ⟨hchnd0, hchcls0, _⟩ := chain_props L (lru.indexOf ip) ip hip le_rfl
  have hchnd : (chainIds h (some ip) F).Nodup := by rw [hcan]; exact hchnd0
  have hipch : ip ∈ chainIds h (some ip) F := by
    rw [hcan]
    have hh : chainIds h (some ip) (lru.indexOf ip + 2) =
        ip :: chainIds h ((hlook h ip).bind (·.parent)) (lru.indexOf ip + 1) :=
      rfl
    rw [hh]
    exact List.mem_cons_self _ _
  have hndF : ((chainIds h (some ip) F).filter (· ∈ lru)).Nodup :=
    hchnd.filter _
  have hinF : i ∉ (chainIds h (some ip) F).filter (· ∈ lru) := fun hmem =>
    hichain (List.mem_filter.mp hmem).1
  have hfeq : (chainIds h (some ip) F).filter (· ∈ (i :: lrb)) =
      (chainIds h (some ip) F).filter (· ∈ lru) := by
    apply List.filter_congr
    intro x hx
    have hxi : x ≠ i := fun he => hichain (he ▸ hx)
    simp only [List.mem_cons, decide_eq_decide]
    constructor
    · intro h3
      rcases h3 with he | h3
      · exact absurd he hxi
      · exact hsubl.subset h3
    · intro h3
      exact Or.inr (hcomp x h3 hxi)
  have hform : (chainIds h2 (some ip) F).foldl mtf (i :: lrb) =
      ((chainIds h (some ip) F).filter (· ∈ lru)).reverse ++
        i :: lrb.diff ((chainIds h (some ip) F).filter (· ∈ lru)) := by
    rw [hcongr, foldl_mtf_filter, hfeq,
      foldl_mtf_eq hndF (fun x hx => List.mem_cons_of_mem _
        (hcomp x (by simpa using (List.mem_filter.mp hx).2)
          (fun he => hichain (he ▸ (List.mem_filter.mp hx).1)))),
      diff_cons_of_not_mem hinF]
  have hperm := foldl_mtf_perm (chainIds h2 (some ip) F) (i :: lrb)
  refine ⟨hperm.nodup_iff.mpr
    (List.nodup_cons.mpr ⟨hilrb, L.nodup.sublist hsubl⟩), ?_, ?_⟩
  · intro j nj p hj hn2 hp2 hp
    have hjm : j ∈ i :: lrb := hperm.mem_iff.mp hj
    have hpm : p ∈ i :: lrb := hperm.mem_iff.mp hp
    rw [hform]
    by_cases hji : j = i
    · subst hji
      rw [hni] at hn2
      obtain rfl : ni = nj := Option.some.inj hn2
      rw [hpar] at hp2
      obtain rfl : ip = p := Option.some.inj hp2
      exact before_append_cross (List.mem_reverse.mpr
        (List.mem_filter.mpr ⟨hipch, by simpa using hip⟩))
        (List.mem_cons_self _ _)
    · have hjlrb : j ∈ lrb := (List.mem_cons.mp hjm).resolve_left hji
      have hjl : j ∈ lru := hsubl.subset hjlrb
      have hstep : (hlook h j).bind (·.parent) = some p := by
        rw [← hagree j hji, hn2]
        simpa using hp2
      obtain ⟨n0, hn0, hp0⟩ : ∃ n0, hlook h j = some n0 ∧
          n0.parent = some p := by
        cases hh : hlook h j with
        | none => rw [hh] at hstep; simp at hstep
        | some n0 => rw [hh] at hstep; exact ⟨n0, rfl, by simpa using hstep⟩
      by_cases hpi : p = i
      · subst hpi
        have hjnch : j ∉ (chainIds h (some ip) F).filter (· ∈ lru) := by
          intro hjch
          have hjF : j ∈ chainIds h (some ip) F :=
            (List.mem_filter.mp hjch).1
          obtain ⟨l1, l3, hdec⟩ := List.append_of_mem hjF
          cases l3 with
          | nil =>
            have hlastF := chainIds_last_stop hstab hdec
            rw [hn0] at hlastF
            simp [hp0] at hlastF
          | cons a l3q =>
            have hadj := chainIds_adj hdec
            rw [hstep] at hadj
            obtain rfl : p = a := Option.some.inj hadj
            exact hichain (by rw [hdec]; simp)
        exact before_append_right (before_cons
          (List.mem_diff_of_mem hjlrb hjnch))
      · have hpl : p ∈ lru :=
          hsubl.subset ((List.mem_cons.mp hpm).resolve_left hpi)
        have hold : before lru p j := L.ord j n0 p hjl hn0 hp0 hpl
        by_cases hjch : j ∈ (chainIds h (some ip) F).filter (· ∈ lru)
        · have hjF : j ∈ chainIds h (some ip) F :=
            (List.mem_filter.mp hjch).1
          obtain ⟨l1, l3, hdec⟩ := List.append_of_mem hjF
          cases l3 with
          | nil =>
            exfalso
            have hlastF := chainIds_last_stop hstab hdec
            rw [hn0] at hlastF
            simp [hp0] at hlastF
          | cons a l3q =>
            have hadj := chainIds_adj hdec
            rw [hstep] at hadj
            obtain rfl : p = a := Option.some.inj hadj
            have hdec2 : (chainIds h (some ip) F).filter (· ∈ lru) =
                l1.filter (· ∈ lru) ++ j :: p :: l3q.filter (· ∈ lru) := by
              rw [hdec, List.filter_append]
              congr 1
              rw [List.filter_cons_of_pos (by simpa using hjl),
                List.filter_cons_of_pos (by simpa using hpl)]
            apply before_append_left
            rw [hdec2, List.reverse_append]
            apply before_append_left
            have hrev : (j :: p :: l3q.filter (· ∈ lru)).reverse =
                (l3q.filter (· ∈ lru)).reverse ++ [p, j] := by simp
            rw [hrev]
            exact List.sublist_append_right _ _
        · have hjD : j ∈ lrb.diff
              ((chainIds h (some ip) F).filter (· ∈ lru)) :=
            List.mem_diff_of_mem hjlrb hjch
          by_cases hpch : p ∈ (chainIds h (some ip) F).filter (· ∈ lru)
          · exact before_append_cross (List.mem_reverse.mpr hpch)
              (List.mem_cons_of_mem _ hjD)
          · have hplrb : p ∈ lrb := (List.mem_cons.mp hpm).resolve_left hpi
            have hpD : p ∈ lrb.diff
                ((chainIds h (some ip) F).filter (· ∈ lru)) :=
              List.mem_diff_of_mem hplrb hpch
            exact before_append_right ((before_restrict L.nodup
              ((List.diff_sublist _ _).trans hsubl) hold hpD hjD).cons i)
  · intro j nj hn2 hj
    have hjm : j ∉ i :: lrb := fun hmem => hj (hperm.mem_iff.mpr hmem)
    have hji : j ≠ i := fun he => hjm (he ▸ List.mem_cons_self _ _)
    have hjl : j ∉ lru := fun hmem =>
      hjm (List.mem_cons_of_mem _ (hcomp j hmem hji))
    have hstep := hagree j hji
    rw [hn2] at hstep
    cases hh : hlook h j with
    | none =>
      rw [hh] at hstep
      simpa using hstep
    | some n0 =>
      rw [hh] at hstep
      have hd := L.dead j n0 hh hjl
      simpa [hd] using hstep

/-- The insertion phase of `Add` preserves the invariant. -/
theorem Inv_addCore {c c1 : Cache K V} {k : K} {v : V} {pk : K} (I : Inv c)
    (h : addCore c k v pk = .ok c1) : Inv c1 := by
  unfold addCore at h
  cases hip : alook c.keysMap pk with
  | none =>
    rw [hip] at h
    simp at h
  | some ip =>
    rw [hip] at h
    cases hkn : alook c.keysMap k with
    | some j =>
      rw [hkn] at h
      simp at h
    | none =>
      rw [hkn] at h
      simp only [Except.ok.injEq] at h
      subst h
      set i := c.nextId with hidef
      set nn : Node K V := (⟨k, v, some ip, []⟩ : Node K V) with hnndef
      set H2 := hupd ((i, nn) :: c.heap) ip
        (fun m => { m with children := aset m.children k i }) with hH2def
      have hnnk : nn.key = k := rfl
      have hnnp : nn.parent = some ip := rfl
      have hnnc : nn.children = ([] : List (K × Nat)) := rfl
      have hiheap : hlook c.heap i = none := by
        apply alook_none_of_not_mem_keys
        intro hmem
        obtain ⟨q, hq, hq1⟩ := List.mem_map.mp hmem
        have := I.heap_fresh q hq
        rw [hidef] at hq1
        omega
      have hilru : i ∉ c.lruList := by
        intro hmem
        obtain ⟨n0, hn0⟩ := I.lru_heap _ hmem
        rw [hiheap] at hn0
        exact absurd hn0 (by simp)
      obtain ⟨np, hnp, hnpk⟩ := I.km_heap pk ip hip
      have hipi : ip ≠ i := by
        intro he
        rw [he, hiheap] at hnp
        exact absurd hnp (by simp)
      have hiplru : ip ∈ c.lruList := I.km_lru pk ip hip
      have hiip : i ≠ ip := fun he => hipi he.symm
      have hlookI : hlook H2 i = some nn := by
        rw [hH2def, hlook_hupd_ne _ _ hiip, hlook_cons, if_pos rfl]
      have hlookIP : hlook H2 ip =
          some { np with children := aset np.children k i } := by
        rw [hH2def, hlook_hupd_self, hlook_cons, if_neg hiip, hnp]
        rfl
      have hlookO : ∀ j, j ≠ i → j ≠ ip → hlook H2 j = hlook c.heap j := by
        intro j hji hjip
        rw [hH2def, hlook_hupd_ne _ _ hjip, hlook_cons,
          if_neg (fun he => hji he.symm)]
      have hsame : ∀ j n2, j ≠ i → hlook H2 j = some n2 →
          ∃ n0, hlook c.heap j = some n0 ∧ n2.key = n0.key ∧
            n2.parent = n0.parent ∧
            (n2.children = n0.children ∨
              (j = ip ∧ n2.children = aset n0.children k i)) := by
        intro j n2 hji hn2
        by_cases hjip : j = ip
        · subst hjip
          rw [hlookIP] at hn2
          obtain rfl := Option.some.inj hn2
          exact ⟨np, hnp, rfl, rfl, Or.inr ⟨rfl, rfl⟩⟩
        · rw [hlookO j hji hjip] at hn2
          exact ⟨n2, hn2, rfl, rfl, Or.inl rfl⟩
      have hup : ∀ j n0, hlook c.heap j = some n0 →
          ∃ n2, hlook H2 j = some n2 ∧ n2.key = n0.key ∧
            n2.parent = n0.parent := by
        intro j n0 hn0
        have hji : j ≠ i := by
          intro he
          rw [he, hiheap] at hn0
          exact absurd hn0 (by simp)
        by_cases hjip : j = ip
        · subst hjip
          rw [hnp] at hn0
          obtain rfl := Option.some.inj hn0
          exact ⟨_, hlookIP, rfl, rfl⟩
        · exact ⟨n0, by rw [hlookO j hji hjip]; exact hn0, rfl, rfl⟩
      have hagree : ∀ j, j ≠ i →
          (hlook H2 j).bind (·.parent) = (hlook c.heap j).bind (·.parent) := by
        intro j hji
        by_cases hjip : j = ip
        · subst hjip
          rw [hlookIP, hnp]
          rfl
        · rw [hlookO j hji hjip]
      have hnoi : ∀ q m, hlook c.heap q = some m → m.parent ≠ some i := by
        intro q m hq hpq
        obtain ⟨m2, hm2⟩ := I.parent_heap q m i hq hpq
        rw [hiheap] at hm2
        exact absurd hm2 (by simp)
      have htne : ∀ j n0 k2 t, hlook c.heap j = some n0 →
          (k2, t) ∈ n0.children → t ≠ i := by
        intro j n0 k2 t hn0 hct he
        obtain ⟨m, hm⟩ := I.child_heap j n0 k2 t hn0 hct
        rw [he, hiheap] at hm
        exact absurd hm (by simp)
      have hedge : ∀ j n2 k2 t, j ≠ i → hlook H2 j = some n2 →
          (k2, t) ∈ n2.children →
          (j = ip ∧ k2 = k ∧ t = i) ∨
          (∃ n0, hlook c.heap j = some n0 ∧ (k2, t) ∈ n0.children) := by
        intro j n2 k2 t hji hn2 hct
        obtain ⟨n0, hn0, _, _, hch⟩ := hsame j n2 hji hn2
        rcases hch with he | ⟨hjip, he⟩
        · exact Or.inr ⟨n0, hn0, he ▸ hct⟩
        · rcases mem_aset (he ▸ hct) with h2 | h2
          · injection h2 with ha hb
            exact Or.inl ⟨hjip, ha, hb⟩
          · exact Or.inr ⟨n0, hn0, h2⟩
      have hperm := foldl_mtf_perm
        (chainIds H2 (some ip) (chainFuel c)) (i :: c.lruList)
      have f1 : ((aset c.keysMap k i).map Prod.fst).Nodup :=
        aset_keys_nodup _ _ _ I.km_nodup
      have f2 : (H2.map Prod.fst).Nodup := by
        rw [hH2def, hupd_keys]
        simp only [List.map_cons]
        refine List.nodup_cons.mpr ⟨?_, I.heap_nodup⟩
        intro hmem
        obtain ⟨q, hq, hq1⟩ := List.mem_map.mp hmem
        have := I.heap_fresh q hq
        rw [hidef] at hq1
        omega
      have f3 : ∀ q ∈ H2, q.1 < i + 1 := by
        intro q hq
        rw [hH2def] at hq
        obtain ⟨n0, hn0⟩ := mem_hupd_src hq
        rcases List.mem_cons.mp hn0 with he | he
        · have hq1 : q.1 = i := congrArg Prod.fst he
          omega
        · have := I.heap_fresh (q.1, n0) he
          rw [hidef]
          omega
      have f4 : ∀ k2 i2, alook (aset c.keysMap k i) k2 = some i2 →
          ∃ n2, hlook H2 i2 = some n2 ∧ n2.key = k2 := by
        intro k2 i2 hk2
        by_cases hke : k2 = k
        · subst hke
          rw [alook_aset_self] at hk2
          obtain rfl := Option.some.inj hk2
          exact ⟨nn, hlookI, hnnk⟩
        · rw [alook_aset_ne _ _ hke] at hk2
          obtain ⟨n0, hn0, hkey⟩ := I.km_heap k2 i2 hk2
          obtain ⟨n2, hn2, hk2e, _⟩ := hup i2 n0 hn0
          exact ⟨n2, hn2, by rw [hk2e, hkey]⟩
      have f5 : ∀ k2 i2, alook (aset c.keysMap k i) k2 = some i2 →
          i2 ∈ (chainIds H2 (some ip) (chainFuel c)).foldl mtf
            (i :: c.lruList) := by
        intro k2 i2 hk2
        apply hperm.mem_iff.mpr
        by_cases hke : k2 = k
        · subst hke
          rw [alook_aset_self] at hk2
          obtain rfl := Option.some.inj hk2
          exact List.mem_cons_self _ _
        · rw [alook_aset_ne _ _ hke] at hk2
          exact List.mem_cons_of_mem _ (I.km_lru k2 i2 hk2)
      have f6 : ∀ j ∈ (chainIds H2 (some ip) (chainFuel c)).foldl mtf
          (i :: c.lruList), ∃ n2, hlook H2 j = some n2 := by
        intro j hj
        rcases List.mem_cons.mp (hperm.mem_iff.mp hj) with rfl | hj2
        · exact ⟨nn, hlookI⟩
        · obtain ⟨n0, hn0⟩ := I.lru_heap j hj2
          obtain ⟨n2, hn2, _, _⟩ := hup j n0 hn0
          exact ⟨n2, hn2⟩
      have hichain : i ∉ chainIds c.heap (some ip) (chainFuel c) := by
        intro hmem
        rcases chainIds_mem_src hmem with he | ⟨q, m, hq, hpq⟩
        · exact hipi (Option.some.inj he)
        · exact hnoi q m hq hpq
      have f7 : LOrd H2 ((chainIds H2 (some ip) (chainFuel c)).foldl mtf
          (i :: c.lruList)) :=
        front_promote_LOrd I.lord (List.Sublist.refl _) hilru
          (fun x hx _ => hx) hlookI hnnp hagree hiplru hichain
          (idx_lt_chainFuel hiplru)
      have f8 : ∀ j n2 p, hlook H2 j = some n2 → n2.parent = some p →
          ∃ m, hlook H2 p = some m := by
        intro j n2 p hn2 hp2
        by_cases hji : j = i
        · subst hji
          rw [hlookI] at hn2
          obtain rfl := Option.some.inj hn2
          rw [hnnp] at hp2
          obtain rfl := Option.some.inj hp2
          exact ⟨_, hlookIP⟩
        · obtain ⟨n0, hn0, _, hpar0, _⟩ := hsame j n2 hji hn2
          rw [hpar0] at hp2
          obtain ⟨m, hm⟩ := I.parent_heap j n0 p hn0 hp2
          obtain ⟨m2, hm2, _, _⟩ := hup p m hm
          exact ⟨m2, hm2⟩
      have f9 : ∀ j n2 k2 t, hlook H2 j = some n2 → (k2, t) ∈ n2.children →
          ∃ m, hlook H2 t = some m := by
        intro j n2 k2 t hn2 hct
        by_cases hji : j = i
        · subst hji
          rw [hlookI] at hn2
          obtain rfl := Option.some.inj hn2
          rw [hnnc] at hct
          exact absurd hct (List.not_mem_nil _)
        · rcases hedge j n2 k2 t hji hn2 hct with ⟨_, _, rfl⟩ | ⟨n0, hn0, hct0⟩
          · exact ⟨nn, hlookI⟩
          · obtain ⟨m, hm⟩ := I.child_heap j n0 k2 t hn0 hct0
            obtain ⟨m2, hm2, _, _⟩ := hup t m hm
            exact ⟨m2, hm2⟩
      have f10 : ∀ j n2, j ∈ (chainIds H2 (some ip) (chainFuel c)).foldl mtf
          (i :: c.lruList) → hlook H2 j = some n2 →
          (n2.children.map Prod.fst).Nodup := by
        intro j n2 hj hn2
        by_cases hji : j = i
        · subst hji
          rw [hlookI] at hn2
          obtain rfl := Option.some.inj hn2
          rw [hnnc]
          simp
        · have hjl : j ∈ c.lruList :=
            (List.mem_cons.mp (hperm.mem_iff.mp hj)).resolve_left hji
          obtain ⟨n0, hn0, _, _, hch⟩ := hsame j n2 hji hn2
          have hnd0 := I.children_nodup j n0 hjl hn0
          rcases hch with he | ⟨_, he⟩
          · rw [he]
            exact hnd0
          · rw [he]
            exact aset_keys_nodup _ _ _ hnd0
      have f11 : ∀ j n2 k2 t, j ∈ (chainIds H2 (some ip) (chainFuel c)).foldl
          mtf (i :: c.lruList) → hlook H2 j = some n2 →
          (k2, t) ∈ n2.children →
          (t ∈ (chainIds H2 (some ip) (chainFuel c)).foldl mtf
              (i :: c.lruList) →
            ∃ m, hlook H2 t = some m ∧ m.key = k2 ∧ m.parent = some j) ∧
          (t ∉ (chainIds H2 (some ip) (chainFuel c)).foldl mtf
              (i :: c.lruList) →
            ∃ m, hlook H2 t = some m ∧ m.children = []) := by
        intro j n2 k2 t hj hn2 hct
        by_cases hji : j = i
        · subst hji
          rw [hlookI] at hn2
          obtain rfl := Option.some.inj hn2
          rw [hnnc] at hct
          exact absurd hct (List.not_mem_nil _)
        · rcases hedge j n2 k2 t hji hn2 hct with ⟨rfl, rfl, rfl⟩ |
            ⟨n0, hn0, hct0⟩
          · constructor
            · intro _
              exact ⟨nn, hlookI, hnnk, hnnp⟩
            · intro hni2
              exact absurd (hperm.mem_iff.mpr (List.mem_cons_self _ _)) hni2
          · have hjl : j ∈ c.lruList :=
              (List.mem_cons.mp (hperm.mem_iff.mp hj)).resolve_left hji
            have hpre := I.children_ok j n0 k2 t hjl hn0 hct0
            have hti : t ≠ i := htne j n0 k2 t hn0 hct0
            constructor
            · intro ht
              have htl : t ∈ c.lruList :=
                (List.mem_cons.mp (hperm.mem_iff.mp ht)).resolve_left hti
              obtain ⟨m, hm, hmk, hmp⟩ := hpre.1 htl
              obtain ⟨m2, hm2, hk2e, hp2e⟩ := hup t m hm
              exact ⟨m2, hm2, by rw [hk2e, hmk], by rw [hp2e, hmp]⟩
            · intro ht
              have htl : t ∉ c.lruList := fun hmem =>
                ht (hperm.mem_iff.mpr (List.mem_cons_of_mem _ hmem))
              obtain ⟨m, hm, hmc⟩ := hpre.2 htl
              have htip : t ≠ ip := fun he => htl (he ▸ hiplru)
              refine ⟨m, ?_, hmc⟩
              rw [hlookO t hti htip]
              exact hm
      have f12 : ∀ j1 n1 j2 n2 k1 k2 t,
          j1 ∈ (chainIds H2 (some ip) (chainFuel c)).foldl mtf
            (i :: c.lruList) →
          j2 ∈ (chainIds H2 (some ip) (chainFuel c)).foldl mtf
            (i :: c.lruList) →
          hlook H2 j1 = some n1 → hlook H2 j2 = some n2 →
          (k1, t) ∈ n1.children → (k2, t) ∈ n2.children →
          j1 = j2 ∧ k1 = k2 := by
        intro j1 n1 j2 n2 k1 k2 t h1 h2 hn1 hn2 hc1 hc2
        have hj1i : j1 ≠ i := by
          intro he
          subst he
          rw [hlookI] at hn1
          obtain rfl := Option.some.inj hn1
          rw [hnnc] at hc1
          exact absurd hc1 (List.not_mem_nil _)
        have hj2i : j2 ≠ i := by
          intro he
          subst he
          rw [hlookI] at hn2
          obtain rfl := Option.some.inj hn2
          rw [hnnc] at hc2
          exact absurd hc2 (List.not_mem_nil _)
        rcases hedge j1 n1 k1 t hj1i hn1 hc1 with ⟨he1, hk1, rfl⟩ |
          ⟨m1, hm1, hc10⟩
        · rcases hedge j2 n2 k2 i hj2i hn2 hc2 with ⟨he2, hk2, _⟩ |
            ⟨m2, hm2, hc20⟩
          · exact ⟨he1.trans he2.symm, hk1.trans hk2.symm⟩
          · exact absurd rfl (htne j2 m2 k2 i hm2 hc20)
        · rcases hedge j2 n2 k2 t hj2i hn2 hc2 with ⟨he2, hk2, rfl⟩ |
            ⟨m2, hm2, hc20⟩
          · exact absurd rfl (htne j1 m1 k1 i hm1 hc10)
          · have hj1l : j1 ∈ c.lruList :=
              (List.mem_cons.mp (hperm.mem_iff.mp h1)).resolve_left hj1i
            have hj2l : j2 ∈ c.lruList :=
              (List.mem_cons.mp (hperm.mem_iff.mp h2)).resolve_left hj2i
            exact I.own_unique j1 m1 j2 m2 k1 k2 t hj1l hj2l hm1 hm2 hc10 hc20
      have f13 : ∀ j n2, j ∈ (chainIds H2 (some ip) (chainFuel c)).foldl mtf
          (i :: c.lruList) → hlook H2 j = some n2 → n2.parent = none →
          c.root = some j := by
        intro j n2 hj hn2 hp
        by_cases hji : j = i
        · subst hji
          rw [hlookI] at hn2
          obtain rfl := Option.some.inj hn2
          rw [hnnp] at hp
          exact absurd hp (by simp)
        · have hjl : j ∈ c.lruList :=
            (List.mem_cons.mp (hperm.mem_iff.mp hj)).resolve_left hji
          obtain ⟨n0, hn0, _, hp0, _⟩ := hsame j n2 hji hn2
          rw [hp0] at hp
          exact I.root_top j n0 hjl hn0 hp
      have f14 : c.root = none → H2 = [] := by
        intro hro
        have hhe := I.root_empty hro
        rw [hhe] at hnp
        simp [hlook, alook] at hnp
      exact ⟨f1, f2, f3, f4, f5, f6, f7, f8, f9, f10, f11, f12, f13, f14⟩

/-- The shared eviction/size tail of the insertion operations preserves
the invariant. -/
theorem Inv_finishInsert {c c1 : Cache K V} (I1 : Inv c1) :
    Inv (finishInsert c c1).1 := by
  unfold finishInsert
  split
  rename_i c2 ev heq
  dsimp only
  apply Inv_stats ?_ _
  by_cases hcap : 0 < c.maxEntries ∧ c.maxEntries < (c1.lruList.length : Int)
  · rw [if_pos hcap] at heq
    have h2 := Inv_evict I1
    rw [heq] at h2
    exact h2
  · rw [if_neg hcap] at heq
    injection heq with h1 _
    rw [← h1]
    exact I1

/-- `Add` preserves the invariant. -/
theorem Inv_add {c : Cache K V} (I : Inv c) (k : K) (v : V) (pk : K) :
    Inv (add c k v pk).1 := by
  unfold add
  cases hc : addCore c k v pk with
  | error e => exact I
  | ok c1 => exact Inv_finishInsert (Inv_addCore I hc)

/-- Replacing the heap by one with the same ids and, entry for entry,
the same key, parent and children (only stored values may differ)
preserves the invariant. -/
theorem Inv_heapcongr {c : Cache K V} (I : Inv c) {h2 : List (Nat × Node K V)}
    (hkeys : h2.map Prod.fst = c.heap.map Prod.fst)
    (hsim : ∀ j n2, hlook h2 j = some n2 → ∃ n0, hlook c.heap j = some n0 ∧
      n2.key = n0.key ∧ n2.parent = n0.parent ∧ n2.children = n0.children)
    (hsim2 : ∀ j n0, hlook c.heap j = some n0 → ∃ n2, hlook h2 j = some n2) :
    Inv { c with heap := h2 } := by
  have hup : ∀ j n0, hlook c.heap j = some n0 → ∃ n2, hlook h2 j = some n2 ∧
      n2.key = n0.key ∧ n2.parent = n0.parent ∧
      n2.children = n0.children := by
    intro j n0 hn0
    obtain ⟨n2, hn2⟩ := hsim2 j n0 hn0
    obtain ⟨n0a, hn0a, hk, hp, hc⟩ := hsim j n2 hn2
    rw [hn0] at hn0a
    obtain rfl := Option.some.inj hn0a
    exact ⟨n2, hn2, hk, hp, hc⟩
  refine ⟨I.km_nodup, ?_, ?_, ?_, I.km_lru, ?_, ⟨I.lord.nodup, ?_, ?_⟩,
    ?_, ?_, ?_, ?_, ?_, ?_, ?_⟩
  · rw [hkeys]
    exact I.heap_nodup
  · intro q hq
    have hqk : q.1 ∈ c.heap.map Prod.fst := by
      rw [← hkeys]
      exact List.mem_map.mpr ⟨q, hq, rfl⟩
    obtain ⟨q0, hq0, hq0e⟩ := List.mem_map.mp hqk
    have := I.heap_fresh q0 hq0
    show q.1 < c.nextId
    omega
  · intro k2 i2 hk2
    obtain ⟨n0, hn0, hkey⟩ := I.km_heap k2 i2 hk2
    obtain ⟨n2, hn2, hk, _, _⟩ := hup i2 n0 hn0
    exact ⟨n2, hn2, by rw [hk, hkey]⟩
  · intro j hj
    obtain ⟨n0, hn0⟩ := I.lru_heap j hj
    exact hsim2 j n0 hn0
  · intro j n2 p hj hn2 hp hpl
    obtain ⟨n0, hn0, _, hpar, _⟩ := hsim j n2 hn2
    rw [hpar] at hp
    exact I.lord.ord j n0 p hj hn0 hp hpl
  · intro j n2 hn2 hj
    obtain ⟨n0, hn0, _, hpar, _⟩ := hsim j n2 hn2
    rw [hpar]
    exact I.lord.dead j n0 hn0 hj
  · intro j n2 p hn2 hp
    obtain ⟨n0, hn0, _, hpar, _⟩ := hsim j n2 hn2
    rw [hpar] at hp
    obtain ⟨m, hm⟩ := I.parent_heap j n0 p hn0 hp
    exact hsim2 p m hm
  · intro j n2 k2 t hn2 hct
    obtain ⟨n0, hn0, _, _, hch⟩ := hsim j n2 hn2
    rw [hch] at hct
    obtain ⟨m, hm⟩ := I.child_heap j n0 k2 t hn0 hct
    exact hsim2 t m hm
  · intro j n2 hj hn2
    obtain ⟨n0, hn0, _, _, hch⟩ := hsim j n2 hn2
    rw [hch]
    exact I.children_nodup j n0 hj hn0
  · intro j n2 k2 t hj hn2 hct
    obtain ⟨n0, hn0, _, _, hch⟩ := hsim j n2 hn2
    rw [hch] at hct
    have hpre := I.children_ok j n0 k2 t hj hn0 hct
    constructor
    · intro ht
      obtain ⟨m, hm, hmk, hmp⟩ := hpre.1 ht
      obtain ⟨m2, hm2, hk, hp, _⟩ := hup t m hm
      exact ⟨m2, hm2, by rw [hk, hmk], by rw [hp, hmp]⟩
    · intro ht
      obtain ⟨m, hm, hmc⟩ := hpre.2 ht
      obtain ⟨m2, hm2, _, _, hc⟩ := hup t m hm
      exact ⟨m2, hm2, by rw [hc, hmc]⟩
  · intro j1 n1 j2 n2 k1 k2 t h1 h2 hn1 hn2 hc1 hc2
    obtain ⟨m1, hm1, _, _, hch1⟩ := hsim j1 n1 hn1
    obtain ⟨m2, hm2, _, _, hch2⟩ := hsim j2 n2 hn2
    rw [hch1] at hc1
    rw [hch2] at hc2
    exact I.own_unique j1 m1 j2 m2 k1 k2 t h1 h2 hm1 hm2 hc1 hc2
  · intro j n2 hj hn2 hp
    obtain ⟨n0, hn0, _, hpar, _⟩ := hsim j n2 hn2
    rw [hpar] at hp
    exact I.root_top j n0 hj hn0 hp
  · intro hro
    have hhe := I.root_empty hro
    rw [hhe] at hkeys
    simp only [List.map_nil] at hkeys
    exact List.map_eq_nil_iff.mp hkeys

/-- The value-update branch of `AddOrUpdate` (cache.go line 278): only a
stored value changes, so every structural invariant survives. -/
theorem Inv_mapval {c : Cache K V} (I : Inv c) (i : Nat) (v : V) :
    Inv { c with heap := hupd c.heap i (fun m => { m with val := v }) } := by
  apply Inv_heapcongr I
  · exact hupd_keys _ _ _
  · intro j n2 hn2
    by_cases hji : j = i
    · subst hji
      rw [hlook_hupd_self] at hn2
      cases hn : hlook c.heap j with
      | none =>
        rw [hn] at hn2
        simp at hn2
      | some n0 =>
        rw [hn] at hn2
        obtain rfl := Option.some.inj hn2
        exact ⟨n0, rfl, rfl, rfl, rfl⟩
    · rw [hlook_hupd_ne _ _ hji] at hn2
      exact ⟨n2, hn2, rfl, rfl, rfl⟩
  · intro j n0 hn0
    exact hupd_some _ _ ⟨n0, hn0⟩

/-- The reparenting branch of `AddOrUpdate` (cache.go lines 270-281)
preserves the invariant.  `h1` is the heap after the `removeFromParent`
step: identical to the old heap except that the old parent's children
map may have lost the moved node's entry. -/
theorem Inv_reparent {c : Cache K V} (I : Inv c) {k : K} {v : V} {pk : K}
    {i ip : Nat} {n : Node K V} {h1 : List (Nat × Node K V)}
    (hkn : alook c.keysMap k = some i)
    (hn : hlook c.heap i = some n)
    (hip : alook c.keysMap pk = some ip)
    (hsp : n.parent ≠ some ip)
    (hcyc : i ∉ chainIds c.heap (some ip) (chainFuel c))
    (h1keys : h1.map Prod.fst = c.heap.map Prod.fst)
    (h1noi : hlook h1 i = hlook c.heap i)
    (h1noip : hlook h1 ip = hlook c.heap ip)
    (h1same : ∀ j n0, hlook c.heap j = some n0 → ∃ m, hlook h1 j = some m ∧
      m.key = n0.key ∧ m.parent = n0.parent ∧
      (m.children = n0.children ∨ m.children = adel n0.children n.key))
    (h1rev : ∀ j m, hlook h1 j = some m → ∃ n0, hlook c.heap j = some n0 ∧
      m.key = n0.key ∧ m.parent = n0.parent ∧
      (m.children = n0.children ∨ m.children = adel n0.children n.key))
    (h1clean : ∀ j m k2, j ∈ c.lruList → hlook h1 j = some m →
      (k2, i) ∉ m.children) :
    Inv { c with
      heap := hupd (hupd h1 i fun m => { m with parent := some ip, val := v })
        ip fun m => { m with children := aset m.children k i },
      lruList := (chainIds (hupd (hupd h1 i fun m =>
          { m with parent := some ip, val := v })
          ip fun m => { m with children := aset m.children k i })
        (some ip) (chainFuel c)).foldl mtf (mtf c.lruList i) } := by
  obtain ⟨np, hnp, hnpk⟩ := I.km_heap pk ip hip
  have hil : i ∈ c.lruList := I.km_lru k i hkn
  have hkey : n.key = k := by
    obtain ⟨na, hna, hka⟩ := I.km_heap k i hkn
    rw [hn] at hna
    obtain rfl := Option.some.inj hna
    exact hka
  have hiplru : ip ∈ c.lruList := I.km_lru pk ip hip
  have hipi : ip ≠ i := by
    intro he
    apply hcyc
    have hh : chainIds c.heap (some ip) (chainFuel c) =
        ip :: chainIds c.heap ((hlook c.heap ip).bind (·.parent))
          (c.lruList.length + 1) := rfl
    rw [hh, he]
    exact List.mem_cons_self _ _
  have hiip : i ≠ ip := fun he => hipi he.symm
  set H3 := hupd (hupd h1 i fun m => { m with parent := some ip, val := v })
    ip fun m => { m with children := aset m.children k i } with hH3def
  have hlookI3 : hlook H3 i = some { n with parent := some ip, val := v } := by
    rw [hH3def, hlook_hupd_ne _ _ hiip, hlook_hupd_self, h1noi, hn]
    rfl
  have hlookIP3 : hlook H3 ip =
      some { np with children := aset np.children k i } := by
    rw [hH3def, hlook_hupd_self, hlook_hupd_ne _ _ hipi, h1noip, hnp]
    rfl
  have hlookO3 : ∀ j, j ≠ i → j ≠ ip → hlook H3 j = hlook h1 j := by
    intro j hji hjip
    rw [hH3def, hlook_hupd_ne _ _ hjip, hlook_hupd_ne _ _ hji]
  have hsame3 : ∀ j n2, hlook H3 j = some n2 →
      ∃ n0, hlook c.heap j = some n0 ∧ n2.key = n0.key ∧
        (j ≠ i → n2.parent = n0.parent) ∧
        ∀ k2 t, (k2, t) ∈ n2.children →
          (j = ip ∧ k2 = k ∧ t = i) ∨ (k2, t) ∈ n0.children := by
    intro j n2 hn2
    by_cases hji : j = i
    · subst hji
      rw [hlookI3] at hn2
      obtain rfl := Option.some.inj hn2
      refine ⟨n, hn, rfl, fun hc => absurd rfl hc, ?_⟩
      intro k2 t hct
      exact Or.inr hct
    · by_cases hjip : j = ip
      · subst hjip
        rw [hlookIP3] at hn2
        obtain rfl := Option.some.inj hn2
        refine ⟨np, hnp, rfl, fun _ => rfl, ?_⟩
        intro k2 t hct
        rcases mem_aset hct with he | he
        · injection he with h1e h2e
          exact Or.inl ⟨rfl, h1e, h2e⟩
        · exact Or.inr he
      · rw [hlookO3 j hji hjip] at hn2
        obtain ⟨n0, hn0, hk, hp, hch⟩ := h1rev j n2 hn2
        refine ⟨n0, hn0, hk, fun _ => hp, ?_⟩
        intro k2 t hct
        rcases hch with he | he
        · exact Or.inr (he ▸ hct)
        · exact Or.inr (adel_mem (he ▸ hct))
  have hup3 : ∀ j n0, hlook c.heap j = some n0 →
      ∃ n2, hlook H3 j = some n2 ∧ n2.key = n0.key ∧
        (j ≠ i → n2.parent = n0.parent) := by
    intro j n0 hn0
    by_cases hji : j = i
    · subst hji
      rw [hn] at hn0
      obtain rfl := Option.some.inj hn0
      exact ⟨_, hlookI3, rfl, fun hc => absurd rfl hc⟩
    · by_cases hjip : j = ip
      · subst hjip
        rw [hnp] at hn0
        obtain rfl := Option.some.inj hn0
        exact ⟨_, hlookIP3, rfl, fun _ => rfl⟩
      · obtain ⟨m, hm, hk, hp, _⟩ := h1same j n0 hn0
        exact ⟨m, by rw [hlookO3 j hji hjip]; exact hm, hk, fun _ => hp⟩
  have hagree3 : ∀ j, j ≠ i →
      (hlook H3 j).bind (·.parent) = (hlook c.heap j).bind (·.parent) := by
    intro j hji
    by_cases hjip : j = ip
    · subst hjip
      rw [hlookIP3, hnp]
      rfl
    · rw [hlookO3 j hji hjip]
      cases hc0 : hlook c.heap j with
      | none =>
        cases hl1 : hlook h1 j with
        | none => rfl
        | some m =>
          obtain ⟨n0, hn0, _⟩ := h1rev j m hl1
          rw [hc0] at hn0
          exact absurd hn0 (by simp)
      | some n0 =>
        obtain ⟨m, hm, _, hp, _⟩ := h1same j n0 hc0
        rw [hm]
        simp [hp]
  have htnei : ∀ j n2 k2, j ∈ c.lruList → hlook H3 j = some n2 →
      (k2, i) ∈ n2.children → j = ip ∧ k2 = k := by
    intro j n2 k2 hj hn2 hct
    by_cases hjip : j = ip
    · rw [hjip, hlookIP3] at hn2
      obtain rfl := Option.some.inj hn2
      rcases mem_aset hct with he | he
      · injection he with h1e _
        exact ⟨hjip, h1e⟩
      · exfalso
        obtain ⟨m, hm, _, hmp⟩ := (I.children_ok ip np k2 i hiplru hnp he).1 hil
        rw [hn] at hm
        obtain rfl := Option.some.inj hm
        exact hsp hmp
    · exfalso
      by_cases hji : j = i
      · rw [hji, hlookI3] at hn2
        obtain rfl := Option.some.inj hn2
        obtain ⟨m, hm, _, hmp⟩ := (I.children_ok i n k2 i hil hn hct).1 hil
        rw [hn] at hm
        obtain rfl := Option.some.inj hm
        exact no_self_parent I hil hn hmp
      · rw [hlookO3 j hji hjip] at hn2
        exact h1clean j n2 k2 hj hn2 hct
  have hdownch : ∀ t m, t ≠ i → t ≠ ip → hlook c.heap t = some m →
      m.children = [] → ∃ m2, hlook H3 t = some m2 ∧ m2.children = [] := by
    intro t m hti htip hm hmc
    obtain ⟨m1, hm1, _, _, hch⟩ := h1same t m hm
    refine ⟨m1, by rw [hlookO3 t hti htip]; exact hm1, ?_⟩
    rcases hch with he | he
    · rw [he, hmc]
    · rw [he, hmc]
      rfl
  have hmtf : mtf c.lruList i = i :: c.lruList.erase i := by
    rw [mtf, if_pos hil]
  have hperm2 : ((chainIds H3 (some ip) (chainFuel c)).foldl mtf
      (mtf c.lruList i)).Perm c.lruList :=
    (foldl_mtf_perm _ _).trans (mtf_perm _ _)
  have hsubl0 : (c.lruList.erase i).Sublist c.lruList :=
    List.erase_sublist _ _
  have hierase : i ∉ c.lruList.erase i := fun hmem =>
    ((List.Nodup.mem_erase_iff I.lord.nodup).mp hmem).1 rfl
  have f7 : LOrd H3 ((chainIds H3 (some ip) (chainFuel c)).foldl mtf
      (mtf c.lruList i)) := by
    rw [hmtf]
    exact front_promote_LOrd I.lord hsubl0 hierase
      (fun x hx hxi => (List.mem_erase_of_ne hxi).mpr hx)
      hlookI3 rfl hagree3 hiplru hcyc (idx_lt_chainFuel hiplru)
  have f2 : (H3.map Prod.fst).Nodup := by
    rw [hH3def, hupd_keys, hupd_keys, h1keys]
    exact I.heap_nodup
  have f3 : ∀ q ∈ H3, q.1 < c.nextId := by
    intro q hq
    rw [hH3def] at hq
    obtain ⟨n0, hn0⟩ := mem_hupd_src hq
    obtain ⟨n1, hn1⟩ := mem_hupd_src hn0
    have hqk : q.1 ∈ c.heap.map Prod.fst := by
      rw [← h1keys]
      exact List.mem_map.mpr ⟨(q.1, n1), hn1, rfl⟩
    obtain ⟨q0, hq0, hq0e⟩ := List.mem_map.mp hqk
    have := I.heap_fresh q0 hq0
    omega
  have f4 : ∀ k2 i2, alook c.keysMap k2 = some i2 →
      ∃ n2, hlook H3 i2 = some n2 ∧ n2.key = k2 := by
    intro k2 i2 hk2
    obtain ⟨n0, hn0, hk0⟩ := I.km_heap k2 i2 hk2
    obtain ⟨n2, hn2, hk, _⟩ := hup3 i2 n0 hn0
    exact ⟨n2, hn2, by rw [hk, hk0]⟩
  have f5 : ∀ k2 i2, alook c.keysMap k2 = some i2 →
      i2 ∈ (chainIds H3 (some ip) (chainFuel c)).foldl mtf
        (mtf c.lruList i) :=
    fun k2 i2 hk2 => hperm2.mem_iff.mpr (I.km_lru k2 i2 hk2)
  have f6 : ∀ j ∈ (chainIds H3 (some ip) (chainFuel c)).foldl mtf
      (mtf c.lruList i), ∃ n2, hlook H3 j = some n2 := by
    intro j hj
    obtain ⟨n0, hn0⟩ := I.lru_heap j (hperm2.mem_iff.mp hj)
    obtain ⟨n2, hn2, _, _⟩ := hup3 j n0 hn0
    exact ⟨n2, hn2⟩
  have f8 : ∀ j n2 p, hlook H3 j = some n2 → n2.parent = some p →
      ∃ m, hlook H3 p = some m := by
    intro j n2 p hn2 hp
    by_cases hji : j = i
    · rw [hji, hlookI3] at hn2
      obtain rfl := Option.some.inj hn2
      obtain rfl : ip = p := Option.some.inj hp
      exact ⟨_, hlookIP3⟩
    · obtain ⟨n0, hn0, _, hpar, _⟩ := hsame3 j n2 hn2
      rw [hpar hji] at hp
      obtain ⟨m, hm⟩ := I.parent_heap j n0 p hn0 hp
      obtain ⟨m2, hm2, _, _⟩ := hup3 p m hm
      exact ⟨m2, hm2⟩
  have f9 : ∀ j n2 k2 t, hlook H3 j = some n2 → (k2, t) ∈ n2.children →
      ∃ m, hlook H3 t = some m := by
    intro j n2 k2 t hn2 hct
    obtain ⟨n0, hn0, _, _, hch⟩ := hsame3 j n2 hn2
    rcases hch k2 t hct with ⟨_, _, rfl⟩ | he
    · exact ⟨_, hlookI3⟩
    · obtain ⟨m, hm⟩ := I.child_heap j n0 k2 t hn0 he
      obtain ⟨m2, hm2, _, _⟩ := hup3 t m hm
      exact ⟨m2, hm2⟩
  have f10 : ∀ j n2, j ∈ (chainIds H3 (some ip) (chainFuel c)).foldl mtf
      (mtf c.lruList i) → hlook H3 j = some n2 →
      (n2.children.map Prod.fst).Nodup := by
    intro j n2 hj hn2
    have hjl : j ∈ c.lruList := hperm2.mem_iff.mp hj
    by_cases hji : j = i
    · rw [hji, hlookI3] at hn2
      obtain rfl := Option.some.inj hn2
      exact I.children_nodup i n hil hn
    · by_cases hjip : j = ip
      · rw [hjip, hlookIP3] at hn2
        obtain rfl := Option.some.inj hn2
        exact aset_keys_nodup _ _ _ (I.children_nodup ip np hiplru hnp)
      · rw [hlookO3 j hji hjip] at hn2
        obtain ⟨n0, hn0, _, _, hch⟩ := h1rev j n2 hn2
        have hnd0 := I.children_nodup j n0 hjl hn0
        rcases hch with he | he
        · rw [he]
          exact hnd0
        · rw [he]
          exact (adel_keys_sublist _ _).nodup hnd0
  have f11 : ∀ j n2 k2 t, j ∈ (chainIds H3 (some ip) (chainFuel c)).foldl
      mtf (mtf c.lruList i) → hlook H3 j = some n2 →
      (k2, t) ∈ n2.children →
      (t ∈ (chainIds H3 (some ip) (chainFuel c)).foldl mtf
          (mtf c.lruList i) →
        ∃ m, hlook H3 t = some m ∧ m.key = k2 ∧ m.parent = some j) ∧
      (t ∉ (chainIds H3 (some ip) (chainFuel c)).foldl mtf
          (mtf c.lruList i) →
        ∃ m, hlook H3 t = some m ∧ m.children = []) := by
    intro j n2 k2 t hj hn2 hct
    have hjl : j ∈ c.lruList := hperm2.mem_iff.mp hj
    by_cases hti : t = i
    · subst hti
      obtain ⟨hjip, hk2⟩ := htnei j n2 k2 hjl hn2 hct
      subst hjip
      subst hk2
      constructor
      · intro _
        exact ⟨_, hlookI3, hkey, rfl⟩
      · intro hti2
        exact absurd (hperm2.mem_iff.mpr hil) hti2
    · obtain ⟨n0, hn0, _, _, hch⟩ := hsame3 j n2 hn2
      rcases hch k2 t hct with ⟨_, _, he⟩ | he
      · exact absurd he hti
      · have hpre := I.children_ok j n0 k2 t hjl hn0 he
        constructor
        · intro ht
          have htl : t ∈ c.lruList := hperm2.mem_iff.mp ht
          obtain ⟨m, hm, hmk, hmp⟩ := hpre.1 htl
          obtain ⟨m2, hm2, hk2e, hp2e⟩ := hup3 t m hm
          exact ⟨m2, hm2, by rw [hk2e, hmk], by rw [hp2e hti, hmp]⟩
        · intro ht
          have htl : t ∉ c.lruList := fun hmem =>
            ht (hperm2.mem_iff.mpr hmem)
          obtain ⟨m, hm, hmc⟩ := hpre.2 htl
          have htip : t ≠ ip := fun he2 => htl (he2 ▸ hiplru)
          exact hdownch t m hti htip hm hmc
  have f12 : ∀ j1 n1 j2 n2 k1 k2 t,
      j1 ∈ (chainIds H3 (some ip) (chainFuel c)).foldl mtf
        (mtf c.lruList i) →
      j2 ∈ (chainIds H3 (some ip) (chainFuel c)).foldl mtf
        (mtf c.lruList i) →
      hlook H3 j1 = some n1 → hlook H3 j2 = some n2 →
      (k1, t) ∈ n1.children → (k2, t) ∈ n2.children →
      j1 = j2 ∧ k1 = k2 := by
    intro j1 n1 j2 n2 k1 k2 t h1m h2m hn1 hn2 hc1 hc2
    have hj1l : j1 ∈ c.lruList := hperm2.mem_iff.mp h1m
    have hj2l : j2 ∈ c.lruList := hperm2.mem_iff.mp h2m
    by_cases hti : t = i
    · subst hti
      obtain ⟨he1, hk1⟩ := htnei j1 n1 k1 hj1l hn1 hc1
      obtain ⟨he2, hk2⟩ := htnei j2 n2 k2 hj2l hn2 hc2
      exact ⟨he1.trans he2.symm, hk1.trans hk2.symm⟩
    · obtain ⟨m1, hm1, _, _, hch1⟩ := hsame3 j1 n1 hn1
      obtain ⟨m2, hm2, _, _, hch2⟩ := hsame3 j2 n2 hn2
      rcases hch1 k1 t hc1 with ⟨_, _, he⟩ | he1
      · exact absurd he hti
      · rcases hch2 k2 t hc2 with ⟨_, _, he⟩ | he2
        · exact absurd he hti
        · exact I.own_unique j1 m1 j2 m2 k1 k2 t hj1l hj2l hm1 hm2 he1 he2
  have f13 : ∀ j n2, j ∈ (chainIds H3 (some ip) (chainFuel c)).foldl mtf
      (mtf c.lruList i) → hlook H3 j = some n2 → n2.parent = none →
      c.root = some j := by
    intro j n2 hj hn2 hp
    by_cases hji : j = i
    · subst hji
      rw [hlookI3] at hn2
      obtain rfl := Option.some.inj hn2
      exact absurd hp (by simp)
    · have hjl : j ∈ c.lruList := hperm2.mem_iff.mp hj
      obtain ⟨n0, hn0, _, hpar, _⟩ := hsame3 j n2 hn2
      rw [hpar hji] at hp
      exact I.root_top j n0 hjl hn0 hp
  have f14 : c.root = none → H3 = [] := by
    intro hro
    have hhe := I.root_empty hro
    rw [hhe] at hn
    simp [hlook, alook] at hn
  exact ⟨I.km_nodup, f2, f3, f4, f5, f6, f7, f8, f9, f10, f11, f12, f13, f14⟩

/-- The insertion/update phase of `AddOrUpdate` preserves the invariant. -/
theorem Inv_addOrUpdateCore {c c1 : Cache K V} {k : K} {v : V} {pk : K}
    (I : Inv c) (h : addOrUpdateCore c k v pk = .ok c1) : Inv c1 := by
  unfold addOrUpdateCore at h
  cases hip : alook c.keysMap pk with
  | none =>
    rw [hip] at h
    simp at h
  | some ip =>
    rw [hip] at h
    dsimp only at h
    cases hkn : alook c.keysMap k with
    | none =>
      rw [hkn] at h
      exact Inv_addCore I h
    | some i =>
      rw [hkn] at h
      dsimp only at h
      cases hn : hlook c.heap i with
      | none =>
        rw [hn] at h
        simp at h
      | some n =>
        rw [hn] at h
        dsimp only at h
        have hil : i ∈ c.lruList := I.km_lru k i hkn
        by_cases hsp : n.parent = some ip
        · rw [if_pos hsp] at h
          simp only [Except.ok.injEq] at h
          subst h
          have hL : LOrd (hupd c.heap i fun m => { m with val := v })
              ((chainIds (hupd c.heap i fun m => { m with val := v })
                (some i) (chainFuel c + 1)).foldl mtf c.lruList) :=
            promote_LOrd (Inv_mapval I i v).lord hil
              (le_trans (idx_lt_chainFuel hil) (Nat.le_succ _))
          exact Inv_relist (Inv_mapval I i v) (foldl_mtf_perm _ _) hL c.stats
        · rw [if_neg hsp] at h
          by_cases hcyc : i ∈ chainIds c.heap (some ip) (chainFuel c)
          · rw [if_pos hcyc] at h
            simp at h
          · rw [if_neg hcyc] at h
            simp only [Except.ok.injEq] at h
            subst h
            cases hop : n.parent with
            | none =>
              have hclean : ∀ j m k2, j ∈ c.lruList →
                  hlook c.heap j = some m → (k2, i) ∉ m.children := by
                intro j m k2 hj hm hct
                obtain ⟨m2, hm2, _, hmp⟩ :=
                  (I.children_ok j m k2 i hj hm hct).1 hil
                rw [hn] at hm2
                obtain rfl := Option.some.inj hm2
                rw [hop] at hmp
                exact absurd hmp (by simp)
              exact Inv_reparent I hkn hn hip hsp hcyc rfl rfl rfl
                (fun j n0 h0 => ⟨n0, h0, rfl, rfl, Or.inl rfl⟩)
                (fun j m h0 => ⟨m, h0, rfl, rfl, Or.inl rfl⟩)
                hclean
            | some op =>
              have hopi : op ≠ i := by
                intro he
                exact no_self_parent I hil hn (he ▸ hop)
              have hopip : op ≠ ip := by
                intro he
                exact hsp (he ▸ hop)
              obtain ⟨nop, hnop⟩ := I.parent_heap i n op hn hop
              have h1noi : hlook (hupd c.heap op fun m =>
                  { m with children := adel m.children n.key }) i =
                  hlook c.heap i :=
                hlook_hupd_ne _ _ (fun he => hopi he.symm)
              have h1noip : hlook (hupd c.heap op fun m =>
                  { m with children := adel m.children n.key }) ip =
                  hlook c.heap ip :=
                hlook_hupd_ne _ _ (fun he => hopip he.symm)
              have h1same : ∀ j n0, hlook c.heap j = some n0 →
                  ∃ m, hlook (hupd c.heap op fun m =>
                    { m with children := adel m.children n.key }) j = some m ∧
                  m.key = n0.key ∧ m.parent = n0.parent ∧
                  (m.children = n0.children ∨
                    m.children = adel n0.children n.key) := by
                intro j n0 h0
                by_cases hjop : j = op
                · refine ⟨{ n0 with children := adel n0.children n.key },
                    ?_, rfl, rfl, Or.inr rfl⟩
                  rw [hjop] at h0
                  rw [hjop, hlook_hupd_self, h0]
                  rfl
                · exact ⟨n0, by rw [hlook_hupd_ne _ _ hjop]; exact h0,
                    rfl, rfl, Or.inl rfl⟩
              have h1rev : ∀ j m, hlook (hupd c.heap op fun m =>
                  { m with children := adel m.children n.key }) j = some m →
                  ∃ n0, hlook c.heap j = some n0 ∧
                  m.key = n0.key ∧ m.parent = n0.parent ∧
                  (m.children = n0.children ∨
                    m.children = adel n0.children n.key) := by
                intro j m hm
                by_cases hjop : j = op
                · rw [hjop, hlook_hupd_self, hnop] at hm
                  obtain rfl := Option.some.inj hm
                  exact ⟨nop, by rw [hjop]; exact hnop, rfl, rfl, Or.inr rfl⟩
                · rw [hlook_hupd_ne _ _ hjop] at hm
                  exact ⟨m, hm, rfl, rfl, Or.inl rfl⟩
              have hclean : ∀ j m k2, j ∈ c.lruList →
                  hlook (hupd c.heap op fun m =>
                    { m with children := adel m.children n.key }) j =
                    some m → (k2, i) ∉ m.children := by
                intro j m k2 hj hm hct
                by_cases hjop : j = op
                · rw [hjop, hlook_hupd_self, hnop] at hm
                  obtain rfl := Option.some.inj hm
                  have hmem : (k2, i) ∈ nop.children := adel_mem hct
                  rw [hjop] at hj
                  obtain ⟨m2, hm2, hmk, _⟩ :=
                    (I.children_ok op nop k2 i hj hnop hmem).1 hil
                  rw [hn] at hm2
                  obtain rfl := Option.some.inj hm2
                  rw [← hmk] at hct
                  exact not_mem_adel_self
                    (I.children_nodup op nop hj hnop) i hct
                · rw [hlook_hupd_ne _ _ hjop] at hm
                  obtain ⟨m2, hm2, _, hmp⟩ :=
                    (I.children_ok j m k2 i hj hm hct).1 hil
                  rw [hn] at hm2
                  obtain rfl := Option.some.inj hm2
                  rw [hop] at hmp
                  exact hjop (Option.some.inj hmp).symm
              exact Inv_reparent I hkn hn hip hsp hcyc
                (hupd_keys _ _ _) h1noi h1noip h1same h1rev hclean

/-- `AddOrUpdate` preserves the invariant. -/
theorem Inv_addOrUpdate {c : Cache K V} (I : Inv c) (k : K) (v : V)
    (pk : K) : Inv (addOrUpdate c k v pk).1 := by
  unfold addOrUpdate
  cases hc : addOrUpdateCore c k v pk with
  | error e => exact I
  | ok c1 => exact Inv_finishInsert (Inv_addOrUpdateCore I hc)

theorem sublist_erase_of_not_mem {z : Nat} :
    ∀ {l la : List Nat}, la.Sublist l → z ∉ la → la.Sublist (l.erase z) := by
  intro l
  induction l with
  | nil =>
    intro la hs _
    simpa using hs
  | cons b t ih =>
    intro la hs hz
    by_cases hbz : b = z
    · subst hbz
      rw [List.erase_cons_head]
      cases hs with
      | cons _ hs2 => exact hs2
      | cons₂ _ hs2 => exact absurd (List.mem_cons_self _ _) hz
    · rw [List.erase_cons_tail]
      · cases hs with
        | cons _ hs2 => exact (ih hs2 hz).cons b
        | cons₂ _ hs2 =>
          refine List.Sublist.cons₂ b (ih hs2 ?_)
          exact fun hmem => hz (List.mem_cons_of_mem _ hmem)
      · simpa using hbz

theorem before_mtf_of_ne {l : List Nat} {a b z : Nat} (hb : before l a b)
    (haz : a ≠ z) (hbz : b ≠ z) : before (mtf l z) a b := by
  rw [mtf]
  by_cases hzl : z ∈ l
  · rw [if_pos hzl]
    refine (sublist_erase_of_not_mem hb ?_).cons z
    intro hmem
    rcases List.mem_cons.mp hmem with he | he
    · exact haz he.symm
    · simp only [List.mem_singleton] at he
      exact hbz he.symm
  · rw [if_neg hzl]
    exact hb

/-- The order contract relaxed by a pending set `P`: pairs whose parent
is still awaiting promotion are exempt.  During the post-order walk of
`TraverseSubtree`, the pending set holds the current node's unpromoted
ancestors. -/
structure LOrdP (h : List (Nat × Node K V)) (l : List Nat)
    (P : Nat → Prop) : Prop where
  nodup : l.Nodup
  ord : ∀ x n p, x ∈ l → hlook h x = some n → n.parent = some p →
    p ∈ l → ¬ P p → before l p x

theorem LOrdP_mono {h : List (Nat × Node K V)} {l : List Nat}
    {P Q : Nat → Prop} (hQP : ∀ q, Q q → P q) (L : LOrdP h l Q) :
    LOrdP h l P :=
  ⟨L.nodup, fun x n p hx hn hp hpl hnp =>
    L.ord x n p hx hn hp hpl (fun hq => hnp (hQP p hq))⟩

/-- Moving a node to the front preserves the relaxed contract when every
parent of that node is still pending: pairs below the moved node become
satisfied outright, and the moved node's own parent pair stays exempt. -/
theorem mtf_LOrdP {h : List (Nat × Node K V)} {l : List Nat}
    {P : Nat → Prop} {z : Nat} (L : LOrdP h l P)
    (hzpar : ∀ n p, hlook h z = some n → n.parent = some p → p ∈ l →
      P p ∧ p ≠ z) :
    LOrdP h (mtf l z) (fun q => P q ∧ q ≠ z) := by
  refine ⟨nodup_mtf z L.nodup, ?_⟩
  intro x n p hx hn hp hpl hnp
  have hx2 : x ∈ l := mem_mtf.mp hx
  have hpl2 : p ∈ l := mem_mtf.mp hpl
  by_cases hpz : p = z
  · subst hpz
    have hxz : x ≠ p := by
      intro he
      subst he
      exact (hzpar n x hn hp hx2).2 rfl
    rw [mtf, if_pos hpl2]
    exact before_cons (List.mem_erase_of_ne hxz |>.mpr hx2)
  · by_cases hxz : x = z
    · subst hxz
      exact absurd (hzpar n p hn hp hpl2) hnp
    · have hnp2 : ¬ P p := fun hq => hnp ⟨hq, hpz⟩
      exact before_mtf_of_ne (L.ord x n p hx2 hn hp hpl2 hnp2) hpz hxz

/-- The post-order walk of `TraverseSubtree` preserves the relaxed
contract: every node is moved to the front after its children, so the
only pairs ever left unsatisfied are those whose parent is still pending
— and the walk enters with the start node's own parent pending. -/
theorem travGo_LOrdP {h : List (Nat × Node K V)} {md : Int}
    {lru0 : List Nat}
    (hdead : ∀ x n, hlook h x = some n → x ∉ lru0 → n.parent = none)
    (hchild : ∀ z n k2 x, z ∈ lru0 → hlook h z = some n →
      (k2, x) ∈ n.children → x ∈ lru0 →
      ∃ m, hlook h x = some m ∧ m.parent = some z)
    (hchdead : ∀ z n k2 x, z ∈ lru0 → hlook h z = some n →
      (k2, x) ∈ n.children → x ∉ lru0 →
      ∃ m, hlook h x = some m ∧ m.children = [])
    (hsane : ∀ x n, x ∈ lru0 → hlook h x = some n → n.parent ≠ some x) :
    ∀ (fuel i d : Nat) (l : List Nat) (P : Nat → Prop),
      l.Perm lru0 → LOrdP h l P →
      (i ∈ lru0 ∨ ∀ n, hlook h i = some n → n.children = []) →
      (∀ n p, hlook h i = some n → n.parent = some p → p ∈ lru0 →
        P p ∧ p ≠ i) →
      (travGo h md fuel i d l).2.Perm lru0 ∧
        LOrdP h (travGo h md fuel i d l).2 P := by
  intro fuel
  induction fuel with
  | zero =>
    intro i d l P hpm L _ _
    exact ⟨hpm, L⟩
  | succ fuel ih =>
    intro i d l P hpm L hi hpar
    simp only [travGo]
    cases hn : hlook h i with
    | none => exact ⟨hpm, L⟩
    | some n =>
      dsimp only
      by_cases hcut : 0 ≤ md ∧ md ≤ (d : Int)
      · rw [if_pos hcut]
        refine ⟨(mtf_perm _ _).trans hpm, ?_⟩
        refine LOrdP_mono (fun q hq => hq.1) (mtf_LOrdP L ?_)
        intro n2 p hn2 hp hpl
        rw [hn] at hn2
        obtain rfl := Option.some.inj hn2
        exact hpar n p hn hp (hpm.mem_iff.mp hpl)
      · rw [if_neg hcut]
        rcases hi with hil | hemp
        · have hfold : ∀ (cl : List (K × Nat)), (∀ ck ∈ cl, ck ∈ n.children) →
              ∀ (vis : List (CacheNode K V)) (l2 : List Nat),
              l2.Perm lru0 → LOrdP h l2 (fun q => P q ∨ q = i) →
              ((cl.foldl (fun acc ck =>
                  (acc.1 ++ (travGo h md fuel ck.2 (d + 1) acc.2).1,
                    (travGo h md fuel ck.2 (d + 1) acc.2).2))
                (vis, l2)).2.Perm lru0 ∧
               LOrdP h ((cl.foldl (fun acc ck =>
                  (acc.1 ++ (travGo h md fuel ck.2 (d + 1) acc.2).1,
                    (travGo h md fuel ck.2 (d + 1) acc.2).2))
                (vis, l2)).2) (fun q => P q ∨ q = i)) := by
            intro cl
            induction cl with
            | nil =>
              intro _ vis l2 hpm2 L2
              exact ⟨hpm2, L2⟩
            | cons ck tl ihc =>
              intro hsub vis l2 hpm2 L2
              simp only [List.foldl_cons]
              have hck : ck ∈ n.children := hsub ck (List.mem_cons_self _ _)
              have hi2 : ck.2 ∈ lru0 ∨ ∀ m, hlook h ck.2 = some m →
                  m.children = [] := by
                by_cases hckl : ck.2 ∈ lru0
                · exact Or.inl hckl
                · right
                  obtain ⟨m, hm, hmc⟩ := hchdead i n ck.1 ck.2 hil hn hck hckl
                  intro m2 hm2
                  rw [hm] at hm2
                  obtain rfl := Option.some.inj hm2
                  exact hmc
              have hp2 : ∀ m p, hlook h ck.2 = some m → m.parent = some p →
                  p ∈ lru0 → (P p ∨ p = i) ∧ p ≠ ck.2 := by
                intro m p hm hp hpl
                by_cases hckl : ck.2 ∈ lru0
                · obtain ⟨m2, hm2, hmp⟩ := hchild i n ck.1 ck.2 hil hn hck hckl
                  rw [hm] at hm2
                  obtain rfl := Option.some.inj hm2
                  rw [hmp] at hp
                  obtain rfl : i = p := Option.some.inj hp
                  refine ⟨Or.inr rfl, ?_⟩
                  intro he
                  exact hsane ck.2 m hckl hm (he ▸ hmp)
                · have hpd := hdead ck.2 m hm hckl
                  rw [hpd] at hp
                  exact absurd hp (by simp)
              have hrec := ih ck.2 (d + 1) l2 (fun q => P q ∨ q = i)
                hpm2 L2 hi2 hp2
              exact ihc (fun c hc => hsub c (List.mem_cons_of_mem _ hc))
                _ _ hrec.1 hrec.2
          obtain ⟨hpm3, L3⟩ := hfold n.children (fun _ hc => hc)
            [toCacheNode h n] l hpm (LOrdP_mono (fun q hq => Or.inl hq) L)
          refine ⟨(mtf_perm _ _).trans hpm3, ?_⟩
          refine LOrdP_mono ?_ (mtf_LOrdP L3 ?_)
          · intro q hq
            rcases hq.1 with hP | he
            · exact hP
            · exact absurd he hq.2
          · intro n2 p hn2 hp hpl
            rw [hn] at hn2
            obtain rfl := Option.some.inj hn2
            obtain ⟨hP, hne⟩ := hpar n p hn hp (hpm3.mem_iff.mp hpl)
            exact ⟨Or.inl hP, hne⟩
        · have hce := hemp n hn
          rw [hce]
          refine ⟨(mtf_perm _ _).trans hpm, ?_⟩
          refine LOrdP_mono (fun q hq => hq.1) (mtf_LOrdP L ?_)
          intro n2 p hn2 hp hpl
          rw [hn] at hn2
          obtain rfl := Option.some.inj hn2
          exact hpar n p hn hp (hpm.mem_iff.mp hpl)

/-- Promoting the complete pending ancestor chain of a live node restores
the full order contract from the relaxed one. -/
theorem promote_LOrdP {h : List (Nat × Node K V)} {lru l : List Nat}
    (L : LOrd h lru) (hpm : l.Perm lru) {s F : Nat}
    (hs : s ∈ lru) (hF : lru.indexOf s + 2 ≤ F)
    (LP : LOrdP h l (fun q => q ∈ chainIds h (some s) F)) :
    LOrd h ((chainIds h (some s) F).foldl mtf l) := by
  have hstab := (L.complete hs hF).2
  have hcan := (L.complete hs hF).1
  obtain ⟨hchnd0, _, _⟩ := chain_props L (lru.indexOf s) s hs le_rfl
  have hchnd : (chainIds h (some s) F).Nodup := by rw [hcan]; exact hchnd0
  have hperm := foldl_mtf_perm (chainIds h (some s) F) l
  have hndF : ((chainIds h (some s) F).filter (· ∈ l)).Nodup :=
    hchnd.filter _
  have heq : (chainIds h (some s) F).foldl mtf l =
      ((chainIds h (some s) F).filter (· ∈ l)).reverse ++
        l.diff ((chainIds h (some s) F).filter (· ∈ l)) := by
    rw [foldl_mtf_filter]
    apply foldl_mtf_eq hndF
    intro x hx
    simpa using (List.mem_filter.mp hx).2
  refine ⟨hperm.nodup_iff.mpr LP.nodup, ?_, ?_⟩
  · intro x n p hx hn hpar hp
    have hx2 : x ∈ l := hperm.mem_iff.mp hx
    have hp2 : p ∈ l := hperm.mem_iff.mp hp
    rw [heq]
    by_cases hxch : x ∈ (chainIds h (some s) F).filter (· ∈ l)
    · have hxF : x ∈ chainIds h (some s) F := (List.mem_filter.mp hxch).1
      obtain ⟨l1, l3, hdec⟩ := List.append_of_mem hxF
      cases l3 with
      | nil =>
        exfalso
        have hlast := chainIds_last_stop hstab hdec
        rw [hn] at hlast
        simp [hpar] at hlast
      | cons a l3q =>
        have hadj := chainIds_adj hdec
        rw [hn] at hadj
        simp only [Option.some_bind] at hadj
        rw [hpar] at hadj
        obtain rfl : p = a := Option.some.inj hadj
        have hdec2 : (chainIds h (some s) F).filter (· ∈ l) =
            l1.filter (· ∈ l) ++ x :: p :: l3q.filter (· ∈ l) := by
          rw [hdec, List.filter_append]
          congr 1
          rw [List.filter_cons_of_pos (by simpa using hx2),
            List.filter_cons_of_pos (by simpa using hp2)]
        apply before_append_left
        rw [hdec2, List.reverse_append]
        apply before_append_left
        have hrev : (x :: p :: l3q.filter (· ∈ l)).reverse =
            (l3q.filter (· ∈ l)).reverse ++ [p, x] := by simp
        rw [hrev]
        exact List.sublist_append_right _ _
    · have hxD : x ∈ l.diff ((chainIds h (some s) F).filter (· ∈ l)) :=
        List.mem_diff_of_mem hx2 hxch
      by_cases hpch : p ∈ (chainIds h (some s) F).filter (· ∈ l)
      · exact before_append_cross (List.mem_reverse.mpr hpch) hxD
      · have hpD : p ∈ l.diff ((chainIds h (some s) F).filter (· ∈ l)) :=
          List.mem_diff_of_mem hp2 hpch
        have hpnc : p ∉ chainIds h (some s) F := fun hmem =>
          hpch (List.mem_filter.mpr ⟨hmem, by simpa using hp2⟩)
        exact before_append_right (before_restrict LP.nodup
          (List.diff_sublist _ _) (LP.ord x n p hx2 hn hpar hp2 hpnc)
          hpD hxD)
  · intro x n hn hx
    exact L.dead x n hn fun hmem =>
      hx (hperm.mem_iff.mpr (hpm.mem_iff.mpr hmem))

/-- `TraverseSubtree` preserves the invariant: the post-order promotions
of the subtree followed by the deferred ancestor promotions leave the
recency list a permutation satisfying the order contract. -/
theorem Inv_traverseSubtree {c : Cache K V} (I : Inv c) (k : K)
    (md : Int) : Inv (traverseSubtree c k md).1 := by
  unfold traverseSubtree
  cases hk : alook c.keysMap k with
  | none => exact Inv_stats I _
  | some i =>
    dsimp only
    have hil : i ∈ c.lruList := I.km_lru k i hk
    have hpar0 : ∀ n2 p, hlook c.heap i = some n2 → n2.parent = some p →
        p ∈ c.lruList →
        (p ∈ chainIds c.heap ((hlook c.heap i).bind (·.parent))
          (chainFuel c)) ∧ p ≠ i := by
      intro n2 p hn2 hp hpl
      constructor
      · have hb : (hlook c.heap i).bind (·.parent) = some p := by
          rw [hn2]
          simpa using hp
        rw [hb]
        have hh2 : chainIds c.heap (some p) (chainFuel c) =
            p :: chainIds c.heap ((hlook c.heap p).bind (·.parent))
              (c.lruList.length + 1) := rfl
        rw [hh2]
        exact List.mem_cons_self _ _
      · intro he
        exact no_self_parent I hil hn2 (he ▸ hp)
    obtain ⟨hpm3, LP3⟩ := travGo_LOrdP I.lord.dead
      (fun z n2 k2 x hz hn2 hck hx => by
        obtain ⟨m, hm, _, hmp⟩ := (I.children_ok z n2 k2 x hz hn2 hck).1 hx
        exact ⟨m, hm, hmp⟩)
      (fun z n2 k2 x hz hn2 hck hx =>
        (I.children_ok z n2 k2 x hz hn2 hck).2 hx)
      (fun x n2 hx hn2 => no_self_parent I hx hn2)
      (chainFuel c) i 0 c.lruList
      (fun q => q ∈ chainIds c.heap ((hlook c.heap i).bind (·.parent))
        (chainFuel c))
      (List.Perm.refl _)
      ⟨I.lord.nodup, fun x n2 p hx hn2 hp hpl _ =>
        I.lord.ord x n2 p hx hn2 hp hpl⟩
      (Or.inl hil) hpar0
    have hfin : ((chainIds c.heap ((hlook c.heap i).bind (·.parent))
        (chainFuel c)).foldl mtf
        (travGo c.heap md (chainFuel c) i 0 c.lruList).2).Perm c.lruList :=
      (foldl_mtf_perm _ _).trans hpm3
    have hLfin : LOrd c.heap ((chainIds c.heap ((hlook c.heap i).bind
        (·.parent)) (chainFuel c)).foldl mtf
        (travGo c.heap md (chainFuel c) i 0 c.lruList).2) := by
      cases hpi : (hlook c.heap i).bind (·.parent) with
      | none =>
        rw [chainIds_none]
        simp only [List.foldl_nil]
        refine ⟨LP3.nodup, ?_, ?_⟩
        · intro x n2 p hx hn2 hp hpl
          refine LP3.ord x n2 p hx hn2 hp hpl ?_
          intro hmem
          rw [hpi, chainIds_none] at hmem
          simp at hmem
        · intro x n2 hn2 hx
          exact I.lord.dead x n2 hn2 fun hmem => hx (hpm3.mem_iff.mpr hmem)
      | some pi =>
        by_cases hpil : pi ∈ c.lruList
        · refine promote_LOrdP I.lord hpm3 hpil (idx_lt_chainFuel hpil) ?_
          refine ⟨LP3.nodup, ?_⟩
          intro x n2 p hx hn2 hp hpl hq
          refine LP3.ord x n2 p hx hn2 hp hpl ?_
          intro hmem
          exact hq (hpi ▸ hmem)
        · have hchainpi : chainIds c.heap (some pi) (chainFuel c) =
              [pi] := by
            have hstop : (hlook c.heap pi).bind (·.parent) = none := by
              cases hnp : hlook c.heap pi with
              | none => simp [hnp]
              | some npi => simp [hnp, I.lord.dead pi npi hnp hpil]
            exact chainIds_dead_stop hstop _
          rw [hchainpi]
          have hpir : pi ∉
              (travGo c.heap md (chainFuel c) i 0 c.lruList).2 :=
            fun hmem => hpil (hpm3.mem_iff.mp hmem)
          simp only [List.foldl_cons, List.foldl_nil]
          rw [mtf_of_not_mem hpir]
          refine ⟨LP3.nodup, ?_, ?_⟩
          · intro x n2 p hx hn2 hp hpl
            refine LP3.ord x n2 p hx hn2 hp hpl ?_
            intro hmem
            rw [hpi, hchainpi] at hmem
            simp only [List.mem_singleton] at hmem
            exact hpir (hmem ▸ hpl)
          · intro x n2 hn2 hx
            exact I.lord.dead x n2 hn2 fun hmem => hx (hpm3.mem_iff.mpr hmem)
    exact Inv_relist I hfin hLfin _

/-! ### Removal: evolution facts and a relaxed invariant

`removeRecursively` (cache.go lines 494-504) walks children references
that may be stale, so its intermediate states need their own bookkeeping:
the heap only ever loses parent pointers and children lists, the key
table and the recency list only shrink. -/

/-- How a removal step may change the threaded state: heap ids survive
with their keys, parent pointers are kept or nilled, children lists are
kept or emptied; key table and recency list only lose entries. -/
def REvol (a b : RSt K V) : Prop :=
  b.heap.map Prod.fst = a.heap.map Prod.fst ∧
  b.keysMap.Sublist a.keysMap ∧
  b.lru.Sublist a.lru ∧
  ∀ j m', hlook b.heap j = some m' → ∃ m, hlook a.heap j = some m ∧
    m'.key = m.key ∧ (m'.parent = m.parent ∨ m'.parent = none) ∧
    (m'.children = m.children ∨ m'.children = [])

theorem REvol_refl (a : RSt K V) : REvol a a :=
  ⟨rfl, List.Sublist.refl _, List.Sublist.refl _,
    fun _ m' h => ⟨m', h, rfl, Or.inl rfl, Or.inl rfl⟩⟩

theorem REvol_trans {a b c2 : RSt K V} (h1 : REvol a b) (h2 : REvol b c2) :
    REvol a c2 := by
  obtain ⟨hk1, hm1, hl1, he1⟩ := h1
  obtain ⟨hk2, hm2, hl2, he2⟩ := h2
  refine ⟨hk2.trans hk1, hm2.trans hm1, hl2.trans hl1, ?_⟩
  intro j m' h
  obtain ⟨mb, hmb, hk, hp, hc⟩ := he2 j m' h
  obtain ⟨ma, hma, hk', hp', hc'⟩ := he1 j mb hmb
  refine ⟨ma, hma, hk.trans hk', ?_, ?_⟩
  · rcases hp with h3 | h3
    · rw [h3]
      exact hp'
    · exact Or.inr h3
  · rcases hc with h3 | h3
    · rw [h3]
      exact hc'
    · exact Or.inr h3

theorem foldl_rst {P : RSt K V → RSt K V → Prop}
    (hrefl : ∀ a, P a a)
    (htrans : ∀ a b c2, P a b → P b c2 → P a c2)
    {f : RSt K V → (K × Nat) → RSt K V}
    (hstep : ∀ s ck, P s (f s ck)) :
    ∀ (cl : List (K × Nat)) (s : RSt K V), P s (cl.foldl f s) := by
  intro cl
  induction cl with
  | nil =>
    intro s
    exact hrefl s
  | cons ck tl ih =>
    intro s
    simp only [List.foldl_cons]
    exact htrans _ _ _ (hstep s ck) (ih _)

theorem removeRec_evol : ∀ (fuel y : Nat) (s : RSt K V),
    REvol s (removeRec fuel y s) := by
  intro fuel
  induction fuel with
  | zero =>
    intro y s
    exact REvol_refl s
  | succ fuel ih =>
    intro y s
    simp only [removeRec]
    cases hn : hlook s.heap y with
    | none => exact REvol_refl s
    | some n =>
      dsimp only
      have h1 : REvol s
          ⟨hupd s.heap y fun m => { m with parent := none },
            adel s.keysMap n.key, s.lru.erase y, s.count + 1⟩ := by
        refine ⟨hupd_keys _ _ _, adel_sublist _ _, List.erase_sublist _ _, ?_⟩
        intro j m' h
        by_cases hjy : j = y
        · subst hjy
          rw [hlook_hupd_self, hn] at h
          obtain rfl := Option.some.inj h
          exact ⟨n, hn, rfl, Or.inr rfl, Or.inl rfl⟩
        · rw [hlook_hupd_ne _ _ hjy] at h
          exact ⟨m', h, rfl, Or.inl rfl, Or.inl rfl⟩
      have h2 : REvol
          (⟨hupd s.heap y fun m => { m with parent := none },
            adel s.keysMap n.key, s.lru.erase y, s.count + 1⟩ : RSt K V)
          (n.children.foldl (fun st ck => removeRec fuel ck.2 st)
            ⟨hupd s.heap y fun m => { m with parent := none },
              adel s.keysMap n.key, s.lru.erase y, s.count + 1⟩) :=
        foldl_rst REvol_refl (fun _ _ _ => REvol_trans)
          (fun st ck => ih ck.2 st) n.children _
      refine REvol_trans (REvol_trans h1 h2) ?_
      refine ⟨hupd_keys _ _ _, List.Sublist.refl _, List.Sublist.refl _, ?_⟩
      intro j m' h
      by_cases hjy : j = y
      · subst hjy
        rw [hlook_hupd_self] at h
        cases hm2 : hlook (n.children.foldl (fun st ck => removeRec fuel ck.2 st)
            ⟨hupd s.heap j fun m => { m with parent := none },
              adel s.keysMap n.key, s.lru.erase j, s.count + 1⟩).heap j with
        | none =>
          rw [hm2] at h
          simp at h
        | some m2 =>
          rw [hm2] at h
          obtain rfl := Option.some.inj h
          exact ⟨m2, rfl, rfl, Or.inl rfl, Or.inr rfl⟩
      · rw [hlook_hupd_ne _ _ hjy] at h
        exact ⟨m', h, rfl, Or.inl rfl, Or.inl rfl⟩

theorem removeRec_succ_none {fuel y : Nat} {s : RSt K V}
    (hn : hlook s.heap y = none) : removeRec (fuel + 1) y s = s := by
  simp [removeRec, hn]

theorem removeRec_succ_some {fuel y : Nat} {s : RSt K V} {n : Node K V}
    (hn : hlook s.heap y = some n) :
    removeRec (fuel + 1) y s =
      { (n.children.foldl (fun st ck => removeRec fuel ck.2 st)
          ⟨hupd s.heap y fun m => { m with parent := none },
            adel s.keysMap n.key, s.lru.erase y, s.count + 1⟩) with
        heap := hupd (n.children.foldl (fun st ck => removeRec fuel ck.2 st)
          ⟨hupd s.heap y fun m => { m with parent := none },
            adel s.keysMap n.key, s.lru.erase y, s.count + 1⟩).heap y
          fun m => { m with children := [] } } := by
  simp [removeRec, hn]

theorem mem_keys_alook {m : List (α × β)} {k : α}
    (h : k ∈ m.map Prod.fst) : ∃ v, alook m k = some v := by
  induction m with
  | nil => simp at h
  | cons p t ih =>
    obtain ⟨a, b⟩ := p
    simp only [List.map_cons, List.mem_cons] at h
    by_cases hak : a = k
    · exact ⟨b, by rw [alook, if_pos hak]⟩
    · rcases h with he | hmem
      · exact absurd he.symm hak
      · obtain ⟨v, hv⟩ := ih hmem
        exact ⟨v, by rw [alook, if_neg hak]; exact hv⟩

/-- The bookkeeping that `removeRecursively` maintains: all structural
invariants except the dead-target clause of `children_ok`, which fails
for nodes whose recursive removal is still in progress and is recovered
at the end from the closure lemma below. -/
structure RInv (c : Cache K V) (s : RSt K V) : Prop where
  hkeys : s.heap.map Prod.fst = c.heap.map Prod.fst
  hkm : s.keysMap.Sublist c.keysMap
  hlru : s.lru.Sublist c.lruList
  km_nodup : (s.keysMap.map Prod.fst).Nodup
  km_heap : ∀ k i, alook s.keysMap k = some i →
    ∃ n, hlook s.heap i = some n ∧ n.key = k
  km_lru : ∀ k i, alook s.keysMap k = some i → i ∈ s.lru
  lru_heap : ∀ i ∈ s.lru, ∃ n, hlook s.heap i = some n
  lord : LOrd s.heap s.lru
  parent_heap : ∀ i n p, hlook s.heap i = some n → n.parent = some p →
    ∃ m, hlook s.heap p = some m
  child_heap : ∀ i n k j, hlook s.heap i = some n → (k, j) ∈ n.children →
    ∃ m, hlook s.heap j = some m
  children_nodup : ∀ i n, i ∈ s.lru → hlook s.heap i = some n →
    (n.children.map Prod.fst).Nodup
  children_live : ∀ i n k j, i ∈ s.lru → hlook s.heap i = some n →
    (k, j) ∈ n.children → j ∈ s.lru →
    ∃ m, hlook s.heap j = some m ∧ m.key = k ∧ m.parent = some i
  own_unique : ∀ i1 n1 i2 n2 k1 k2 j, i1 ∈ s.lru → i2 ∈ s.lru →
    hlook s.heap i1 = some n1 → hlook s.heap i2 = some n2 →
    (k1, j) ∈ n1.children → (k2, j) ∈ n2.children → i1 = i2 ∧ k1 = k2
  root_top : ∀ i n, i ∈ s.lru → hlook s.heap i = some n →
    n.parent = none → c.root = some i

/-- Phase one of a visit to a listed node: nil the parent pointer, drop
the key-table entry, unlink from the recency list. -/
theorem RInv_phase1_live {c : Cache K V} {s : RSt K V} (R : RInv c s)
    {y : Nat} {n : Node K V} (hy : y ∈ s.lru) (hn : hlook s.heap y = some n) :
    RInv c ⟨hupd s.heap y fun m => { m with parent := none },
      adel s.keysMap n.key, s.lru.erase y, s.count + 1⟩ := by
  have hadel : ∀ k2 i2, alook (adel s.keysMap n.key) k2 = some i2 →
      k2 ≠ n.key ∧ alook s.keysMap k2 = some i2 := by
    intro k2 i2 hk2
    by_cases hke : k2 = n.key
    · rw [hke, alook_adel_self _ _ R.km_nodup] at hk2
      exact absurd hk2 (by simp)
    · exact ⟨hke, by rwa [alook_adel_ne _ hke] at hk2⟩
  have hidne : ∀ k2 i2, alook (adel s.keysMap n.key) k2 = some i2 →
      i2 ≠ y := by
    intro k2 i2 hk2 he
    obtain ⟨hke, hk3⟩ := hadel k2 i2 hk2
    obtain ⟨n2, hn2, hkey⟩ := R.km_heap k2 i2 hk3
    rw [he, hn] at hn2
    obtain rfl := Option.some.inj hn2
    exact hke (hkey ▸ rfl)
  have hlookY : hlook (hupd s.heap y fun m => { m with parent := none }) y =
      some { n with parent := none } := by
    rw [hlook_hupd_self, hn]
    rfl
  have hmemer : ∀ j, j ∈ s.lru.erase y ↔ j ∈ s.lru ∧ j ≠ y := by
    intro j
    rw [R.lord.nodup.mem_erase_iff]
    exact ⟨fun h => ⟨h.2, h.1⟩, fun h => ⟨h.2, h.1⟩⟩
  refine ⟨?_, ?_, ?_, ?_, ?_, ?_, ?_, ⟨?_, ?_, ?_⟩, ?_, ?_, ?_, ?_, ?_, ?_⟩
  · rw [hupd_keys]
    exact R.hkeys
  · exact (adel_sublist _ _).trans R.hkm
  · exact (List.erase_sublist _ _).trans R.hlru
  · exact (adel_keys_sublist _ _).nodup R.km_nodup
  · intro k2 i2 hk2
    obtain ⟨hke, hk3⟩ := hadel k2 i2 hk2
    obtain ⟨n2, hn2, hkey⟩ := R.km_heap k2 i2 hk3
    refine ⟨n2, ?_, hkey⟩
    rw [hlook_hupd_ne _ _ (hidne k2 i2 hk2)]
    exact hn2
  · intro k2 i2 hk2
    exact (hmemer i2).mpr ⟨R.km_lru k2 i2 (hadel k2 i2 hk2).2,
      hidne k2 i2 hk2⟩
  · intro j hj
    obtain ⟨hjl, hjy⟩ := (hmemer j).mp hj
    obtain ⟨n2, hn2⟩ := R.lru_heap j hjl
    refine ⟨n2, ?_⟩
    rw [hlook_hupd_ne _ _ hjy]
    exact hn2
  · exact R.lord.nodup.erase y
  · intro j n2 p hj hn2 hp hpl
    obtain ⟨hjl, hjy⟩ := (hmemer j).mp hj
    obtain ⟨hpl2, _⟩ := (hmemer p).mp hpl
    rw [hlook_hupd_ne _ _ hjy] at hn2
    exact before_restrict R.lord.nodup (List.erase_sublist _ _)
      (R.lord.ord j n2 p hjl hn2 hp hpl2) hpl hj
  · intro j n2 hn2 hj
    by_cases hjy : j = y
    · rw [hjy, hlookY] at hn2
      obtain rfl := Option.some.inj hn2
      rfl
    · rw [hlook_hupd_ne _ _ hjy] at hn2
      exact R.lord.dead j n2 hn2 fun hmem => hj ((hmemer j).mpr ⟨hmem, hjy⟩)
  · intro j n2 p hn2 hp
    by_cases hjy : j = y
    · rw [hjy, hlookY] at hn2
      obtain rfl := Option.some.inj hn2
      simp at hp
    · rw [hlook_hupd_ne _ _ hjy] at hn2
      obtain ⟨m, hm⟩ := R.parent_heap j n2 p hn2 hp
      exact hupd_some _ _ ⟨m, hm⟩
  · intro j n2 k2 t hn2 hct
    by_cases hjy : j = y
    · rw [hjy, hlookY] at hn2
      obtain rfl := Option.some.inj hn2
      obtain ⟨m, hm⟩ := R.child_heap y n k2 t hn hct
      exact hupd_some _ _ ⟨m, hm⟩
    · rw [hlook_hupd_ne _ _ hjy] at hn2
      obtain ⟨m, hm⟩ := R.child_heap j n2 k2 t hn2 hct
      exact hupd_some _ _ ⟨m, hm⟩
  · intro j n2 hj hn2
    obtain ⟨hjl, hjy⟩ := (hmemer j).mp hj
    rw [hlook_hupd_ne _ _ hjy] at hn2
    exact R.children_nodup j n2 hjl hn2
  · intro j n2 k2 t hj hn2 hct ht
    obtain ⟨hjl, hjy⟩ := (hmemer j).mp hj
    obtain ⟨htl, hty⟩ := (hmemer t).mp ht
    rw [hlook_hupd_ne _ _ hjy] at hn2
    obtain ⟨m, hm, hmk, hmp⟩ := R.children_live j n2 k2 t hjl hn2 hct htl
    refine ⟨m, ?_, hmk, hmp⟩
    rw [hlook_hupd_ne _ _ hty]
    exact hm
  · intro i1 n1 i2 n2 k1 k2 t h1 h2 hn1 hn2 hc1 hc2
    obtain ⟨h1l, h1y⟩ := (hmemer i1).mp h1
    obtain ⟨h2l, h2y⟩ := (hmemer i2).mp h2
    rw [hlook_hupd_ne _ _ h1y] at hn1
    rw [hlook_hupd_ne _ _ h2y] at hn2
    exact R.own_unique i1 n1 i2 n2 k1 k2 t h1l h2l hn1 hn2 hc1 hc2
  · intro j n2 hj hn2 hp
    obtain ⟨hjl, hjy⟩ := (hmemer j).mp hj
    rw [hlook_hupd_ne _ _ hjy] at hn2
    exact R.root_top j n2 hjl hn2 hp

/-- Phase one of a visit to a node already off the recency list (a ghost
revisit, reachable through a stale child reference): the key-table entry
for the node's key is still deleted — possibly hijacking a re-added
live key — but heap values and the list are unchanged. -/
theorem RInv_phase1_dead {c : Cache K V} {s : RSt K V} (R : RInv c s)
    {y : Nat} {n : Node K V} (hy : y ∉ s.lru)
    (hn : hlook s.heap y = some n) :
    RInv c ⟨hupd s.heap y fun m => { m with parent := none },
      adel s.keysMap n.key, s.lru.erase y, s.count + 1⟩ := by
  have hpar : n.parent = none := R.lord.dead y n hn hy
  have hnval : ({ n with parent := none } : Node K V) = n := by
    rw [← hpar]
  have hheq : ∀ j, hlook (hupd s.heap y fun m =>
      { m with parent := none }) j = hlook s.heap j := by
    intro j
    by_cases hjy : j = y
    · rw [hjy, hlook_hupd_self, hn]
      exact congrArg some hnval
    · rw [hlook_hupd_ne _ _ hjy]
  have hlrueq : s.lru.erase y = s.lru := List.erase_of_not_mem hy
  have hadel : ∀ k2 i2, alook (adel s.keysMap n.key) k2 = some i2 →
      alook s.keysMap k2 = some i2 := by
    intro k2 i2 hk2
    by_cases hke : k2 = n.key
    · rw [hke, alook_adel_self _ _ R.km_nodup] at hk2
      exact absurd hk2 (by simp)
    · rwa [alook_adel_ne _ hke] at hk2
  refine ⟨?_, ?_, ?_, ?_, ?_, ?_, ?_, ⟨?_, ?_, ?_⟩, ?_, ?_, ?_, ?_, ?_, ?_⟩
  · rw [hupd_keys]
    exact R.hkeys
  · exact (adel_sublist _ _).trans R.hkm
  · rw [hlrueq]
    exact R.hlru
  · exact (adel_keys_sublist _ _).nodup R.km_nodup
  · intro k2 i2 hk2
    obtain ⟨n2, hn2, hkey⟩ := R.km_heap k2 i2 (hadel k2 i2 hk2)
    exact ⟨n2, by rw [hheq]; exact hn2, hkey⟩
  · intro k2 i2 hk2
    rw [hlrueq]
    exact R.km_lru k2 i2 (hadel k2 i2 hk2)
  · intro j hj
    rw [hlrueq] at hj
    obtain ⟨n2, hn2⟩ := R.lru_heap j hj
    exact ⟨n2, by rw [hheq]; exact hn2⟩
  · rw [hlrueq]
    exact R.lord.nodup
  · intro j n2 p hj hn2 hp hpl
    rw [hlrueq] at hj hpl ⊢
    rw [hheq] at hn2
    exact R.lord.ord j n2 p hj hn2 hp hpl
  · intro j n2 hn2 hj
    rw [hlrueq] at hj
    rw [hheq] at hn2
    exact R.lord.dead j n2 hn2 hj
  · intro j n2 p hn2 hp
    rw [hheq] at hn2
    obtain ⟨m, hm⟩ := R.parent_heap j n2 p hn2 hp
    exact ⟨m, by rw [hheq]; exact hm⟩
  · intro j n2 k2 t hn2 hct
    rw [hheq] at hn2
    obtain ⟨m, hm⟩ := R.child_heap j n2 k2 t hn2 hct
    exact ⟨m, by rw [hheq]; exact hm⟩
  · intro j n2 hj hn2
    rw [hlrueq] at hj
    rw [hheq] at hn2
    exact R.children_nodup j n2 hj hn2
  · intro j n2 k2 t hj hn2 hct ht
    rw [hlrueq] at hj ht
    rw [hheq] at hn2
    obtain ⟨m, hm, hmk, hmp⟩ := R.children_live j n2 k2 t hj hn2 hct ht
    exact ⟨m, by rw [hheq]; exact hm, hmk, hmp⟩
  · intro i1 n1 i2 n2 k1 k2 t h1 h2 hn1 hn2 hc1 hc2
    rw [hlrueq] at h1 h2
    rw [hheq] at hn1 hn2
    exact R.own_unique i1 n1 i2 n2 k1 k2 t h1 h2 hn1 hn2 hc1 hc2
  · intro j n2 hj hn2 hp
    rw [hlrueq] at hj
    rw [hheq] at hn2
    exact R.root_top j n2 hj hn2 hp

/-- Phase three of a visit: nil the children map of the visited node. -/
theorem RInv_phase3 {c : Cache K V} {s : RSt K V} (R : RInv c s) (y : Nat) :
    RInv c { s with heap := hupd s.heap y fun m =>
      { m with children := [] } } := by
  have hsame : ∀ j n2, hlook (hupd s.heap y fun m =>
      { m with children := [] }) j = some n2 →
      ∃ n0, hlook s.heap j = some n0 ∧ n2.key = n0.key ∧
        n2.parent = n0.parent ∧
        (n2.children = n0.children ∨ n2.children = []) := by
    intro j n2 hn2
    by_cases hjy : j = y
    · subst hjy
      rw [hlook_hupd_self] at hn2
      cases hn : hlook s.heap j with
      | none =>
        rw [hn] at hn2
        simp at hn2
      | some n0 =>
        rw [hn] at hn2
        obtain rfl := Option.some.inj hn2
        exact ⟨n0, rfl, rfl, rfl, Or.inr rfl⟩
    · rw [hlook_hupd_ne _ _ hjy] at hn2
      exact ⟨n2, hn2, rfl, rfl, Or.inl rfl⟩
  have hup : ∀ j n0, hlook s.heap j = some n0 →
      ∃ n2, hlook (hupd s.heap y fun m => { m with children := [] }) j =
        some n2 ∧ n2.key = n0.key ∧ n2.parent = n0.parent :=
    fun j n0 hn0 => by
      obtain ⟨n2, hn2⟩ := hupd_some y (fun m => { m with children := [] })
        ⟨n0, hn0⟩
      obtain ⟨n0a, hn0a, hk, hp, _⟩ := hsame j n2 hn2
      rw [hn0] at hn0a
      obtain rfl := Option.some.inj hn0a
      exact ⟨n2, hn2, hk, hp⟩
  refine ⟨?_, R.hkm, R.hlru, R.km_nodup, ?_, R.km_lru, ?_, ⟨R.lord.nodup,
    ?_, ?_⟩, ?_, ?_, ?_, ?_, ?_, ?_⟩
  · rw [hupd_keys]
    exact R.hkeys
  · intro k2 i2 hk2
    obtain ⟨n0, hn0, hkey⟩ := R.km_heap k2 i2 hk2
    obtain ⟨n2, hn2, hk, _⟩ := hup i2 n0 hn0
    exact ⟨n2, hn2, by rw [hk, hkey]⟩
  · intro j hj
    obtain ⟨n0, hn0⟩ := R.lru_heap j hj
    exact hupd_some _ _ ⟨n0, hn0⟩
  · intro j n2 p hj hn2 hp hpl
    obtain ⟨n0, hn0, _, hpar, _⟩ := hsame j n2 hn2
    rw [hpar] at hp
    exact R.lord.ord j n0 p hj hn0 hp hpl
  · intro j n2 hn2 hj
    obtain ⟨n0, hn0, _, hpar, _⟩ := hsame j n2 hn2
    rw [hpar]
    exact R.lord.dead j n0 hn0 hj
  · intro j n2 p hn2 hp
    obtain ⟨n0, hn0, _, hpar, _⟩ := hsame j n2 hn2
    rw [hpar] at hp
    obtain ⟨m, hm⟩ := R.parent_heap j n0 p hn0 hp
    exact hupd_some _ _ ⟨m, hm⟩
  · intro j n2 k2 t hn2 hct
    obtain ⟨n0, hn0, _, _, hch⟩ := hsame j n2 hn2
    have hct0 : (k2, t) ∈ n0.children := by
      rcases hch with he | he
      · exact he ▸ hct
      · rw [he] at hct
        simp at hct
    obtain ⟨m, hm⟩ := R.child_heap j n0 k2 t hn0 hct0
    exact hupd_some _ _ ⟨m, hm⟩
  · intro j n2 hj hn2
    obtain ⟨n0, hn0, _, _, hch⟩ := hsame j n2 hn2
    rcases hch with he | he
    · rw [he]
      exact R.children_nodup j n0 hj hn0
    · rw [he]
      simp
  · intro j n2 k2 t hj hn2 hct ht
    obtain ⟨n0, hn0, _, _, hch⟩ := hsame j n2 hn2
    have hct0 : (k2, t) ∈ n0.children := by
      rcases hch with he | he
      · exact he ▸ hct
      · rw [he] at hct
        simp at hct
    obtain ⟨m, hm, hmk, hmp⟩ := R.children_live j n0 k2 t hj hn0 hct0 ht
    obtain ⟨m2, hm2, hk2e, hp2e⟩ := hup t m hm
    exact ⟨m2, hm2, by rw [hk2e, hmk], by rw [hp2e, hmp]⟩
  · intro i1 n1 i2 n2 k1 k2 t h1 h2 hn1 hn2 hc1 hc2
    obtain ⟨m1, hm1, _, _, hch1⟩ := hsame i1 n1 hn1
    obtain ⟨m2, hm2, _, _, hch2⟩ := hsame i2 n2 hn2
    have hc10 : (k1, t) ∈ m1.children := by
      rcases hch1 with he | he
      · exact he ▸ hc1
      · rw [he] at hc1
        simp at hc1
    have hc20 : (k2, t) ∈ m2.children := by
      rcases hch2 with he | he
      · exact he ▸ hc2
      · rw [he] at hc2
        simp at hc2
    exact R.own_unique i1 m1 i2 m2 k1 k2 t h1 h2 hm1 hm2 hc10 hc20
  · intro j n2 hj hn2 hp
    obtain ⟨n0, hn0, _, hpar, _⟩ := hsame j n2 hn2
    rw [hpar] at hp
    exact R.root_top j n0 hj hn0 hp

/-- The recursive removal preserves the relaxed invariant, with no
assumption on the id being visited. -/
theorem removeRec_RInv {c : Cache K V} : ∀ (fuel y : Nat) (s : RSt K V),
    RInv c s → RInv c (removeRec fuel y s) := by
  intro fuel
  induction fuel with
  | zero =>
    intro y s R
    exact R
  | succ fuel ih =>
    intro y s R
    cases hn : hlook s.heap y with
    | none =>
      rw [removeRec_succ_none hn]
      exact R
    | some n =>
      rw [removeRec_succ_some hn]
      have R1 : RInv c ⟨hupd s.heap y fun m => { m with parent := none },
          adel s.keysMap n.key, s.lru.erase y, s.count + 1⟩ := by
        by_cases hy : y ∈ s.lru
        · exact RInv_phase1_live R hy hn
        · exact RInv_phase1_dead R hy hn
      exact RInv_phase3 (foldl_rst (P := fun a b => RInv c a → RInv c b)
        (fun a h => h) (fun a b c2 h1 h2 h => h2 (h1 h))
        (fun st ck => ih ck.2 st) n.children _ R1) y

theorem removeRec_nodup : ∀ (fuel y : Nat) (s : RSt K V),
    s.lru.Nodup → (removeRec fuel y s).lru.Nodup := by
  intro fuel
  induction fuel with
  | zero =>
    intro y s h
    exact h
  | succ fuel ih =>
    intro y s h
    cases hn : hlook s.heap y with
    | none =>
      rw [removeRec_succ_none hn]
      exact h
    | some n =>
      rw [removeRec_succ_some hn]
      exact foldl_rst (P := fun a b => a.lru.Nodup → b.lru.Nodup)
        (fun a hh => hh) (fun a b c2 h1 h2 hh => h2 (h1 hh))
        (fun st ck => ih ck.2 st) n.children _ (h.erase y)

/-- A listed node that `removeRecursively` is called on ends up
unlinked from the recency list. -/
theorem removeRec_kills {fuel y : Nat} {s : RSt K V} (hf : 0 < fuel)
    (hnd : s.lru.Nodup) (hn : ∃ n, hlook s.heap y = some n) :
    y ∉ (removeRec fuel y s).lru := by
  obtain ⟨n, hn⟩ := hn
  cases fuel with
  | zero => omega
  | succ fuel =>
    rw [removeRec_succ_some hn]
    intro hmem
    have hev := foldl_rst (K := K) (V := V) REvol_refl
      (fun _ _ _ => REvol_trans) (fun st ck => removeRec_evol fuel ck.2 st)
      n.children ⟨hupd s.heap y fun m => { m with parent := none },
        adel s.keysMap n.key, s.lru.erase y, s.count + 1⟩
    have hm2 : y ∈ s.lru.erase y := hev.2.2.1.subset hmem
    exact (hnd.mem_erase_iff.mp hm2).1 rfl

/-- A closed node (empty children, nil parent) stays closed across any
removal evolution. -/
theorem closed_evol {a b : RSt K V} (he : REvol a b) {t : Nat}
    (h : ∃ m, hlook a.heap t = some m ∧ m.children = [] ∧ m.parent = none) :
    ∃ m', hlook b.heap t = some m' ∧ m'.children = [] ∧
      m'.parent = none := by
  obtain ⟨m, hm, hc, hp⟩ := h
  have hk : t ∈ b.heap.map Prod.fst := by
    rw [he.1]
    exact alook_mem_keys hm
  obtain ⟨m', hm'⟩ := mem_keys_alook hk
  obtain ⟨m0, hm0, _, hp', hc'⟩ := he.2.2.2 t m' hm'
  rw [hm] at hm0
  obtain rfl := Option.some.inj hm0
  refine ⟨m', hm', ?_, ?_⟩
  · rcases hc' with h3 | h3
    · rw [h3, hc]
    · exact h3
  · rcases hp' with h3 | h3
    · rw [h3, hp]
    · exact h3

/-- Closure: every id present on the recency list when `removeRecursively`
starts and absent when it finishes ends the call closed — empty children
and nil parent. -/
theorem removeRec_closed : ∀ (fuel y : Nat) (s : RSt K V) (t : Nat),
    s.lru.Nodup → t ∈ s.lru → t ∉ (removeRec fuel y s).lru →
    ∃ m, hlook (removeRec fuel y s).heap t = some m ∧
      m.children = [] ∧ m.parent = none := by
  intro fuel
  induction fuel with
  | zero =>
    intro y s t _ ht hnt
    exact absurd ht hnt
  | succ fuel ih =>
    intro y s t hnd ht hnt
    cases hn : hlook s.heap y with
    | none =>
      rw [removeRec_succ_none hn] at hnt ⊢
      exact absurd ht hnt
    | some n =>
      rw [removeRec_succ_some hn] at hnt ⊢
      by_cases hty : t = y
      · subst hty
        have hev := foldl_rst (K := K) (V := V) REvol_refl
          (fun _ _ _ => REvol_trans)
          (fun st ck => removeRec_evol fuel ck.2 st)
          n.children ⟨hupd s.heap t fun m => { m with parent := none },
            adel s.keysMap n.key, s.lru.erase t, s.count + 1⟩
        have hk1 : t ∈ (n.children.foldl (fun st ck =>
            removeRec fuel ck.2 st)
            ⟨hupd s.heap t fun m => { m with parent := none },
              adel s.keysMap n.key, s.lru.erase t,
              s.count + 1⟩).heap.map Prod.fst := by
          rw [hev.1]
          show t ∈ (hupd s.heap t fun m =>
            { m with parent := none }).map Prod.fst
          rw [hupd_keys]
          exact alook_mem_keys hn
        obtain ⟨m2, hm2⟩ := mem_keys_alook hk1
        have hm2h : hlook (n.children.foldl (fun st ck =>
            removeRec fuel ck.2 st)
            ⟨hupd s.heap t fun m => { m with parent := none },
              adel s.keysMap n.key, s.lru.erase t,
              s.count + 1⟩).heap t = some m2 := hm2
        refine ⟨{ m2 with children := [] }, ?_, rfl, ?_⟩
        · show hlook (hupd _ t fun m => { m with children := [] }) t = _
          rw [hlook_hupd_self, hm2h]
          rfl
        · obtain ⟨m1, hm1, _, hp', _⟩ := hev.2.2.2 t m2 hm2h
          have hm1v : hlook (hupd s.heap t fun m =>
              { m with parent := none }) t =
              some { n with parent := none } := by
            rw [hlook_hupd_self, hn]
            rfl
          rw [hm1v] at hm1
          obtain rfl := Option.some.inj hm1
          show m2.parent = none
          rcases hp' with h3 | h3
          · exact h3
          · exact h3
      · have ht1 : t ∈ s.lru.erase y := (List.mem_erase_of_ne hty).mpr ht
        have hfold : ∀ (cl : List (K × Nat)) (st : RSt K V), st.lru.Nodup →
            t ∈ st.lru →
            t ∉ (cl.foldl (fun a ck => removeRec fuel ck.2 a) st).lru →
            ∃ m, hlook (cl.foldl (fun a ck =>
              removeRec fuel ck.2 a) st).heap t = some m ∧
              m.children = [] ∧ m.parent = none := by
          intro cl
          induction cl with
          | nil =>
            intro st _ ht2 hnt2
            exact absurd ht2 hnt2
          | cons ck tl ihc =>
            intro st hnd2 ht2 hnt2
            simp only [List.foldl_cons] at hnt2 ⊢
            by_cases hts : t ∈ (removeRec fuel ck.2 st).lru
            · exact ihc _ (removeRec_nodup fuel ck.2 st hnd2) hts hnt2
            · have hclosed := ih ck.2 st t hnd2 ht2 hts
              exact closed_evol (foldl_rst (K := K) (V := V) REvol_refl
                (fun _ _ _ => REvol_trans)
                (fun a ck2 => removeRec_evol fuel ck2.2 a) tl _) hclosed
        obtain ⟨m, hm, hc, hp⟩ := hfold n.children _ (hnd.erase y) ht1 hnt
        refine ⟨m, ?_, hc, hp⟩
        show hlook (hupd _ y fun m2 => { m2 with children := [] }) t = some m
        rw [hlook_hupd_ne _ _ hty]
        exact hm

/-- `Remove` preserves the structural invariant.  The dead-target clause
of `children_ok` survives even though the recursion leaves stale child
references: every node it unlinks ends the call with empty children and
a nil parent. -/
theorem Inv_remove {c : Cache K V} (I : Inv c) (k : K) :
    Inv (remove c k).1 := by
  unfold remove
  cases hk : alook c.keysMap k with
  | none => exact I
  | some x0 =>
    show Inv { c with
      heap := removeFromParentH (removeRec (chainFuel c) x0
        ⟨c.heap, c.keysMap, c.lruList, 0⟩).heap x0,
      keysMap := (removeRec (chainFuel c) x0
        ⟨c.heap, c.keysMap, c.lruList, 0⟩).keysMap,
      lruList := (removeRec (chainFuel c) x0
        ⟨c.heap, c.keysMap, c.lruList, 0⟩).lru,
      stats := { c.stats with amount := (removeRec (chainFuel c) x0
        ⟨c.heap, c.keysMap, c.lruList, 0⟩).keysMap.length } }
    have hndc : c.lruList.Nodup := I.lord.nodup
    have R0 : RInv c ⟨c.heap, c.keysMap, c.lruList, 0⟩ := by
      refine ⟨rfl, List.Sublist.refl _, List.Sublist.refl _, I.km_nodup,
        I.km_heap, I.km_lru, I.lru_heap, I.lord, I.parent_heap,
        I.child_heap, I.children_nodup, ?_, I.own_unique, I.root_top⟩
      intro i n k2 j hi hn hc2 hj
      exact (I.children_ok i n k2 j hi hn hc2).1 hj
    set s := removeRec (chainFuel c) x0
      (⟨c.heap, c.keysMap, c.lruList, 0⟩ : RSt K V) with hs
    have R : RInv c s := removeRec_RInv (chainFuel c) x0 _ R0
    obtain ⟨nx0, hnx0, _⟩ := I.km_heap k x0 hk
    have hx0lru : x0 ∈ c.lruList := I.km_lru k x0 hk
    have hkill : x0 ∉ s.lru :=
      removeRec_kills (Nat.succ_pos _) hndc ⟨nx0, hnx0⟩
    have hcx0 : ∃ m, hlook s.heap x0 = some m ∧ m.children = [] ∧
        m.parent = none :=
      removeRec_closed (chainFuel c) x0 _ x0 hndc hx0lru hkill
    obtain ⟨mx, hmx, hmxc, hmxp⟩ := hcx0
    have hrfp : removeFromParentH s.heap x0 = s.heap := by
      simp [removeFromParentH, hmx, hmxp]
    rw [hrfp]
    have hev : REvol ⟨c.heap, c.keysMap, c.lruList, 0⟩ s :=
      removeRec_evol (chainFuel c) x0 _
    refine ⟨R.km_nodup, ?_, ?_, R.km_heap, R.km_lru, R.lru_heap, R.lord,
      R.parent_heap, R.child_heap, R.children_nodup, ?_, R.own_unique,
      ?_, ?_⟩
    · show (s.heap.map Prod.fst).Nodup
      rw [R.hkeys]
      exact I.heap_nodup
    · intro q hq
      show q.1 < c.nextId
      have hq1 : q.1 ∈ c.heap.map Prod.fst := by
        rw [← R.hkeys]
        exact List.mem_map_of_mem _ hq
      obtain ⟨q0, hq0, hq0e⟩ := List.mem_map.mp hq1
      rw [← hq0e]
      exact I.heap_fresh q0 hq0
    · intro z n k2 t hz hn hct
      constructor
      · intro htl
        exact R.children_live z n k2 t hz hn hct htl
      · intro htn
        by_cases htc : t ∈ c.lruList
        · obtain ⟨m, hm, hc2, _⟩ :=
            removeRec_closed (chainFuel c) x0 _ t hndc htc htn
          exact ⟨m, hm, hc2⟩
        · have hzl0 : z ∈ c.lruList := R.hlru.subset hz
          obtain ⟨n0, hn0, _, _, hch⟩ := hev.2.2.2 z n hn
          have hct0 : (k2, t) ∈ n0.children := by
            rcases hch with he | he
            · exact he ▸ hct
            · rw [he] at hct
              simp at hct
          obtain ⟨m0, hm0, hm0c⟩ :=
            (I.children_ok z n0 k2 t hzl0 hn0 hct0).2 htc
          obtain ⟨m', hm', hc', _⟩ :=
            closed_evol hev ⟨m0, hm0, hm0c, I.lord.dead t m0 hm0 htc⟩
          exact ⟨m', hm', hc'⟩
    · intro i n hi hn hp
      show c.root = some i
      exact R.root_top i n hi hn hp
    · intro hr
      have h0 : c.heap = [] := I.root_empty hr
      have hke : s.heap.map Prod.fst = [] := by
        rw [R.hkeys, h0]
        rfl
      show s.heap = []
      exact List.map_eq_nil_iff.mp hke

/-! ### Reachable states -/

/-- One public operation of the cache API, as a step relation on states. -/
inductive Step : Cache K V → Cache K V → Prop where
  | addRoot (k : K) (v : V) {c : Cache K V} : Step c (addRoot c k v).1
  | add (k : K) (v : V) (pk : K) {c : Cache K V} : Step c (add c k v pk).1
  | addOrUpdate (k : K) (v : V) (pk : K) {c : Cache K V} :
      Step c (addOrUpdate c k v pk).1
  | peek (k : K) {c : Cache K V} : Step c (peek c k).1
  | get (k : K) {c : Cache K V} : Step c (get c k).1
  | peekBranch (k : K) {c : Cache K V} : Step c (peekBranch c k).1
  | getBranch (k : K) {c : Cache K V} : Step c (getBranch c k).1
  | traverseToRoot (k : K) {c : Cache K V} : Step c (traverseToRoot c k).1
  | traverseSubtree (k : K) (md : Int) {c : Cache K V} :
      Step c (traverseSubtree c k md).1
  | remove (k : K) {c : Cache K V} : Step c (remove c k).1

/-- A state is reachable when some sequence of public operations produces
it from a freshly constructed cache. -/
def Reach (c : Cache K V) : Prop :=
  ∃ m : Int, Relation.ReflTransGen Step (newCache m) c

/-- Every reachable state satisfies the structural invariant. -/
theorem Reach_Inv {c : Cache K V} (h : Reach c) : Inv c := by
  obtain ⟨m, hr⟩ := h
  induction hr with
  | refl => exact Inv_newCache m
  | tail _ hstep ih =>
    cases hstep with
    | addRoot k v => exact Inv_addRoot ih k v
    | add k v pk => exact Inv_add ih k v pk
    | addOrUpdate k v pk => exact Inv_addOrUpdate ih k v pk
    | peek k => exact Inv_peek ih k
    | get k => exact Inv_get ih k
    | peekBranch k => exact Inv_peekBranch ih k
    | getBranch k => exact Inv_getBranch ih k
    | traverseToRoot k => exact Inv_traverseToRoot ih k
    | traverseSubtree k md => exact Inv_traverseSubtree ih k md
    | remove k => exact Inv_remove ih k

/-! ### Auxiliary facts for the claim theorems -/

theorem alook_none_of_not_mem {m : List (α × β)} {k : α}
    (h : k ∉ m.map Prod.fst) : alook m k = none := by
  cases hv : alook m k with
  | none => rfl
  | some v => exact absurd (alook_mem_keys hv) h

/-- Nothing is `before`-ordered after the last element of a duplicate-free
list. -/
theorem before_getLast {l : List Nat} {a b : Nat} (hnd : l.Nodup)
    (hb : before l a b) (hlast : l.getLast? = some a) : False := by
  obtain ⟨l2, rfl⟩ := exists_concat_of_getLast? hlast
  have hal2 : a ∉ l2 := by
    intro hmem
    exact (List.nodup_append.mp hnd).2.2 hmem (List.mem_singleton.mpr rfl)
  have hb2 : [a, b].Sublist (l2 ++ [a]) := hb
  rw [List.sublist_append_iff] at hb2
  obtain ⟨u, v, huv, hu, hv⟩ := hb2
  cases u with
  | nil =>
    rw [List.nil_append] at huv
    rw [← huv] at hv
    have := hv.length_le
    simp at this
  | cons x u2 =>
    have hx : x = a := by
      have := congrArg List.head? huv
      simpa using this.symm
    subst hx
    exact hal2 (hu.subset (List.mem_cons_self _ _))

theorem diff_eq_nil_of_subset : ∀ {t l : List Nat}, l.Nodup →
    (∀ x ∈ l, x ∈ t) → l.diff t = [] := by
  intro t
  induction t with
  | nil =>
    intro l _ hsub
    cases l with
    | nil => rfl
    | cons x u => exact absurd (hsub x (List.mem_cons_self x u)) (by simp)
  | cons a t2 ih =>
    intro l hnd hsub
    rw [List.diff_cons]
    refine ih (hnd.erase a) ?_
    intro x hx
    have hxl : x ∈ l := (List.erase_sublist a l).subset hx
    have hxa : x ≠ a := (hnd.mem_erase_iff.mp hx).1
    cases List.mem_cons.mp (hsub x hxl) with
    | inl h => exact absurd h hxa
    | inr h => exact h

/-- The subtree traversal only reorders the recency list. -/
theorem travGo_perm {h : List (Nat × Node K V)} {md : Int} :
    ∀ (fuel i d : Nat) (l : List Nat), (travGo h md fuel i d l).2.Perm l := by
  intro fuel
  induction fuel with
  | zero =>
    intro i d l
    exact List.Perm.refl l
  | succ fuel ih =>
    intro i d l
    show (travGo h md (fuel + 1) i d l).2.Perm l
    simp only [travGo]
    cases hn : hlook h i with
    | none => exact List.Perm.refl l
    | some n =>
      dsimp only
      by_cases hd : 0 ≤ md ∧ md ≤ (d : Int)
      · rw [if_pos hd]
        exact mtf_perm l i
      · rw [if_neg hd]
        dsimp only
        have hfold : ∀ (cl : List (K × Nat))
            (acc : List (CacheNode K V) × List Nat),
            ((cl.foldl (fun acc ck =>
              ((acc.1 ++ (travGo h md fuel ck.2 (d + 1) acc.2).1,
                (travGo h md fuel ck.2 (d + 1) acc.2).2) :
                List (CacheNode K V) × List Nat)) acc).2).Perm acc.2 := by
          intro cl
          induction cl with
          | nil =>
            intro acc
            exact List.Perm.refl acc.2
          | cons ck tl ihc =>
            intro acc
            rw [List.foldl_cons]
            exact (ihc _).trans (ih ck.2 (d + 1) acc.2)
        exact (mtf_perm _ _).trans ((hfold n.children ([toCacheNode h n], l)))

theorem traverseSubtree_lru_perm (c : Cache K V) (k : K) (md : Int) :
    (traverseSubtree c k md).1.lruList.Perm c.lruList := by
  unfold traverseSubtree
  cases hk : alook c.keysMap k with
  | none => exact List.Perm.refl _
  | some i =>
    dsimp only
    exact (foldl_mtf_perm _ _).trans (travGo_perm _ _ _ _)

theorem evict_stats (c : Cache K V) : (evict c).1.stats = c.stats := by
  unfold evict
  cases hl : c.lruList.getLast? with
  | none => rfl
  | some tid =>
    dsimp only
    cases hn : hlook c.heap tid with
    | none => rfl
    | some n => rfl

theorem evict_root (c : Cache K V) : (evict c).1.root = c.root := by
  unfold evict
  cases hl : c.lruList.getLast? with
  | none => rfl
  | some tid =>
    dsimp only
    cases hn : hlook c.heap tid with
    | none => rfl
    | some n => rfl

theorem addCore_frame {c c1 : Cache K V} {k : K} {v : V} {pk : K}
    (h : addCore c k v pk = .ok c1) : c1.stats = c.stats ∧
    c1.root = c.root := by
  unfold addCore at h
  cases hp : alook c.keysMap pk with
  | none =>
    rw [hp] at h
    exact absurd h (by simp)
  | some ip =>
    rw [hp] at h
    dsimp only at h
    cases hk : alook c.keysMap k with
    | some j =>
      rw [hk] at h
      exact absurd h (by simp)
    | none =>
      rw [hk] at h
      dsimp only at h
      simp only [Except.ok.injEq] at h
      subst h
      exact ⟨rfl, rfl⟩

theorem aupdCore_frame {c c1 : Cache K V} {k : K} {v : V} {pk : K}
    (h : addOrUpdateCore c k v pk = .ok c1) : c1.stats = c.stats ∧
    c1.root = c.root := by
  unfold addOrUpdateCore at h
  cases hp : alook c.keysMap pk with
  | none =>
    rw [hp] at h
    exact absurd h (by simp)
  | some ip =>
    rw [hp] at h
    dsimp only at h
    cases hk : alook c.keysMap k with
    | none =>
      rw [hk] at h
      exact addCore_frame h
    | some i =>
      rw [hk] at h
      dsimp only at h
      cases hn : hlook c.heap i with
      | none =>
        rw [hn] at h
        exact absurd h (by simp)
      | some n =>
        rw [hn] at h
        dsimp only at h
        by_cases hsp : n.parent = some ip
        · rw [if_pos hsp] at h
          simp only [Except.ok.injEq] at h
          subst h
          exact ⟨rfl, rfl⟩
        · rw [if_neg hsp] at h
          by_cases hcy : i ∈ chainIds c.heap (some ip) (chainFuel c)
          · rw [if_pos hcy] at h
            exact absurd h (by simp)
          · rw [if_neg hcy] at h
            simp only [Except.ok.injEq] at h
            subst h
            exact ⟨rfl, rfl⟩

theorem finishInsert_frame (c c1 : Cache K V) :
    ((finishInsert c c1).1).stats.evictions = c1.stats.evictions ∧
    ((finishInsert c c1).1).root = c1.root := by
  unfold finishInsert
  by_cases hc : 0 < c.maxEntries ∧ c.maxEntries < (c1.lruList.length : Int)
  · rw [if_pos hc]
    constructor
    · show (evict c1).1.stats.evictions = c1.stats.evictions
      rw [evict_stats]
    · show (evict c1).1.root = c1.root
      rw [evict_root]
  · rw [if_neg hc]
    exact ⟨rfl, rfl⟩

/-! ### Concrete executions exercising the claims -/

def cB0 : Cache Nat Nat := (addRoot (newCache 0) 0 0).1

def cB1 : Cache Nat Nat := (add cB0 1 11 0).1

def cB2 : Cache Nat Nat := (add cB1 2 22 1).1

/-- Capacity 3; a removal leaves a stale child reference inside a live
node, and two further insertions push that node to the recency tail. -/
def cEvx : Cache Nat Nat :=
  (add (remove (add (add (addRoot (newCache 3) 0 0).1 1 11 0).1
    2 22 1).1 2).1 3 33 0).1

/-- The key-hijack run: `Remove 1` ghost-revisits the stale child left by
`Remove 2` and deletes key `2`, which by then names a different, live
node. -/
def cHij : Cache Nat Nat :=
  (remove (add (add (remove (add (add (addRoot (newCache 0) 0 0).1
    1 11 0).1 2 22 1).1 2).1 2 222 0).1 3 33 2).1 1).1

/-- The ghost-revisit run before its final removal: keys `0` and `1`
present, key `1` childless, but its node still holds a stale reference. -/
def cGhost : Cache Nat Nat :=
  (remove (add (add (addRoot (newCache 0) 0 0).1 1 11 0).1 2 22 1).1 2).1

/-- The dangling-zombie run: a key hijack detaches a live node from the
key table, a re-insertion of the same key displaces its entry in the
parent's children map, and removing the parent then strands the node and
its keyed child. -/
def cZomb : Cache Nat Nat :=
  (remove (add (remove (add (add (add (remove (add (add (addRoot
    (newCache 0) 0 0).1 9 99 0).1 2 22 9).1 2).1 1 11 0).1 2 222 1).1
    3 33 2).1 9).1 2 2222 1).1 1).1

/-- The same construction with the stranded branch hanging under the
root, one step before `remove 0`. -/
def cZroot : Cache Nat Nat :=
  (add (remove (add (add (remove (add (add (addRoot (newCache 0) 0 0).1
    9 99 0).1 2 22 9).1 2).1 2 222 0).1 3 33 2).1 9).1 2 2222 0).1

/-- Capacity 1 with only the root stored. -/
def cCap : Cache Nat Nat := (addRoot (newCache 1) 0 0).1

theorem reach_cB1 : Reach cB1 :=
  ⟨0, .tail (.tail .refl (.addRoot 0 0)) (.add 1 11 0)⟩

theorem reach_cB2 : Reach cB2 :=
  ⟨0, .tail (.tail (.tail .refl (.addRoot 0 0)) (.add 1 11 0))
    (.add 2 22 1)⟩

theorem reach_cCap : Reach cCap := ⟨1, .tail .refl (.addRoot 0 0)⟩

theorem finishInsert_err (c c1 : Cache K V) :
    (finishInsert c c1).2.1 = none := by
  unfold finishInsert
  by_cases hc : 0 < c.maxEntries ∧ c.maxEntries < (c1.lruList.length : Int)
  · rw [if_pos hc]
  · rw [if_neg hc]

theorem peek_root (c : Cache K V) (k : K) : (peek c k).1.root = c.root := by
  unfold peek
  cases hk : alook c.keysMap k with
  | none => rfl
  | some i =>
    dsimp only
    cases hn : hlook c.heap i with
    | none => rfl
    | some n => rfl

theorem get_root (c : Cache K V) (k : K) : (get c k).1.root = c.root := by
  unfold get
  cases hk : alook c.keysMap k with
  | none => rfl
  | some i =>
    dsimp only
    cases hn : hlook c.heap i with
    | none => rfl
    | some n => rfl

theorem peekBranch_root (c : Cache K V) (k : K) :
    (peekBranch c k).1.root = c.root := by
  unfold peekBranch
  cases hk : alook c.keysMap k with
  | none => rfl
  | some i => rfl

theorem getBranch_root (c : Cache K V) (k : K) :
    (getBranch c k).1.root = c.root := by
  unfold getBranch
  cases hk : alook c.keysMap k with
  | none => rfl
  | some i => rfl

theorem traverseToRoot_root (c : Cache K V) (k : K) :
    (traverseToRoot c k).1.root = c.root := by
  unfold traverseToRoot
  cases hk : alook c.keysMap k with
  | none => rfl
  | some i => rfl

theorem traverseSubtree_root (c : Cache K V) (k : K) (md : Int) :
    (traverseSubtree c k md).1.root = c.root := by
  unfold traverseSubtree
  cases hk : alook c.keysMap k with
  | none => rfl
  | some i => rfl

theorem remove_root (c : Cache K V) (k : K) :
    (remove c k).1.root = c.root := by
  unfold remove
  cases hk : alook c.keysMap k with
  | none => rfl
  | some i => rfl

theorem add_root_eq (c : Cache K V) (k : K) (v : V) (pk : K) :
    (add c k v pk).1.root = c.root := by
  unfold add
  cases hc : addCore c k v pk with
  | error e => rfl
  | ok c1 => rw [(finishInsert_frame c c1).2, (addCore_frame hc).2]

theorem aupd_root_eq (c : Cache K V) (k : K) (v : V) (pk : K) :
    (addOrUpdate c k v pk).1.root = c.root := by
  unfold addOrUpdate
  cases hc : addOrUpdateCore c k v pk with
  | error e => rfl
  | ok c1 => rw [(finishInsert_frame c c1).2, (aupdCore_frame hc).2]

/-! ### The claims -/

/-- C2: the ancestor-presence claim fails.  In the state reached by
AddRoot 0; Add 1 under 0; Add 2 under 1; Remove 2; Add 2 under 0;
Add 3 under 2; Remove 1, the key 3 is present and its parent key is 2,
yet key 2 is absent from the key table: the final Remove ghost-revisited
the stale child reference left by Remove 2 and deleted key 2, which by
then named the live re-added node. -/
theorem C2_ancestor_absent_after_hijack :
    alook cHij.keysMap 3 = some 4 ∧
    (peek cHij 3).2 = some ⟨3, 33, 2⟩ ∧
    (peek cHij 2).2 = none ∧ alook cHij.keysMap 2 = none :=
  ⟨rfl, rfl, rfl, rfl⟩

/-- C3: the evictions counter of the statistics collector is never
advanced by `Add` or `AddOrUpdate` (the source's `evict` has no
`AddEvictions` call site), so the claimed collector contract is not
met on any eviction. -/
theorem C3_evictions_counter_never_incremented :
    (∀ (c : Cache K V) (k : K) (v : V) (pk : K),
      ((add c k v pk).1).stats.evictions = c.stats.evictions) ∧
    (∀ (c : Cache K V) (k : K) (v : V) (pk : K),
      ((addOrUpdate c k v pk).1).stats.evictions = c.stats.evictions) := by
  constructor
  · intro c k v pk
    unfold add
    cases hc : addCore c k v pk with
    | error e => rfl
    | ok c1 => rw [(finishInsert_frame c c1).1, (addCore_frame hc).1]
  · intro c k v pk
    unfold addOrUpdate
    cases hc : addOrUpdateCore c k v pk with
    | error e => rfl
    | ok c1 => rw [(finishInsert_frame c c1).1, (aupdCore_frame hc).1]

/-- C7: the removal count is wrong on ghost revisits.  With keys 0 and 1
stored (and key 1 a leaf after Remove 2), Remove 1 reports 2 removed
entries while the key table shrinks by one: the stale child reference
left by the earlier Remove 2 is revisited and counted again. -/
theorem C7_remove_overcounts_ghost :
    lenOf cGhost = 2 ∧ (remove cGhost 1).2 = 2 ∧
    lenOf (remove cGhost 1).1 = 1 :=
  ⟨rfl, rfl, rfl⟩

/-- C8: a branch returned for a present key need not start at the root.
In the dangling-zombie state the present key 3 sits under a node whose
parent chain ends at a removed, parentless non-root node (key 1), so
`GetBranch 3` returns a branch whose first element has key 1 while the
cache root is the key-0 node. -/
theorem C8_branch_head_not_root :
    alook cZomb.keysMap 3 = some 5 ∧
    cZomb.root = some 0 ∧
    (hlook cZomb.heap 0).map (·.key) = some 0 ∧
    (getBranch cZomb 3).2 = [⟨1, 11, 0⟩, ⟨2, 222, 1⟩, ⟨3, 33, 2⟩] :=
  ⟨rfl, rfl, rfl, rfl⟩

/-- C6: insertion errors are atomic.  Every error return of `AddRoot`,
`Add` and `AddOrUpdate` leaves the cache exactly as it was, and
reparenting a stored entry under any member of a parent chain that
contains the entry itself (in particular any of its strict descendants)
fails with `cycleDetected` and mutates nothing. -/
theorem C6_insertion_errors_atomic :
    (∀ (c : Cache K V) (k : K) (v : V), ((addRoot c k v).2).isSome →
      (addRoot c k v).1 = c) ∧
    (∀ (c : Cache K V) (k : K) (v : V) (pk : K),
      ((add c k v pk).2.1).isSome → (add c k v pk).1 = c) ∧
    (∀ (c : Cache K V) (k : K) (v : V) (pk : K),
      ((addOrUpdate c k v pk).2.1).isSome → (addOrUpdate c k v pk).1 = c) ∧
    (∀ (c : Cache K V) (k : K) (v : V) (pk : K) (i ip : Nat), Reach c →
      alook c.keysMap k = some i → alook c.keysMap pk = some ip →
      i ∈ chainIds c.heap (some ip) (chainFuel c) →
      addOrUpdate c k v pk = (c, some .cycleDetected, none)) := by
  refine ⟨?_, ?_, ?_, ?_⟩
  · intro c k v h
    unfold addRoot at h ⊢
    cases hr : c.root with
    | some r => rfl
    | none =>
      rw [hr] at h
      simp at h
  · intro c k v pk h
    unfold add at h ⊢
    cases hc : addCore c k v pk with
    | error e => rfl
    | ok c1 =>
      rw [hc] at h
      rw [finishInsert_err] at h
      simp at h
  · intro c k v pk h
    unfold addOrUpdate at h ⊢
    cases hc : addOrUpdateCore c k v pk with
    | error e => rfl
    | ok c1 =>
      rw [hc] at h
      rw [finishInsert_err] at h
      simp at h
  · intro c k v pk i ip h hk hp hchain
    have I := Reach_Inv h
    have hilru := I.km_lru k i hk
    have hiplru := I.km_lru pk ip hp
    obtain ⟨n, hn, _⟩ := I.km_heap k i hk
    have hnp : n.parent ≠ some ip := by
      intro hpar
      have hbip : before c.lruList ip i :=
        I.lord.ord i n ip hilru hn hpar hiplru
      have hch2 := hchain
      rw [(LOrd.complete I.lord hiplru (idx_lt_chainFuel hiplru)).1] at hch2
      rcases (chain_props I.lord (c.lruList.indexOf ip) ip hiplru
          le_rfl).2.1 i hch2 with rfl | ⟨_, hbefore⟩ | hnl
      · exact before_irrefl I.lord.nodup hbip
      · exact before_asymm I.lord.nodup hbefore hbip
      · exact hnl hilru
    have hcore : addOrUpdateCore c k v pk = .error .cycleDetected := by
      unfold addOrUpdateCore
      rw [hp]
      dsimp only
      rw [hk]
      dsimp only
      rw [hn]
      dsimp only
      rw [if_neg hnp, if_pos hchain]
    unfold addOrUpdate
    rw [hcore]

/-- C6 instance: in the three-node chain 0 → 1 → 2, reparenting the root
key 0 under its strict descendant 2 fails with `cycleDetected` and
leaves the cache unchanged. -/
theorem C6_insertion_errors_atomic_witness :
    addOrUpdate cB2 0 99 2 = (cB2, some .cycleDetected, none) :=
  C6_insertion_errors_atomic.2.2.2 cB2 0 99 2 0 2 reach_cB2 (by decide)
    (by decide) (by decide)

/-- C9: once a root exists the root pointer is permanent — `AddRoot`
fails forever and no operation clears the pointer; `Remove` of a present
key always deletes that key but keeps the root pointer; and from an
empty key table `Add` and `AddOrUpdate` can only fail with
`parentNotExist`.  (The original claim's stronger statement that
`Remove(rootKey)` always empties the table is refuted separately.) -/
theorem C9_root_slot_permanent :
    (∀ (c : Cache K V) (k : K) (v : V), c.root.isSome →
      addRoot c k v = (c, some .rootAlreadyExists)) ∧
    (∀ (c c' : Cache K V), Step c c' → c.root.isSome → c'.root.isSome) ∧
    (∀ (c : Cache K V) (k : K) (i : Nat), Reach c →
      alook c.keysMap k = some i →
      alook ((remove c k).1).keysMap k = none ∧
      ((remove c k).1).root = c.root) ∧
    (∀ (c : Cache K V) (k : K) (v : V) (pk : K), c.keysMap = [] →
      (add c k v pk).2.1 = some .parentNotExist ∧
      (addOrUpdate c k v pk).2.1 = some .parentNotExist) := by
  refine ⟨?_, ?_, ?_, ?_⟩
  · intro c k v hr
    unfold addRoot
    cases hro : c.root with
    | none =>
      rw [hro] at hr
      simp at hr
    | some r => rfl
  · intro c c' hstep hr
    cases hstep with
    | addRoot k v =>
      unfold addRoot
      cases hro : c.root with
      | none =>
        rw [hro] at hr
        simp at hr
      | some r => exact hr
    | add k v pk =>
      rw [add_root_eq]
      exact hr
    | addOrUpdate k v pk =>
      rw [aupd_root_eq]
      exact hr
    | peek k =>
      rw [peek_root]
      exact hr
    | get k =>
      rw [get_root]
      exact hr
    | peekBranch k =>
      rw [peekBranch_root]
      exact hr
    | getBranch k =>
      rw [getBranch_root]
      exact hr
    | traverseToRoot k =>
      rw [traverseToRoot_root]
      exact hr
    | traverseSubtree k md =>
      rw [traverseSubtree_root]
      exact hr
    | remove k =>
      rw [remove_root]
      exact hr
  · intro c k i h hk
    refine ⟨?_, remove_root c k⟩
    have I := Reach_Inv h
    obtain ⟨n, hn, hkey⟩ := I.km_heap k i hk
    unfold remove
    rw [hk]
    dsimp only
    rw [show chainFuel c = c.lruList.length + 1 + 1 from rfl]
    rw [removeRec_succ_some
      (show hlook (⟨c.heap, c.keysMap, c.lruList, 0⟩ : RSt K V).heap i =
        some n from hn)]
    apply alook_none_of_not_mem
    intro hmem
    have hev := foldl_rst (K := K) (V := V) REvol_refl
      (fun _ _ _ => REvol_trans)
      (fun st ck => removeRec_evol (c.lruList.length + 1) ck.2 st)
      n.children ⟨hupd c.heap i fun m => { m with parent := none },
        adel c.keysMap n.key, c.lruList.erase i, 0 + 1⟩
    have hmem2 := (hev.2.1.map Prod.fst).subset hmem
    obtain ⟨v2, hv2⟩ := mem_keys_alook hmem2
    rw [hkey, alook_adel_self _ _ I.km_nodup] at hv2
    simp at hv2
  · intro c k v pk he
    constructor
    · unfold add addCore
      rw [he]
      rfl
    · unfold addOrUpdate addOrUpdateCore
      rw [he]
      rfl

/-- C9 instance: with the root stored, a second `AddRoot` fails with
`rootAlreadyExists` and changes nothing. -/
theorem C9_root_slot_permanent_witness :
    addRoot cB1 5 55 = (cB1, some .rootAlreadyExists) :=
  C9_root_slot_permanent.1 cB1 5 55 (by decide)

/-- C9 counterexample: removing the root key need not empty the key
table.  In the prepared state a live branch was detached from the
children closure of the root by a key hijack followed by a same-key
re-insertion; `Remove 0` then reports a removal but leaves the key 3
entry behind, and a later `Add` under key 3 still succeeds. -/
theorem C9_remove_root_leaves_survivor :
    alook cZroot.keysMap 0 = some 0 ∧ cZroot.root = some 0 ∧
    lenOf (remove cZroot 0).1 = 1 ∧
    (remove cZroot 0).1.keysMap = [(3, 4)] ∧
    (add (remove cZroot 0).1 4 44 3).2.1 = none :=
  ⟨rfl, rfl, rfl, rfl, rfl⟩

/-- C4 counterexample: after AddRoot 0; Add 1 under 0 the recency list is
`[0, 1]`; `GetBranch 1` promotes in target-to-root order, so the final
list is again `[0, 1]` with the root frontmost — not the claimed
`[1, 0]` with the target key frontmost. -/
theorem C4_root_frontmost_not_target :
    (getBranch cB1 1).1.lruList = [0, 1] ∧
    ((getBranch cB1 1).2).map (·.key) = [0, 1] :=
  ⟨rfl, rfl⟩

/-- C5 counterexample: on the chain 0 → 1 → 2, `TraverseSubtree 0` visits
in pre-order 0, 1, 2 but promotes post-order, so the final recency list
is `[0, 1, 2]`: the last-visited entry 2 ends least recent, not most
recent as claimed. -/
theorem C5_postorder_promotion :
    ((traverseSubtree cB2 0 (-1)).2).map (·.key) = [0, 1, 2] ∧
    (traverseSubtree cB2 0 (-1)).1.lruList = [0, 1, 2] :=
  ⟨rfl, rfl⟩

/-- C1 counterexample: an evicted entry can carry stale child references.
At capacity 3, after a removal leaves a stale child inside the key-1
node, inserting key 4 triggers an eviction whose victim is exactly that
node — its children map still holds the stale entry `(2, 2)`, so the
evicted entry does not have zero children. -/
theorem C1_stale_children_at_eviction :
    (add cEvx 4 44 0).2.2 = some ⟨1, 11, 0⟩ ∧
    ((addCore cEvx 4 44 0).toOption.bind fun c6 =>
      (c6.lruList.getLast?.bind (hlook c6.heap)).map
        fun n => n.children) = some [(2, 2)] :=
  ⟨rfl, rfl⟩

/-- C1: leaf-only eviction holds for the live tree.  In every reachable
state, the recency-list tail — the entry `evict` removes — has no child
reference whose target is still on the recency list: the evicted entry
is a leaf among stored entries.  (Stale references to already-removed
nodes may remain; see the counterexample.) -/
theorem C1_evicted_tail_no_live_children (c : Cache K V) (h : Reach c)
    (t : Nat) (n : Node K V) (ht : c.lruList.getLast? = some t)
    (hn : hlook c.heap t = some n) :
    n.children.all (fun ck => decide (ck.2 ∉ c.lruList)) = true := by
  have I := Reach_Inv h
  rw [List.all_eq_true]
  intro ck hck
  rw [decide_eq_true_eq]
  intro hjl
  have htl : t ∈ c.lruList := by
    obtain ⟨l2, hl2⟩ := exists_concat_of_getLast? ht
    rw [hl2]
    simp
  obtain ⟨m, hm, hmk, hmp⟩ := (I.children_ok t n ck.1 ck.2 htl hn
    (show (ck.1, ck.2) ∈ n.children from hck)).1 hjl
  exact before_getLast I.lord.nodup
    (I.lord.ord ck.2 m t hjl hm hmp htl) ht

/-- C1 instance: in the two-node state the recency tail is the key-1
leaf, and none of its child references is live. -/
theorem C1_evicted_tail_no_live_children_witness :
    (⟨1, 11, some 0, []⟩ : Node Nat Nat).children.all
      (fun ck => decide (ck.2 ∉ cB1.lruList)) = true :=
  C1_evicted_tail_no_live_children cB1 reach_cB1 1 ⟨1, 11, some 0, []⟩
    (by decide) (by decide)

/-- C4: what `GetBranch` really does to the recency list.  The visited
chain is promoted in target-to-root order, so the final list is the
reversed live chain (root frontmost, target key deepest of the chain)
followed by the untouched remainder — the root, not the target, ends up
most recent. -/
theorem C4_getBranch_promotion_closed_form (c : Cache K V) (h : Reach c)
    (k : K) (i : Nat) (hk : alook c.keysMap k = some i) :
    (getBranch c k).1.lruList =
      ((chainIds c.heap (some i) (chainFuel c)).filter
        (· ∈ c.lruList)).reverse ++
      c.lruList.diff ((chainIds c.heap (some i) (chainFuel c)).filter
        (· ∈ c.lruList)) := by
  have I := Reach_Inv h
  have hi := I.km_lru k i hk
  unfold getBranch
  rw [hk]
  dsimp only
  rw [foldl_mtf_filter]
  apply foldl_mtf_eq
  · have hcf := (LOrd.complete I.lord hi (idx_lt_chainFuel hi)).1
    rw [hcf]
    exact ((chain_props I.lord (c.lruList.indexOf i) i hi le_rfl).1).filter _
  · intro x hx
    exact of_decide_eq_true (List.mem_filter.mp hx).2

/-- C4 instance: the closed form at the two-node chain, where the final
list is `[0, 1]` — root first. -/
theorem C4_getBranch_promotion_closed_form_witness :
    (getBranch cB1 1).1.lruList =
      ((chainIds cB1.heap (some 1) (chainFuel cB1)).filter
        (· ∈ cB1.lruList)).reverse ++
      cB1.lruList.diff ((chainIds cB1.heap (some 1) (chainFuel cB1)).filter
        (· ∈ cB1.lruList)) :=
  C4_getBranch_promotion_closed_form cB1 reach_cB1 1 1 (by decide)

/-- C5: `TraverseSubtree` promotes post-order, so a visited parent always
ends up more recent than any of its live children — the opposite of the
claimed deeper-is-more-recent order; and an absent key produces no
visits. -/
theorem C5_parent_more_recent_after_traverseSubtree :
    (∀ (c : Cache K V), Reach c → ∀ (k : K) (i : Nat),
      alook c.keysMap k = some i → ∀ (n : Node K V),
      hlook c.heap i = some n → ∀ (k2 : K) (j : Nat),
      (k2, j) ∈ n.children → j ∈ c.lruList → ∀ md : Int,
      before (traverseSubtree c k md).1.lruList i j) ∧
    (∀ (c : Cache K V) (k : K) (md : Int), alook c.keysMap k = none →
      (traverseSubtree c k md).2 = []) := by
  constructor
  · intro c h k i hk n hn k2 j hcj hj md
    have I := Reach_Inv h
    have hi := I.km_lru k i hk
    obtain ⟨m, hm, hmk, hmp⟩ := (I.children_ok i n k2 j hi hn hcj).1 hj
    have I2 := Inv_traverseSubtree I k md
    have hperm := traverseSubtree_lru_perm c k md
    have hheap : (traverseSubtree c k md).1.heap = c.heap := by
      unfold traverseSubtree
      rw [hk]
    exact I2.lord.ord j m i (hperm.mem_iff.mpr hj)
      (by rw [hheap]; exact hm) hmp (hperm.mem_iff.mpr hi)
  · intro c k md hk
    unfold traverseSubtree
    rw [hk]

/-- C5 instance: after traversing the subtree of the root in the
two-node state, the root 0 is more recent than its child 1. -/
theorem C5_parent_more_recent_after_traverseSubtree_witness :
    before (traverseSubtree cB1 0 (-1)).1.lruList 0 1 :=
  C5_parent_more_recent_after_traverseSubtree.1 cB1 reach_cB1 0 0
    (by decide) ⟨0, 0, none, [(1, 1)]⟩ (by decide) 1 1 (by decide)
    (by decide) (-1)

/-- C10: a successful `Add` can evict the entry it just inserted.  When a
positive capacity equals the current recency-list length and every stored
entry lies on the new entry's parent chain, the insertion succeeds, the
promotion of the whole ancestor chain leaves the fresh entry at the
recency tail, and the capacity check evicts it at once: the eviction
callback receives the new key and value, and a subsequent `Peek` of the
key misses. -/
theorem C10_add_evicts_fresh_entry (c : Cache K V) (h : Reach c) (k : K)
    (v : V) (pk : K) (ip : Nat) (hk : alook c.keysMap k = none)
    (hp : alook c.keysMap pk = some ip)
    (hcap : c.maxEntries = (c.lruList.length : Int))
    (hpos : 0 < c.maxEntries)
    (hcov : ∀ j ∈ c.lruList, j ∈ chainIds c.heap (some ip) (chainFuel c)) :
    (add c k v pk).2.1 = none ∧
    (add c k v pk).2.2 = some ⟨k, v, pk⟩ ∧
    (peek (add c k v pk).1 k).2 = none := by
  have I := Reach_Inv h
  have hiplru : ip ∈ c.lruList := I.km_lru pk ip hp
  obtain ⟨nip, hnip, hnipkey⟩ := I.km_heap pk ip hp
  have hfresh_heap : ∀ m : Node K V, hlook c.heap c.nextId = some m → False := by
    intro m hm
    obtain ⟨q, hq, hqe⟩ := List.mem_map.mp (alook_mem_keys hm)
    have := I.heap_fresh q hq
    omega
  have hfresh_lru : c.nextId ∉ c.lruList := by
    intro hmem
    obtain ⟨m, hm⟩ := I.lru_heap _ hmem
    exact hfresh_heap m hm
  have hipne : ip ≠ c.nextId := fun he => hfresh_lru (he ▸ hiplru)
  set h2 := hupd ((c.nextId, (⟨k, v, some ip, []⟩ : Node K V)) :: c.heap) ip
    (fun m => { m with children := aset m.children k c.nextId }) with hh2
  set l2 := (chainIds h2 (some ip) (chainFuel c)).foldl mtf
    (c.nextId :: c.lruList) with hl2
  set CC : Cache K V := ({ c with heap := h2, nextId := c.nextId + 1, keysMap := aset c.keysMap k c.nextId, lruList := l2 } : Cache K V) with hCC
  have hcore : addCore c k v pk = .ok CC := by
    unfold addCore
    rw [hp]
    dsimp only
    rw [hk]
  have hinotchain : c.nextId ∉ chainIds c.heap (some ip) (chainFuel c) := by
    intro hmem
    rcases chainIds_mem_src hmem with he | ⟨q, m, hq, hpar⟩
    · exact hipne (Option.some.inj he)
    · obtain ⟨m2, hm2⟩ := I.parent_heap q m c.nextId hq hpar
      exact hfresh_heap m2 hm2
  have hagree : ∀ j, j ≠ c.nextId →
      (hlook h2 j).bind (·.parent) = (hlook c.heap j).bind (·.parent) := by
    intro j hj
    rw [hh2]
    by_cases hjip : j = ip
    · subst hjip
      rw [hlook_hupd_self, hlook_cons,
        if_neg (fun he => hj he.symm)]
      cases hn0 : hlook c.heap j with
      | none => rfl
      | some m => rfl
    · rw [hlook_hupd_ne _ _ hjip, hlook_cons,
        if_neg (fun he => hj he.symm)]
  have hch2 : chainIds h2 (some ip) (chainFuel c) =
      chainIds c.heap (some ip) (chainFuel c) :=
    chainIds_congr hagree hinotchain
  have hchFnodup : (chainIds c.heap (some ip) (chainFuel c)).Nodup := by
    rw [(LOrd.complete I.lord hiplru (idx_lt_chainFuel hiplru)).1]
    exact (chain_props I.lord (c.lruList.indexOf ip) ip hiplru le_rfl).1
  set chL := (chainIds c.heap (some ip) (chainFuel c)).filter
    (fun x => decide (x ∈ c.lruList)) with hchL
  have hchLsub : ∀ x ∈ chL, x ∈ c.lruList := by
    intro x hx
    rw [hchL] at hx
    exact of_decide_eq_true (List.mem_filter.mp hx).2
  have hlrusub : ∀ x ∈ c.lruList, x ∈ chL := by
    intro x hx
    rw [hchL]
    exact List.mem_filter.mpr ⟨hcov x hx, decide_eq_true hx⟩
  have hinotchL : c.nextId ∉ chL := by
    intro hmem
    rw [hchL] at hmem
    exact hinotchain (List.mem_filter.mp hmem).1
  have hl2eq : l2 = chL.reverse ++ [c.nextId] := by
    rw [hl2, hch2, foldl_mtf_filter]
    have hfeq : (chainIds c.heap (some ip) (chainFuel c)).filter
        (fun x => decide (x ∈ c.nextId :: c.lruList)) = chL := by
      rw [hchL]
      apply List.filter_congr
      intro x hx
      have hxne : x ≠ c.nextId := fun he => hinotchain (he ▸ hx)
      exact decide_eq_decide.mpr (by simp [List.mem_cons, hxne])
    rw [hfeq, foldl_mtf_eq (hchL ▸ hchFnodup.filter _)
      (fun x hx => List.mem_cons_of_mem _ (hchLsub x hx)),
      diff_cons_of_not_mem hinotchL,
      diff_eq_nil_of_subset I.lord.nodup hlrusub]
  have hlast : l2.getLast? = some c.nextId := by
    rw [hl2eq]
    exact List.getLast?_concat _
  have hlen : c.lruList.length ≤ chL.length :=
    (List.subperm_of_subset I.lord.nodup hlrusub).length_le
  have hcond : 0 < c.maxEntries ∧
      c.maxEntries < ((CC.lruList.length : Nat) : Int) := by
    refine ⟨hpos, ?_⟩
    show c.maxEntries < (l2.length : Int)
    rw [hcap, hl2eq]
    simp only [List.length_append, List.length_reverse, List.length_cons,
      List.length_nil]
    exact_mod_cast Nat.lt_succ_of_le hlen
  have hlookI : hlook h2 c.nextId = some ⟨k, v, some ip, []⟩ := by
    rw [hh2, hlook_hupd_ne _ _ (fun he => hipne he.symm), hlook_cons,
      if_pos rfl]
  have hlookIP : hlook h2 ip =
      some { nip with children := aset nip.children k c.nextId } := by
    rw [hh2, hlook_hupd_self, hlook_cons,
      if_neg (fun he => hipne he.symm), hnip]
    rfl
  have hev2 : (evict CC).2 = some ⟨k, v, pk⟩ := by
    unfold evict
    rw [show CC.lruList.getLast? = some c.nextId from hlast]
    dsimp only
    rw [show hlook CC.heap c.nextId = some ⟨k, v, some ip, []⟩ from hlookI]
    dsimp only
    show (some ⟨k, v, parentKeyOf CC.heap ⟨k, v, some ip, []⟩⟩ :
      Option (CacheNode K V)) = some ⟨k, v, pk⟩
    unfold parentKeyOf
    dsimp only
    rw [show hlook CC.heap ip =
      some { nip with children := aset nip.children k c.nextId } from hlookIP]
    dsimp only
    rw [hnipkey]
  have hevkm : (evict CC).1.keysMap = adel (aset c.keysMap k c.nextId) k := by
    unfold evict
    rw [show CC.lruList.getLast? = some c.nextId from hlast]
    dsimp only
    rw [show hlook CC.heap c.nextId = some ⟨k, v, some ip, []⟩ from hlookI]
  refine ⟨?_, ?_, ?_⟩
  · unfold add
    rw [hcore]
    exact finishInsert_err c CC
  · unfold add
    rw [hcore]
    dsimp only
    unfold finishInsert
    rw [if_pos hcond]
    exact hev2
  · unfold add
    rw [hcore]
    dsimp only
    unfold finishInsert
    rw [if_pos hcond]
    show (peek { (evict CC).1 with
      stats := { (evict CC).1.stats with
        amount := (evict CC).1.keysMap.length } } k).2 = none
    unfold peek
    rw [show ({ (evict CC).1 with
      stats := { (evict CC).1.stats with
        amount := (evict CC).1.keysMap.length } } : Cache K V).keysMap =
      adel (aset c.keysMap k c.nextId) k from hevkm,
      alook_adel_self _ _ (aset_keys_nodup _ _ _ I.km_nodup)]

/-- C10 instance: at capacity 1 with only the root stored, `Add 1 11 0`
succeeds, immediately evicts the entry it inserted (the callback receives
key 1 and value 11), and `Peek 1` then misses. -/
theorem C10_add_evicts_fresh_entry_witness :
    (add cCap 1 11 0).2.1 = none ∧
    (add cCap 1 11 0).2.2 = some ⟨1, 11, 0⟩ ∧
    (peek (add cCap 1 11 0).1 1).2 = none :=
  C10_add_evicts_fresh_entry cCap reach_cCap 1 11 0 0 (by decide)
    (by decide) (by decide) (by decide) (by decide)

end LruTree
